import Mathlib

/-!
# Priority queue on a doubly linked list (`src/lib/kernel/priority_queue.c`)

A shallow embedding of the intrusive max-heap of `priority_queue.c`.

* Memory is a table of `pq_elem` records indexed by address; a pointer is an
  `Option Nat` (`none` is `NULL`).  Cells beyond the table read as zeroed
  records and a write beyond the table extends it, so that reading after
  writing behaves as in a flat address space.
* A `struct pq` at address `pq` keeps its `head` sentinel at `pq` and its
  `tail` sentinel at `pq + 1`.
* Every C function becomes a function from the memory before the call to
  a result: the memory after it (and the returned value), or a fault.  A failed
  `ASSERT`, a dereference of `NULL` and an exhausted iteration budget are the
  three faults; a fault carries the memory at the point of failure.
* `int` is modelled by `Int`: ids are bounded by the number of linked nodes and
  priorities are only compared, so no arithmetic here can overflow for queues
  of fewer than `2^30` nodes.
-/

namespace PriorityQueue

/-- A pointer to a `struct pq_elem`; `none` is `NULL`. -/
abbrev Ptr := Option Nat

/-- The record `struct pq_elem` of `priority_queue.h`. -/
structure pq_elem where
  prev : Ptr
  next : Ptr
  parent : Ptr
  left : Ptr
  right : Ptr
  id : Int
  priority : Int
deriving DecidableEq, Repr

/-- The ways a call can fail to return. -/
inductive Fault where
  | assertion
  | null_deref
  | out_of_fuel
deriving DecidableEq, Repr

/-- Memory: the table of node records, indexed by address. -/
abbrev Mem := List pq_elem

/-- Results of the embedded C functions: the returned value, or the fault
together with the memory at the point of failure. -/
abbrev M := Except (Fault × Mem)

/-- Equality of results is decidable, so that concrete runs can be evaluated. -/
instance instDecidableEqM {α : Type} [DecidableEq α] : DecidableEq (M α)
  | Except.ok a, Except.ok b =>
    if h : a = b then isTrue (by rw [h]) else isFalse (by intro h2; cases h2; exact h rfl)
  | Except.error a, Except.error b =>
    if h : a = b then isTrue (by rw [h]) else isFalse (by intro h2; cases h2; exact h rfl)
  | Except.ok _, Except.error _ => isFalse (by intro h; cases h)
  | Except.error _, Except.ok _ => isFalse (by intro h; cases h)

/-- The zeroed record read from cells beyond the table. -/
def zero_elem : pq_elem :=
  { prev := none, next := none, parent := none, left := none, right := none,
    id := 0, priority := 0 }

/-- Reads the record at address `a`. -/
def rd (m : Mem) (a : Nat) : pq_elem := m.getD a zero_elem

/-- Writes the record at address `a`. -/
def wr (m : Mem) (a : Nat) (v : pq_elem) : Mem :=
  if a < m.length then m.set a v
  else m ++ (List.replicate (a - m.length) zero_elem ++ [v])

/-- Dereferences a pointer for reading: `*p`. -/
def load (m : Mem) : Ptr → M pq_elem
  | none => Except.error (Fault.null_deref, m)
  | some a => Except.ok (rd m a)

/-- Dereferences a pointer for writing one field: `p->field = ...`. -/
def store (m : Mem) (p : Ptr) (f : pq_elem → pq_elem) : M Mem :=
  match p with
  | none => Except.error (Fault.null_deref, m)
  | some a => Except.ok (wr m a (f (rd m a)))

/-- The address `&pq->head`. -/
def head_of (pq : Ptr) : Ptr := pq

/-- The address `&pq->tail`. -/
def tail_of (pq : Ptr) : Ptr := pq.map (fun a => a + 1)

/-- Modelled from the spec: the `ASSERT` macro of `../debug.h`, which is not
among the sources; a false condition terminates the caller at once, in the
memory `m` in which the condition was evaluated. -/
def ASSERT (m : Mem) (c : Bool) : M Unit :=
  if c then Except.ok () else Except.error (Fault.assertion, m)

/-- Embeds `pq_init`. -/
def pq_init (m : Mem) (pq : Ptr) : M Mem := do
  let m ← store m (head_of pq) (fun e => { e with prev := none })
  let m ← store m (head_of pq) (fun e => { e with next := tail_of pq })
  let m ← store m (tail_of pq) (fun e => { e with prev := head_of pq })
  let m ← store m (tail_of pq) (fun e => { e with next := none })
  store m (head_of pq) (fun e => { e with id := 0 })

/-- Embeds `pq_front`. -/
def pq_front (m : Mem) (pq : Ptr) : M Ptr := do
  ASSERT m (pq != none)
  let h ← load m (head_of pq)
  pure h.next

/-- Embeds `pq_back`. -/
def pq_back (m : Mem) (pq : Ptr) : M Ptr := do
  ASSERT m (pq != none)
  let t ← load m (tail_of pq)
  pure t.prev

/-- Embeds `pq_head`. -/
def pq_head (m : Mem) (pq : Ptr) : M Ptr := do
  ASSERT m (pq != none)
  pure (head_of pq)

/-- Embeds `pq_tail`. -/
def pq_tail (m : Mem) (pq : Ptr) : M Ptr := do
  ASSERT m (pq != none)
  pure (tail_of pq)

/-- The loop of `parent`: `k` iterations of
`if (elem->prev->prev == NULL) return NULL; elem = elem->prev;`.
The result `none` is the early `return NULL`. -/
def parent_loop (m : Mem) : Nat → Ptr → M (Option Ptr)
  | 0, elem => pure (some elem)
  | k + 1, elem => do
    let e ← load m elem
    let p ← load m e.prev
    if p.prev = none then pure none
    else parent_loop m k e.prev

/-- Embeds `parent`: returns the pointer and the memory after the side effect
on the discovered parent. -/
def parent (m : Mem) (elem : Ptr) : M (Ptr × Mem) := do
  ASSERT m (elem != none)
  let child := elem
  let e ← load m elem
  let i := Int.tdiv e.id 2
  match ← parent_loop m (e.id - i).toNat elem with
  | none => pure (none, m)
  | some elem => do
    let c ← load m child
    let e ← load m elem
    if c.id = e.id * 2 then
      let m ← store m elem (fun x => { x with left := child })
      pure (elem, m)
    else
      let m ← store m elem (fun x => { x with right := child })
      pure (elem, m)

/-- The loop shared by `left` and `right`: `k` iterations of
`if (elem->next->next == NULL) return NULL; elem = elem->next;`. -/
def child_loop (m : Mem) : Nat → Ptr → M (Option Ptr)
  | 0, elem => pure (some elem)
  | k + 1, elem => do
    let e ← load m elem
    let n ← load m e.next
    if n.next = none then pure none
    else child_loop m k e.next

/-- Embeds `left`. -/
def left (m : Mem) (elem : Ptr) : M Ptr := do
  ASSERT m (elem != none)
  let e ← load m elem
  let i := e.id * 2
  match ← child_loop m (i - e.id).toNat elem with
  | none => pure none
  | some elem => pure elem

/-- Embeds `right`. -/
def right (m : Mem) (elem : Ptr) : M Ptr := do
  ASSERT m (elem != none)
  let e ← load m elem
  let i := e.id * 2 + 1
  match ← child_loop m (i - e.id).toNat elem with
  | none => pure none
  | some elem => pure elem

/-- Embeds `pq_insert`. -/
def pq_insert (m : Mem) (before elem : Ptr) (priority : Int) : M Mem := do
  ASSERT m (before != none && elem != none)
  -- elem->id = before->prev->id + 1
  let b ← load m before
  let bp ← load m b.prev
  let m ← store m elem (fun x => { x with id := bp.id + 1 })
  -- elem->prev = before->prev
  let b ← load m before
  let m ← store m elem (fun x => { x with prev := b.prev })
  -- elem->next = before
  let m ← store m elem (fun x => { x with next := before })
  -- before->prev->next = elem
  let b ← load m before
  let m ← store m b.prev (fun x => { x with next := elem })
  -- before->prev = elem
  let m ← store m before (fun x => { x with prev := elem })
  -- elem->parent = parent(elem)
  let (p, m) ← parent m elem
  let m ← store m elem (fun x => { x with parent := p })
  let e ← load m elem
  let m ←
    (if e.parent ≠ none then do
      let pe ← load m e.parent
      if e.id = 2 * pe.id then
        store m e.parent (fun x => { x with left := elem })
      else if e.id = 2 * pe.id + 1 then
        store m e.parent (fun x => { x with right := elem })
      else pure m
    else pure m)
  -- elem->left = left(elem)
  let l ← left m elem
  let m ← store m elem (fun x => { x with left := l })
  let e ← load m elem
  let m ←
    (if e.left ≠ none then store m e.left (fun x => { x with parent := elem })
    else pure m)
  -- elem->right = right(elem)
  let r ← right m elem
  let m ← store m elem (fun x => { x with right := r })
  let e ← load m elem
  let m ←
    (if e.right ≠ none then store m e.right (fun x => { x with parent := elem })
    else pure m)
  store m elem (fun x => { x with priority := priority })

/-- Embeds `pq_push_back`. -/
def pq_push_back (m : Mem) (pq elem : Ptr) (priority : Int) : M Mem := do
  let t ← pq_tail m pq
  pq_insert m t elem priority

/-- Embeds `pq_remove`: returns the successor and the memory afterwards. -/
def pq_remove (m : Mem) (elem : Ptr) : M (Ptr × Mem) := do
  ASSERT m (elem != none)
  -- elem->prev->next = elem->next
  let e ← load m elem
  let m ← store m e.prev (fun x => { x with next := e.next })
  -- elem->next->prev = elem->prev
  let e ← load m elem
  let m ← store m e.next (fun x => { x with prev := e.prev })
  let e ← load m elem
  let m ←
    (if e.parent ≠ none then do
      let pe ← load m e.parent
      if elem = pe.left then store m e.parent (fun x => { x with left := none })
      else store m e.parent (fun x => { x with right := none })
    else pure m)
  let e ← load m elem
  let m ←
    (if e.left ≠ none then store m e.left (fun x => { x with parent := none })
    else pure m)
  let e ← load m elem
  let m ←
    (if e.right ≠ none then store m e.right (fun x => { x with parent := none })
    else pure m)
  let e ← load m elem
  pure (e.next, m)

/-- Embeds `pq_pop_front`. -/
def pq_pop_front (m : Mem) (pq : Ptr) : M (Ptr × Mem) := do
  let front ← pq_front m pq
  let (_, m) ← pq_remove m front
  pure (front, m)

/-- The loop of `pq_size`, with an iteration budget. -/
def pq_size_loop (m : Mem) (tail : Ptr) : Nat → Ptr → Nat → M Nat
  | 0, _, _ => Except.error (Fault.out_of_fuel, m)
  | fuel + 1, elem, cnt =>
    if elem = tail then pure cnt
    else do
      let e ← load m elem
      pq_size_loop m tail fuel e.next (cnt + 1)

/-- Embeds `pq_size`. -/
def pq_size (fuel : Nat) (m : Mem) (pq : Ptr) : M Nat := do
  let front ← pq_front m pq
  let tail ← pq_tail m pq
  pq_size_loop m tail fuel front 0

/-- Embeds `pq_empty`. -/
def pq_empty (m : Mem) (pq : Ptr) : M Bool := do
  let h ← load m (head_of pq)
  pure (h.next == tail_of pq)

/-- Embeds `exchange`. -/
def exchange (m : Mem) (fst snd : Ptr) : M Mem := do
  ASSERT m (fst != none && snd != none)
  let f ← load m fst
  let s ← load m snd
  let fnext := f.next
  let snext := s.next
  if fst = snd then pure m
  else if f.next = snd then do
    let (_, m) ← pq_remove m fst
    let s ← load m snd
    let sp ← load m s.prev
    let m ← store m snd (fun x => { x with id := sp.id + 1 })
    let f ← load m fst
    pq_insert m snext fst f.priority
  else if s.next = fst then do
    let (_, m) ← pq_remove m snd
    let f ← load m fst
    let fp ← load m f.prev
    let m ← store m fst (fun x => { x with id := fp.id + 1 })
    let s ← load m snd
    pq_insert m fnext snd s.priority
  else do
    let (_, m) ← pq_remove m fst
    let (_, m) ← pq_remove m snd
    let f ← load m fst
    let m ← pq_insert m snext fst f.priority
    let s ← load m snd
    pq_insert m fnext snd s.priority

/-- Embeds `max_heapify`, with a recursion budget. -/
def max_heapify : Nat → Mem → Ptr → M Mem
  | 0, m, _ => Except.error (Fault.out_of_fuel, m)
  | fuel + 1, m, elem => do
    ASSERT m (elem != none)
    let e ← load m elem
    let l := e.left
    let r := e.right
    let largest ←
      (if l ≠ none then do
        let le ← load m l
        pure (if le.priority > e.priority then l else elem)
      else pure elem)
    let largest ←
      (if r ≠ none then do
        let re ← load m r
        let ge ← load m largest
        pure (if re.priority > ge.priority then r else largest)
      else pure largest)
    if largest ≠ elem then do
      let m ← exchange m elem largest
      max_heapify fuel m elem
    else pure m

/-- The loop of `build_max_heap`, with an iteration budget; `hfuel` is the
budget handed to each `max_heapify` call. -/
def build_max_heap_loop (hfuel : Nat) (pq : Ptr) : Nat → Mem → Ptr → M Mem
  | 0, m, _ => Except.error (Fault.out_of_fuel, m)
  | fuel + 1, m, elem => do
    let h ← load m (head_of pq)
    if elem = h.next then pure m
    else do
      let m ← max_heapify hfuel m elem
      let e ← load m elem
      build_max_heap_loop hfuel pq fuel m e.prev

/-- Embeds `build_max_heap`. -/
def build_max_heap (fuel : Nat) (m : Mem) (pq : Ptr) : M Mem := do
  ASSERT m (pq != none)
  let t ← load m (tail_of pq)
  build_max_heap_loop fuel pq fuel m t.prev

/-- Embeds `heap_maximum`. -/
def heap_maximum (m : Mem) (pq : Ptr) : M Ptr := do
  ASSERT m (pq != none)
  pq_front m pq

/-- Embeds `heap_extract_max`: returns the extracted node and the memory
afterwards. -/
def heap_extract_max (fuel : Nat) (m : Mem) (pq : Ptr) : M (Ptr × Mem) := do
  -- ASSERT(pq != NULL && !pq_empty(pq)), with the short circuit of `&&`
  let c ← (if pq != none then do
      let e ← pq_empty m pq
      pure (!e)
    else pure false)
  ASSERT m c
  let max ← pq_front m pq
  let lst ← pq_back m pq
  let m ← exchange m max lst
  let (_, m) ← pq_remove m max
  let m ← (if max ≠ lst then max_heapify fuel m lst else pure m)
  pure (max, m)

/-- The `while` loop of `percolate`, with an iteration budget. -/
def percolate_loop : Nat → Mem → Ptr → Ptr → M Mem
  | 0, m, _, _ => Except.error (Fault.out_of_fuel, m)
  | fuel + 1, m, pq, elem => do
    let front ← pq_front m pq
    if elem = front then pure m
    else do
      let e ← load m elem
      let pe ← load m e.parent
      if pe.priority < e.priority then do
        let m ← exchange m elem e.parent
        percolate_loop fuel m pq elem
      else pure m

/-- Embeds `percolate`; `fuel` is the iteration budget of its loop. -/
def percolate (fuel : Nat) (m : Mem) (pq elem : Ptr) : M Mem := do
  ASSERT m (elem != none)
  percolate_loop fuel m pq elem

/-- Embeds `heap_increase_key`. -/
def heap_increase_key (fuel : Nat) (m : Mem) (pq elem : Ptr) (key : Int) : M Mem := do
  ASSERT m (elem != none)
  let m ← store m elem (fun x => { x with priority := key })
  percolate fuel m pq elem

/-- Embeds `max_heap_insert`. -/
def max_heap_insert (fuel : Nat) (m : Mem) (pq elem : Ptr) (priority : Int) : M Mem := do
  let m ← pq_push_back m pq elem priority
  percolate fuel m pq elem

/-! ## Call sequences -/

/-- A memory of `n` zeroed records. -/
def zeros (n : Nat) : Mem := List.replicate n zero_elem

/-- Calls `max_heap_insert` once per (node, priority) pair, in order. -/
def insert_all (fuel : Nat) (pq : Ptr) : Mem → List (Nat × Int) → M Mem
  | m, [] => pure m
  | m, (a, p) :: rest => do
    let m ← max_heap_insert fuel m pq (some a) p
    insert_all fuel pq m rest

/-- Calls `pq_push_back` once per (node, priority) pair, in order. -/
def push_all (pq : Ptr) : Mem → List (Nat × Int) → M Mem
  | m, [] => pure m
  | m, (a, p) :: rest => do
    let m ← pq_push_back m pq (some a) p
    push_all pq m rest

/-- Calls `heap_extract_max` `k` times; returns the priorities of the returned
nodes in call order, and the final memory. -/
def extract_all (fuel : Nat) (pq : Ptr) : Nat → Mem → M (List Int × Mem)
  | 0, m => pure ([], m)
  | k + 1, m => do
    let (x, m) ← heap_extract_max fuel m pq
    let e ← load m x
    let (rest, m) ← extract_all fuel pq k m
    pure (e.priority :: rest, m)

/-- Walks `next` from `elem` up to the tail sentinel and collects the addresses
visited, as the loop of `pq_size` does. -/
def walk_next (m : Mem) (tail : Ptr) : Nat → Ptr → M (List Nat)
  | 0, _ => Except.error (Fault.out_of_fuel, m)
  | fuel + 1, elem =>
    if elem = tail then pure []
    else
      match elem with
      | none => Except.error (Fault.null_deref, m)
      | some a => do
        let rest ← walk_next m tail fuel (rd m a).next
        pure (a :: rest)

/-- The nodes linked in the queue, in list order. -/
def pq_nodes (fuel : Nat) (m : Mem) (pq : Ptr) : M (List Nat) := do
  let front ← pq_front m pq
  let tail ← pq_tail m pq
  walk_next m tail fuel front

/-- The fault a call ended with, if it did not return. -/
def fault_of {α : Type} : M α → Option Fault
  | Except.ok _ => none
  | Except.error f => some f.1

/-- One call of the heap interface. -/
inductive Op where
  | insert (a : Nat) (p : Int)
  | extract
deriving DecidableEq, Repr

/-- Runs a sequence of `max_heap_insert` / `heap_extract_max` calls; returns the
priorities of the extracted nodes in call order, and the final memory. -/
def run_ops (fuel : Nat) (pq : Ptr) : Mem → List Op → M (List Int × Mem)
  | m, [] => pure ([], m)
  | m, Op.insert a p :: rest => do
    let m ← max_heap_insert fuel m pq (some a) p
    run_ops fuel pq m rest
  | m, Op.extract :: rest => do
    let (x, m) ← heap_extract_max fuel m pq
    let e ← load m x
    let (out, m) ← run_ops fuel pq m rest
    pure (e.priority :: out, m)

/-! ## Field updates -/

/-- The memory after `a->prev = v`. -/
def set_prev (m : Mem) (a : Nat) (v : Ptr) : Mem :=
  wr m a { rd m a with prev := v }

/-- The memory after `a->next = v`. -/
def set_next (m : Mem) (a : Nat) (v : Ptr) : Mem :=
  wr m a { rd m a with next := v }

/-- The memory after `a->parent = v`. -/
def set_parent (m : Mem) (a : Nat) (v : Ptr) : Mem :=
  wr m a { rd m a with parent := v }

/-- The memory after `a->left = v`. -/
def set_left (m : Mem) (a : Nat) (v : Ptr) : Mem :=
  wr m a { rd m a with left := v }

/-- The memory after `a->right = v`. -/
def set_right (m : Mem) (a : Nat) (v : Ptr) : Mem :=
  wr m a { rd m a with right := v }

/-- The memory after `a->id = v`. -/
def set_id (m : Mem) (a : Nat) (v : Int) : Mem :=
  wr m a { rd m a with id := v }

/-- The memory after `a->priority = v`. -/
def set_priority (m : Mem) (a : Nat) (v : Int) : Mem :=
  wr m a { rd m a with priority := v }

/-! ## List structure -/

/-- Node `a` is linked to node `b`: `a->next == b` and `b->prev == a`. -/
def Lnk (m : Mem) (a b : Nat) : Prop :=
  (rd m a).next = some b ∧ (rd m b).prev = some a

/-- The queue at `q` links exactly the nodes `L`, in this order, between its
head sentinel `q` and its tail sentinel `q + 1`. -/
def IsList (m : Mem) (q : Nat) (L : List Nat) : Prop :=
  (q :: (L ++ [q + 1])).Nodup ∧ List.Chain' (Lnk m) (q :: (L ++ [q + 1])) ∧
  (rd m q).prev = none ∧ (rd m (q + 1)).next = none

/-- The nodes of `L` carry the ids `k + 1, k + 2, ...` in this order. -/
def Ids (m : Mem) : Int → List Nat → Prop
  | _, [] => True
  | k, a :: L => (rd m a).id = k + 1 ∧ Ids m (k + 1) L

/-- The last element of `q :: L`. -/
def lastOr (q : Nat) : List Nat → Nat
  | [] => q
  | a :: L => lastOr a L

/-- The first element of `L ++ [t]`. -/
def firstOr (t : Nat) : List Nat → Nat
  | [] => t
  | a :: _ => a

/-! ## Explicit results of the list primitives -/

/-- The memory after the parent-slot statement of `pq_remove`. -/
def clear_parent_slot (m : Mem) (a : Nat) : Mem :=
  match (rd m a).parent with
  | none => m
  | some g => if some a = (rd m g).left then set_left m g none else set_right m g none

/-- The memory after `if (p != NULL) p->parent = v`. -/
def set_parent_opt (m : Mem) (p : Ptr) (v : Ptr) : Mem :=
  match p with
  | none => m
  | some l => set_parent m l v

/-- The memory after `pq_remove(a)` when `a->prev == c` and `a->next == n`. -/
def remove_mem (m : Mem) (a c n : Nat) : Mem :=
  let m2 := set_prev (set_next m c (some n)) n (some c)
  let m3 := clear_parent_slot m2 a
  let m4 := set_parent_opt m3 (rd m3 a).left none
  set_parent_opt m4 (rd m4 a).right none

/-- The memory after the five list statements of `pq_insert(b, e, _)` when
`b->prev == c`. -/
def link_mem (m : Mem) (b e c : Nat) : Mem :=
  set_prev (set_next (set_next (set_prev (set_id m e ((rd m c).id + 1)) e (some c))
    e (some b)) c (some e)) b (some e)

/-- The memory after the side effect of `parent(e)` when its walk ended at `W`. -/
def parent_slot_mem (m : Mem) (e : Nat) (W : Option Nat) : Mem :=
  match W with
  | none => m
  | some w =>
    if (rd m e).id = (rd m w).id * 2 then set_left m w (some e) else set_right m w (some e)

/-- The memory after `if (elem->parent != NULL) { ... }` in `pq_insert`. -/
def insert_slot_mem (m : Mem) (e : Nat) (W : Option Nat) : Mem :=
  match W with
  | none => m
  | some w =>
    if (rd m e).id = 2 * (rd m w).id then set_left m w (some e)
    else if (rd m e).id = 2 * (rd m w).id + 1 then set_right m w (some e)
    else m

/-- The memory after `pq_insert(b, e, p)` when `b->prev == c` and the walks of
`parent`, `left` and `right` ended at `W`, `Lw` and `Rw`. -/
def insert_mem (m : Mem) (b e c : Nat) (p : Int) (W Lw Rw : Option Nat) : Mem :=
  let m5 := link_mem m b e c
  let m6 := parent_slot_mem m5 e W
  let m7 := set_parent m6 e W
  let m8 := insert_slot_mem m7 e W
  let m9 := set_left m8 e Lw
  let m10 := set_parent_opt m9 Lw (some e)
  let m11 := set_right m10 e Rw
  let m12 := set_parent_opt m11 Rw (some e)
  set_priority m12 e p

/-- Where the walk of `parent(e)` ends when `e` has id `d` and the nodes `X`
precede it: `none` is `NULL`. -/
def parent_walk (X : List Nat) (e : Nat) (d : Int) : Option Nat :=
  if (d - Int.tdiv d 2).toNat ≤ X.length then
    (X ++ [e])[X.length - (d - Int.tdiv d 2).toNat]?
  else none

/-- Where a walk of `k` steps forward from `e` ends when the nodes `Y` follow
it: `none` is `NULL`. -/
def child_walk (Y : List Nat) (e : Nat) (k : Nat) : Option Nat :=
  if k ≤ Y.length then (e :: Y)[k]? else none

/-- The memory after `pq_init` of the queue at `q`. -/
def init_mem (m : Mem) (q : Nat) : Mem :=
  set_id (set_next (set_prev (set_next (set_prev m q none) q (some (q + 1)))
    (q + 1) (some q)) (q + 1) none) q 0

/-- A well-numbered queue: the nodes `L` are linked in this order, the head
sentinel has id 0 and the `i`-th node has id `i`. -/
def WF (m : Mem) (q : Nat) (L : List Nat) : Prop :=
  IsList m q L ∧ (rd m q).id = 0 ∧ Ids m 0 L

/-- The memory after `pq_insert` of `e` between the nodes `X` and the nodes `Y`
of the queue at `q`. -/
def insert_at (m : Mem) (q e : Nat) (X Y : List Nat) (p : Int) : Mem :=
  insert_mem m (firstOr (q + 1) Y) e (lastOr q X) p
    (parent_walk X e ((rd m (lastOr q X)).id + 1))
    (child_walk Y e ((((rd m (lastOr q X)).id + 1) * 2
      - ((rd m (lastOr q X)).id + 1)).toNat))
    (child_walk Y e ((((rd m (lastOr q X)).id + 1) * 2 + 1
      - ((rd m (lastOr q X)).id + 1)).toNat))

/-- The memory after `pq_remove` of `a`, linked between the nodes `X` and the
nodes `Y` of the queue at `q`. -/
def remove_at (m : Mem) (q a : Nat) (X Y : List Nat) : Mem :=
  remove_mem m a (lastOr q X) (firstOr (q + 1) Y)

/-- The memory after the last branch of `exchange(fst, snd)`: both nodes are
removed, `fst` is inserted between `X3` and `Y3`, then `snd` between `X4` and
`Y4`. -/
def far_mem (m : Mem) (q fst snd : Nat) (X1 Y1 X2 Y2 X3 Y3 X4 Y4 : List Nat) : Mem :=
  let m2 := remove_at (remove_at m q fst X1 Y1) q snd X2 Y2
  let m3 := insert_at m2 q fst X3 Y3 (rd m2 fst).priority
  insert_at m3 q snd X4 Y4 (rd m3 snd).priority

/-- The memory after an adjacent branch of `exchange`, where `u` immediately
precedes `v`: `u` is removed, `v` is renumbered, `u` is inserted after `v`. -/
def adj_mem (m : Mem) (q u v : Nat) (X Y : List Nat) : Mem :=
  let m1 := remove_at m q u X (v :: Y)
  let m2 := set_id m1 v ((rd m1 (lastOr q X)).id + 1)
  insert_at m2 q u (X ++ [v]) Y (rd m2 u).priority

/-- Cached left pointers are exact: a non-`NULL` left slot of the node at
position `r + 1` holds the node at position `2 (r + 1)`. -/
def J1 (m : Mem) (L : List Nat) : Prop :=
  ∀ r x y, L[r]? = some x → (rd m x).left = some y → L[2 * r + 1]? = some y

/-- Cached right pointers are bounded: the node at position `r + 1` has a
non-`NULL` right slot only if a node is linked at position `2 (r + 1) + 1`. -/
def J2 (m : Mem) (L : List Nat) : Prop :=
  ∀ r x, L[r]? = some x → (rd m x).right ≠ none → 2 * r + 2 < L.length

/-- The invariant of the heap operations: a well-numbered list whose cached
left slots are exact and whose cached right slots are bounded. -/
def Inv (m : Mem) (q : Nat) (L : List Nat) : Prop :=
  WF m q L ∧ J1 m L ∧ J2 m L

/-- The memory after `exchange(a, b)` when the queue is
`L1 ++ a :: (M ++ b :: L3)` with `M` non-empty. -/
def down_mem (m : Mem) (q a b : Nat) (L1 M L3 : List Nat) : Mem :=
  far_mem m q a b L1 (M ++ b :: L3) (L1 ++ M) L3 (L1 ++ M) L3 L1 (M ++ a :: L3)

/-- The memory after `exchange(b, a)` when the queue is
`L1 ++ a :: (M ++ b :: L3)` with `M` non-empty. -/
def up_mem (m : Mem) (q a b : Nat) (L1 M L3 : List Nat) : Mem :=
  far_mem m q b a (L1 ++ a :: M) L3 L1 (M ++ L3) L1 (M ++ L3) (L1 ++ b :: M) L3

/-- One more than the address a pointer holds; 0 for `NULL`. -/
def ptr_bound : Ptr → Nat
  | none => 0
  | some l => l + 1

/-! ## The heap order by list position -/

/-- The priority stored in the record at `x`. -/
def prio (m : Mem) (x : Nat) : Int := (rd m x).priority

/-- Max-heap order by list position: the node at index `p` has a priority at
least that of the nodes at indices `2p + 1` and `2p + 2` (ids `2(p+1)` and
`2(p+1) + 1`). -/
def HeapOrd (pr : Nat → Int) (L : List Nat) : Prop :=
  ∀ (p c x y : Nat), L[p]? = some x → L[c]? = some y → (c = 2 * p + 1 ∨ c = 2 * p + 2) →
    pr y ≤ pr x

/-- Heap order everywhere except below index `r`: the state of `max_heapify`
at the node of index `r`. -/
def DownOk (pr : Nat → Int) (L : List Nat) (r : Nat) : Prop :=
  (∀ (p c x y : Nat), L[p]? = some x → L[c]? = some y → (c = 2 * p + 1 ∨ c = 2 * p + 2) →
    p ≠ r → pr y ≤ pr x) ∧
  (∀ (g c x y : Nat), L[g]? = some x → L[c]? = some y → (r = 2 * g + 1 ∨ r = 2 * g + 2) →
    (c = 2 * r + 1 ∨ c = 2 * r + 2) → pr y ≤ pr x)

/-- Heap order everywhere except above index `c`: the state of `percolate` at
the node of index `c`. -/
def UpOk (pr : Nat → Int) (L : List Nat) (c : Nat) : Prop :=
  (∀ (p k x y : Nat), L[p]? = some x → L[k]? = some y → (k = 2 * p + 1 ∨ k = 2 * p + 2) →
    k ≠ c → pr y ≤ pr x) ∧
  (∀ (g k x y : Nat), L[g]? = some x → L[k]? = some y → (c = 2 * g + 1 ∨ c = 2 * g + 2) →
    (k = 2 * c + 1 ∨ k = 2 * c + 2) → pr y ≤ pr x)

/-- The list `L2` is `L` with the nodes `a` (index `r`) and `b` (index `c`)
swapped. -/
def Swapped (L L2 : List Nat) (r c a b : Nat) : Prop :=
  L[r]? = some a ∧ L[c]? = some b ∧
  ∀ i : Nat, L2[i]? = if i = r then some b else if i = c then some a else L[i]?

/-- The child slots of `x`, at index `r` of `L`, hold exactly the nodes at
indices `2r + 1` and `2r + 2` (`NULL` when there is none). -/
def FreshAt (m : Mem) (L : List Nat) (r x : Nat) : Prop :=
  (rd m x).left = L[2 * r + 1]? ∧ (rd m x).right = L[2 * r + 2]?

/-- The node `largest` that `max_heapify(a)` selects among `a`, `a->left` and
`a->right`. -/
def pick (m : Mem) (a : Nat) : Nat :=
  let g := match (rd m a).left with
    | some y => if (rd m y).priority > (rd m a).priority then y else a
    | none => a
  match (rd m a).right with
  | some z => if (rd m z).priority > (rd m g).priority then z else g
  | none => g

/-- The states reachable from `pq_init` by calls of `max_heap_insert` with a
node that is neither a sentinel nor linked in the queue, and by calls of
`heap_extract_max` that return. Budgets are arbitrary: a call counts when it
returns. -/
inductive Reach (q : Nat) : Mem → Prop
  | init (m0 m : Mem) : pq_init m0 (some q) = Except.ok m → Reach q m
  | insert (m m2 : Mem) (e : Nat) (p : Int) (fuel fuel2 : Nat) (L : List Nat) :
      Reach q m → pq_nodes fuel2 m (some q) = Except.ok L → e ∉ q :: (L ++ [q + 1]) →
      max_heap_insert fuel m (some q) (some e) p = Except.ok m2 → Reach q m2
  | extract (m m2 : Mem) (x : Ptr) (fuel : Nat) :
      Reach q m → heap_extract_max fuel m (some q) = Except.ok (x, m2) → Reach q m2

/-! ## Sample states -/

/-- The memory after `pq_init` on the queue at address 0 (head sentinel at 0,
tail sentinel at 1). -/
def sample_empty : Mem :=
  [⟨none, some 1, none, none, none, 0, 0⟩, ⟨some 0, none, none, none, none, 0, 0⟩]

/-- The memory after `max_heap_insert` of node 2 with priority 5 into
`sample_empty`. -/
def sample_one : Mem :=
  [⟨none, some 2, none, none, none, 0, 0⟩, ⟨some 2, none, none, none, none, 0, 0⟩,
    ⟨some 0, some 1, none, none, none, 1, 5⟩]

/-- The memory after `max_heap_insert` of node 3 with priority 7 into
`sample_one`: node 3 has moved to the front. -/
def sample_two : Mem :=
  [⟨none, some 3, none, none, none, 0, 0⟩, ⟨some 2, none, none, none, none, 0, 0⟩,
    ⟨some 3, some 1, some 3, none, none, 2, 5⟩, ⟨some 0, some 2, none, some 2, none, 1, 7⟩]

/-- The state of `percolate(pq, b)` at its loop head: the queue is well formed,
the node `b` is at list index `c` (id `c + 1`), and unless `b` is the front
its parent slot holds the node at index `(c + 1) / 2 - 1` (id `(c + 1) / 2`). -/
def PercAt (q : Nat) (m : Mem) (b c : Nat) : Prop :=
  ∃ L, Inv m q L ∧ L[c]? = some b ∧ (c ≠ 0 → (rd m b).parent = L[(c + 1) / 2 - 1]?)

/-- The memory after `pq_init`, `pq_push_back` of nodes 2, 3, 4 (priorities 5,
7, 1) and `pq_remove` of node 3: nodes 2 and 4 stay linked with ids 1 and 3,
and the unlinked node 3 keeps its old fields. -/
def sample_gap : Mem :=
  [⟨none, some 2, none, none, none, 0, 0⟩, ⟨some 4, none, none, none, none, 0, 0⟩,
    ⟨some 0, some 4, none, none, some 4, 1, 5⟩, ⟨some 2, some 4, some 2, none, none, 2, 7⟩,
    ⟨some 2, some 1, some 2, none, none, 3, 1⟩]

/-- The memory `sample_gap` with the record of the unlinked node 3 zeroed. -/
def sample_gap_zeroed : Mem :=
  [⟨none, some 2, none, none, none, 0, 0⟩, ⟨some 4, none, none, none, none, 0, 0⟩,
    ⟨some 0, some 4, none, none, some 4, 1, 5⟩, ⟨none, none, none, none, none, 0, 0⟩,
    ⟨some 2, some 1, some 2, none, none, 3, 1⟩]

/-! ## Reading and writing memory -/

theorem rd_wr_same (m : Mem) (a : Nat) (v : pq_elem) : rd (wr m a v) a = v := by
  unfold rd wr
  split_ifs with h
  · simp [List.getD_eq_getElem?_getD, h]
  · have h2 : m.length ≤ a := Nat.le_of_not_lt h
    rw [List.getD_eq_getElem?_getD, List.getElem?_append_right h2,
      List.getElem?_append_right (by simp)]
    simp

theorem rd_wr_other (m : Mem) (a b : Nat) (v : pq_elem) (hab : b ≠ a) :
    rd (wr m a v) b = rd m b := by
  unfold rd wr
  split_ifs with h
  · simp [List.getD_eq_getElem?_getD, List.getElem?_set, Ne.symm hab]
  · have h2 : m.length ≤ a := Nat.le_of_not_lt h
    rw [List.getD_eq_getElem?_getD, List.getD_eq_getElem?_getD]
    by_cases hb : b < m.length
    · rw [List.getElem?_append_left hb]
    · have hb2 : m.length ≤ b := Nat.le_of_not_lt hb
      rw [List.getElem?_append_right hb2, List.getElem?_eq_none hb2]
      by_cases hb3 : b - m.length < a - m.length
      · rw [List.getElem?_append_left (by simpa using hb3)]
        simp [List.getElem?_replicate, hb3]
      · have hb4 : a - m.length ≤ b - m.length := Nat.le_of_not_lt hb3
        rw [List.getElem?_append_right (by simpa using hb4)]
        have : b - m.length - (List.replicate (a - m.length) zero_elem).length ≠ 0 := by
          simp only [List.length_replicate]; omega
        rw [List.getElem?_eq_none (by simp; omega)]

theorem rd_wr (m : Mem) (a b : Nat) (v : pq_elem) :
    rd (wr m a v) b = if b = a then v else rd m b := by
  split_ifs with h
  · rw [h, rd_wr_same]
  · exact rd_wr_other m a b v h

/-! ## Reading a field after a field update -/

theorem store_prev (m : Mem) (a : Nat) (v : Ptr) :
    store m (some a) (fun x => { x with prev := v }) = Except.ok (set_prev m a v) := rfl

@[simp] theorem rd_set_prev_prev (m : Mem) (a x : Nat) (v : Ptr) :
    (rd (set_prev m a v) x).prev = if x = a then v else (rd m x).prev := by
  unfold set_prev; rw [rd_wr]; split_ifs <;> rfl

@[simp] theorem rd_set_prev_next (m : Mem) (a x : Nat) (v : Ptr) :
    (rd (set_prev m a v) x).next = (rd m x).next := by
  unfold set_prev; rw [rd_wr]; split_ifs with h
  · rw [h]
  · rfl

@[simp] theorem rd_set_prev_parent (m : Mem) (a x : Nat) (v : Ptr) :
    (rd (set_prev m a v) x).parent = (rd m x).parent := by
  unfold set_prev; rw [rd_wr]; split_ifs with h
  · rw [h]
  · rfl

@[simp] theorem rd_set_prev_left (m : Mem) (a x : Nat) (v : Ptr) :
    (rd (set_prev m a v) x).left = (rd m x).left := by
  unfold set_prev; rw [rd_wr]; split_ifs with h
  · rw [h]
  · rfl

@[simp] theorem rd_set_prev_right (m : Mem) (a x : Nat) (v : Ptr) :
    (rd (set_prev m a v) x).right = (rd m x).right := by
  unfold set_prev; rw [rd_wr]; split_ifs with h
  · rw [h]
  · rfl

@[simp] theorem rd_set_prev_id (m : Mem) (a x : Nat) (v : Ptr) :
    (rd (set_prev m a v) x).id = (rd m x).id := by
  unfold set_prev; rw [rd_wr]; split_ifs with h
  · rw [h]
  · rfl

@[simp] theorem rd_set_prev_priority (m : Mem) (a x : Nat) (v : Ptr) :
    (rd (set_prev m a v) x).priority = (rd m x).priority := by
  unfold set_prev; rw [rd_wr]; split_ifs with h
  · rw [h]
  · rfl

theorem store_next (m : Mem) (a : Nat) (v : Ptr) :
    store m (some a) (fun x => { x with next := v }) = Except.ok (set_next m a v) := rfl

@[simp] theorem rd_set_next_prev (m : Mem) (a x : Nat) (v : Ptr) :
    (rd (set_next m a v) x).prev = (rd m x).prev := by
  unfold set_next; rw [rd_wr]; split_ifs with h
  · rw [h]
  · rfl

@[simp] theorem rd_set_next_next (m : Mem) (a x : Nat) (v : Ptr) :
    (rd (set_next m a v) x).next = if x = a then v else (rd m x).next := by
  unfold set_next; rw [rd_wr]; split_ifs <;> rfl

@[simp] theorem rd_set_next_parent (m : Mem) (a x : Nat) (v : Ptr) :
    (rd (set_next m a v) x).parent = (rd m x).parent := by
  unfold set_next; rw [rd_wr]; split_ifs with h
  · rw [h]
  · rfl

@[simp] theorem rd_set_next_left (m : Mem) (a x : Nat) (v : Ptr) :
    (rd (set_next m a v) x).left = (rd m x).left := by
  unfold set_next; rw [rd_wr]; split_ifs with h
  · rw [h]
  · rfl

@[simp] theorem rd_set_next_right (m : Mem) (a x : Nat) (v : Ptr) :
    (rd (set_next m a v) x).right = (rd m x).right := by
  unfold set_next; rw [rd_wr]; split_ifs with h
  · rw [h]
  · rfl

@[simp] theorem rd_set_next_id (m : Mem) (a x : Nat) (v : Ptr) :
    (rd (set_next m a v) x).id = (rd m x).id := by
  unfold set_next; rw [rd_wr]; split_ifs with h
  · rw [h]
  · rfl

@[simp] theorem rd_set_next_priority (m : Mem) (a x : Nat) (v : Ptr) :
    (rd (set_next m a v) x).priority = (rd m x).priority := by
  unfold set_next; rw [rd_wr]; split_ifs with h
  · rw [h]
  · rfl

theorem store_parent (m : Mem) (a : Nat) (v : Ptr) :
    store m (some a) (fun x => { x with parent := v }) = Except.ok (set_parent m a v) := rfl

@[simp] theorem rd_set_parent_prev (m : Mem) (a x : Nat) (v : Ptr) :
    (rd (set_parent m a v) x).prev = (rd m x).prev := by
  unfold set_parent; rw [rd_wr]; split_ifs with h
  · rw [h]
  · rfl

@[simp] theorem rd_set_parent_next (m : Mem) (a x : Nat) (v : Ptr) :
    (rd (set_parent m a v) x).next = (rd m x).next := by
  unfold set_parent; rw [rd_wr]; split_ifs with h
  · rw [h]
  · rfl

@[simp] theorem rd_set_parent_parent (m : Mem) (a x : Nat) (v : Ptr) :
    (rd (set_parent m a v) x).parent = if x = a then v else (rd m x).parent := by
  unfold set_parent; rw [rd_wr]; split_ifs <;> rfl

@[simp] theorem rd_set_parent_left (m : Mem) (a x : Nat) (v : Ptr) :
    (rd (set_parent m a v) x).left = (rd m x).left := by
  unfold set_parent; rw [rd_wr]; split_ifs with h
  · rw [h]
  · rfl

@[simp] theorem rd_set_parent_right (m : Mem) (a x : Nat) (v : Ptr) :
    (rd (set_parent m a v) x).right = (rd m x).right := by
  unfold set_parent; rw [rd_wr]; split_ifs with h
  · rw [h]
  · rfl

@[simp] theorem rd_set_parent_id (m : Mem) (a x : Nat) (v : Ptr) :
    (rd (set_parent m a v) x).id = (rd m x).id := by
  unfold set_parent; rw [rd_wr]; split_ifs with h
  · rw [h]
  · rfl

@[simp] theorem rd_set_parent_priority (m : Mem) (a x : Nat) (v : Ptr) :
    (rd (set_parent m a v) x).priority = (rd m x).priority := by
  unfold set_parent; rw [rd_wr]; split_ifs with h
  · rw [h]
  · rfl

theorem store_left (m : Mem) (a : Nat) (v : Ptr) :
    store m (some a) (fun x => { x with left := v }) = Except.ok (set_left m a v) := rfl

@[simp] theorem rd_set_left_prev (m : Mem) (a x : Nat) (v : Ptr) :
    (rd (set_left m a v) x).prev = (rd m x).prev := by
  unfold set_left; rw [rd_wr]; split_ifs with h
  · rw [h]
  · rfl

@[simp] theorem rd_set_left_next (m : Mem) (a x : Nat) (v : Ptr) :
    (rd (set_left m a v) x).next = (rd m x).next := by
  unfold set_left; rw [rd_wr]; split_ifs with h
  · rw [h]
  · rfl

@[simp] theorem rd_set_left_parent (m : Mem) (a x : Nat) (v : Ptr) :
    (rd (set_left m a v) x).parent = (rd m x).parent := by
  unfold set_left; rw [rd_wr]; split_ifs with h
  · rw [h]
  · rfl

@[simp] theorem rd_set_left_left (m : Mem) (a x : Nat) (v : Ptr) :
    (rd (set_left m a v) x).left = if x = a then v else (rd m x).left := by
  unfold set_left; rw [rd_wr]; split_ifs <;> rfl

@[simp] theorem rd_set_left_right (m : Mem) (a x : Nat) (v : Ptr) :
    (rd (set_left m a v) x).right = (rd m x).right := by
  unfold set_left; rw [rd_wr]; split_ifs with h
  · rw [h]
  · rfl

@[simp] theorem rd_set_left_id (m : Mem) (a x : Nat) (v : Ptr) :
    (rd (set_left m a v) x).id = (rd m x).id := by
  unfold set_left; rw [rd_wr]; split_ifs with h
  · rw [h]
  · rfl

@[simp] theorem rd_set_left_priority (m : Mem) (a x : Nat) (v : Ptr) :
    (rd (set_left m a v) x).priority = (rd m x).priority := by
  unfold set_left; rw [rd_wr]; split_ifs with h
  · rw [h]
  · rfl

theorem store_right (m : Mem) (a : Nat) (v : Ptr) :
    store m (some a) (fun x => { x with right := v }) = Except.ok (set_right m a v) := rfl

@[simp] theorem rd_set_right_prev (m : Mem) (a x : Nat) (v : Ptr) :
    (rd (set_right m a v) x).prev = (rd m x).prev := by
  unfold set_right; rw [rd_wr]; split_ifs with h
  · rw [h]
  · rfl

@[simp] theorem rd_set_right_next (m : Mem) (a x : Nat) (v : Ptr) :
    (rd (set_right m a v) x).next = (rd m x).next := by
  unfold set_right; rw [rd_wr]; split_ifs with h
  · rw [h]
  · rfl

@[simp] theorem rd_set_right_parent (m : Mem) (a x : Nat) (v : Ptr) :
    (rd (set_right m a v) x).parent = (rd m x).parent := by
  unfold set_right; rw [rd_wr]; split_ifs with h
  · rw [h]
  · rfl

@[simp] theorem rd_set_right_left (m : Mem) (a x : Nat) (v : Ptr) :
    (rd (set_right m a v) x).left = (rd m x).left := by
  unfold set_right; rw [rd_wr]; split_ifs with h
  · rw [h]
  · rfl

@[simp] theorem rd_set_right_right (m : Mem) (a x : Nat) (v : Ptr) :
    (rd (set_right m a v) x).right = if x = a then v else (rd m x).right := by
  unfold set_right; rw [rd_wr]; split_ifs <;> rfl

@[simp] theorem rd_set_right_id (m : Mem) (a x : Nat) (v : Ptr) :
    (rd (set_right m a v) x).id = (rd m x).id := by
  unfold set_right; rw [rd_wr]; split_ifs with h
  · rw [h]
  · rfl

@[simp] theorem rd_set_right_priority (m : Mem) (a x : Nat) (v : Ptr) :
    (rd (set_right m a v) x).priority = (rd m x).priority := by
  unfold set_right; rw [rd_wr]; split_ifs with h
  · rw [h]
  · rfl

theorem store_id (m : Mem) (a : Nat) (v : Int) :
    store m (some a) (fun x => { x with id := v }) = Except.ok (set_id m a v) := rfl

@[simp] theorem rd_set_id_prev (m : Mem) (a x : Nat) (v : Int) :
    (rd (set_id m a v) x).prev = (rd m x).prev := by
  unfold set_id; rw [rd_wr]; split_ifs with h
  · rw [h]
  · rfl

@[simp] theorem rd_set_id_next (m : Mem) (a x : Nat) (v : Int) :
    (rd (set_id m a v) x).next = (rd m x).next := by
  unfold set_id; rw [rd_wr]; split_ifs with h
  · rw [h]
  · rfl

@[simp] theorem rd_set_id_parent (m : Mem) (a x : Nat) (v : Int) :
    (rd (set_id m a v) x).parent = (rd m x).parent := by
  unfold set_id; rw [rd_wr]; split_ifs with h
  · rw [h]
  · rfl

@[simp] theorem rd_set_id_left (m : Mem) (a x : Nat) (v : Int) :
    (rd (set_id m a v) x).left = (rd m x).left := by
  unfold set_id; rw [rd_wr]; split_ifs with h
  · rw [h]
  · rfl

@[simp] theorem rd_set_id_right (m : Mem) (a x : Nat) (v : Int) :
    (rd (set_id m a v) x).right = (rd m x).right := by
  unfold set_id; rw [rd_wr]; split_ifs with h
  · rw [h]
  · rfl

@[simp] theorem rd_set_id_id (m : Mem) (a x : Nat) (v : Int) :
    (rd (set_id m a v) x).id = if x = a then v else (rd m x).id := by
  unfold set_id; rw [rd_wr]; split_ifs <;> rfl

@[simp] theorem rd_set_id_priority (m : Mem) (a x : Nat) (v : Int) :
    (rd (set_id m a v) x).priority = (rd m x).priority := by
  unfold set_id; rw [rd_wr]; split_ifs with h
  · rw [h]
  · rfl

theorem store_priority (m : Mem) (a : Nat) (v : Int) :
    store m (some a) (fun x => { x with priority := v }) = Except.ok (set_priority m a v) := rfl

@[simp] theorem rd_set_priority_prev (m : Mem) (a x : Nat) (v : Int) :
    (rd (set_priority m a v) x).prev = (rd m x).prev := by
  unfold set_priority; rw [rd_wr]; split_ifs with h
  · rw [h]
  · rfl

@[simp] theorem rd_set_priority_next (m : Mem) (a x : Nat) (v : Int) :
    (rd (set_priority m a v) x).next = (rd m x).next := by
  unfold set_priority; rw [rd_wr]; split_ifs with h
  · rw [h]
  · rfl

@[simp] theorem rd_set_priority_parent (m : Mem) (a x : Nat) (v : Int) :
    (rd (set_priority m a v) x).parent = (rd m x).parent := by
  unfold set_priority; rw [rd_wr]; split_ifs with h
  · rw [h]
  · rfl

@[simp] theorem rd_set_priority_left (m : Mem) (a x : Nat) (v : Int) :
    (rd (set_priority m a v) x).left = (rd m x).left := by
  unfold set_priority; rw [rd_wr]; split_ifs with h
  · rw [h]
  · rfl

@[simp] theorem rd_set_priority_right (m : Mem) (a x : Nat) (v : Int) :
    (rd (set_priority m a v) x).right = (rd m x).right := by
  unfold set_priority; rw [rd_wr]; split_ifs with h
  · rw [h]
  · rfl

@[simp] theorem rd_set_priority_id (m : Mem) (a x : Nat) (v : Int) :
    (rd (set_priority m a v) x).id = (rd m x).id := by
  unfold set_priority; rw [rd_wr]; split_ifs with h
  · rw [h]
  · rfl

@[simp] theorem rd_set_priority_priority (m : Mem) (a x : Nat) (v : Int) :
    (rd (set_priority m a v) x).priority = if x = a then v else (rd m x).priority := by
  unfold set_priority; rw [rd_wr]; split_ifs <;> rfl

/-! ## Claims settled by evaluating the code -/

/-- C4 (code defect): after `pq_init` and `max_heap_insert` of priorities
1, 1, 1, 2 the queue holds the nodes 5, 2, 4, 3 in list order; node 4 has id 3
of 4, so it is a leaf, and the front has priority 2.  `heap_increase_key` on
node 4 with key 3 dereferences a `NULL` parent instead of promoting it. -/
theorem heap_increase_key_leaf_null_deref :
    (do
      let m ← pq_init (zeros 6) (some 0)
      let m ← insert_all 8 (some 0) m [(2, 1), (3, 1), (4, 1), (5, 2)]
      let ns ← pq_nodes 8 m (some 0)
      let f ← pq_front m (some 0)
      let fe ← load m f
      pure (ns, (rd m 4).id, (rd m 4).parent, fe.priority,
        fault_of (heap_increase_key 8 m (some 0) (some 4) 3)))
      = Except.ok ([5, 2, 4, 3], 3, none, 2, some Fault.null_deref) := by
  decide

/-- C5 (code defect): pushing priorities 1, 2 and calling `build_max_heap`
leaves node 2 (priority 1) in front with its left child node 3 of priority 2:
the loop of `build_max_heap` stops before the front node is heapified. -/
theorem build_max_heap_skips_front :
    (do
      let m ← pq_init (zeros 4) (some 0)
      let m ← push_all (some 0) m [(2, 1), (3, 2)]
      let m ← build_max_heap 8 m (some 0)
      let ns ← pq_nodes 8 m (some 0)
      pure (ns, (rd m 2).left, (rd m 2).priority, (rd m 3).priority))
      = Except.ok ([2, 3], some 3, 1, 2) := by
  decide

/-- C6 (code defect): pushing priorities 1, 2, 3, 4, 5, 6, 7 and calling
`build_max_heap` leaves the node of priority 1 in front, while the node of
priority 7 sits at the third list position. -/
theorem build_max_heap_front_not_max :
    (do
      let m ← pq_init (zeros 9) (some 0)
      let m ← push_all (some 0) m
        [(2, 1), (3, 2), (4, 3), (5, 4), (6, 5), (7, 6), (8, 7)]
      let m ← build_max_heap 20 m (some 0)
      let ns ← pq_nodes 20 m (some 0)
      let f ← pq_front m (some 0)
      let fe ← load m f
      pure (ns, f, fe.priority, ns.map (fun a => (rd m a).priority)))
      = Except.ok ([2, 6, 8, 3, 5, 7, 4], some 2, 1, [1, 5, 7, 2, 4, 6, 3]) := by
  decide

/-- C8 (code defect): after `max_heap_insert` of priorities 1, 1, 1, 2 the
third linked node (address 4, id 3) has a `NULL` parent, and the front node
(address 5, id 1) has a `NULL` right slot. -/
theorem tree_consistency_broken_by_exchange :
    (do
      let m ← pq_init (zeros 6) (some 0)
      let m ← insert_all 8 (some 0) m [(2, 1), (3, 1), (4, 1), (5, 2)]
      let ns ← pq_nodes 8 m (some 0)
      pure (ns, ns.map (fun a => (rd m a).id), (rd m 4).parent, (rd m 5).right))
      = Except.ok ([5, 2, 4, 3], [1, 2, 3, 4], none, none) := by
  decide

/-- C9 (code defect): after `max_heap_insert` of priorities 3, 1, 3, 1, 1, 3, 2
and one `heap_extract_max`, the linked node 3 (id 2, priority 1) has a cached
right child, node 8, of priority 2. -/
theorem cached_heap_property_broken :
    (do
      let m ← pq_init (zeros 9) (some 0)
      let m ← insert_all 8 (some 0) m
        [(2, 3), (3, 1), (4, 3), (5, 1), (6, 1), (7, 3), (8, 2)]
      let (_, m) ← heap_extract_max 8 m (some 0)
      let ns ← pq_nodes 8 m (some 0)
      pure (ns, (rd m 3).right, (rd m 3).priority, (rd m 8).priority))
      = Except.ok ([4, 3, 7, 5, 6, 8], some 8, 1, 2) := by
  decide

/-- C11: `exchange(a, a)` returns with the memory unchanged, whatever the
memory and the node. -/
theorem exchange_self_noop (m : Mem) (a : Nat) :
    exchange m (some a) (some a) = Except.ok m := by
  simp [exchange, ASSERT, load, bind, Except.bind, pure, Except.pure]

/-- C12: on a queue for which `pq_empty` is true, `heap_extract_max` fails its
assertion, and the memory at the point of failure is the memory `m` it was
called in: no field has been modified. -/
theorem heap_extract_max_empty_asserts (fuel : Nat) (m : Mem) (q : Nat)
    (h : pq_empty m (some q) = Except.ok true) :
    heap_extract_max fuel m (some q) = Except.error (Fault.assertion, m) := by
  simp [heap_extract_max, h, ASSERT, bind, Except.bind, pure, Except.pure]

theorem heap_extract_max_empty_asserts_witness :
    pq_empty sample_empty (some 0) = Except.ok true ∧
    heap_extract_max 5 sample_empty (some 0) = Except.error (Fault.assertion, sample_empty) :=
  ⟨by decide, heap_extract_max_empty_asserts 5 sample_empty 0 (by decide)⟩

/-- C16: inserting priorities 3, 1, 4, 1, 5, 9, 2, 6 with `max_heap_insert`
(nodes 2..9) and extracting eight times returns priorities 9, 6, 5, 4, 3, 2,
1, 1, every call succeeding, and leaves `pq_empty` true. -/
theorem scenario_insert_extract_eight :
    (do
      let m ← pq_init (zeros 10) (some 0)
      let m ← insert_all 8 (some 0) m
        [(2, 3), (3, 1), (4, 4), (5, 1), (6, 5), (7, 9), (8, 2), (9, 6)]
      let (out, m) ← extract_all 8 (some 0) 8 m
      let e ← pq_empty m (some 0)
      pure (out, e))
      = Except.ok ([9, 6, 5, 4, 3, 2, 1, 1], true) := by
  decide

/-- C17 (counterexample): insert 1, extract, insert 2, extract returns the
priorities 1 and then 2, an increasing sequence. -/
theorem interleaved_extraction_not_monotone :
    (do
      let m ← pq_init (zeros 4) (some 0)
      let (out, _) ← run_ops 8 (some 0) m
        [Op.insert 2 1, Op.extract, Op.insert 3 2, Op.extract]
      pure out)
      = Except.ok [1, 2] := by
  decide

/-! ## List structure: basic facts -/

theorem exists_snoc_lastOr (q : Nat) (X : List Nat) : ∃ A, q :: X = A ++ [lastOr q X] := by
  induction X generalizing q with
  | nil => exact ⟨[], rfl⟩
  | cons a X ih =>
    obtain ⟨A, hA⟩ := ih a
    exact ⟨q :: A, by simp [lastOr, hA]⟩

theorem exists_cons_firstOr (t : Nat) (Y : List Nat) : ∃ B, Y ++ [t] = firstOr t Y :: B := by
  cases Y with
  | nil => exact ⟨[], rfl⟩
  | cons a Y => exact ⟨Y ++ [t], rfl⟩

theorem lastOr_append_cons (q a : Nat) (X Y : List Nat) :
    lastOr q (X ++ a :: Y) = lastOr a Y := by
  induction X generalizing q with
  | nil => rfl
  | cons b X ih => simpa [lastOr] using ih b

theorem lastOr_append_singleton (q a : Nat) (X : List Nat) : lastOr q (X ++ [a]) = a := by
  rw [lastOr_append_cons]; rfl

theorem firstOr_append_cons (t a : Nat) (X Y : List Nat) :
    firstOr t (X ++ a :: Y) = firstOr a X := by
  cases X <;> rfl

theorem lastOr_mem (q : Nat) (X : List Nat) : lastOr q X ∈ q :: X := by
  obtain ⟨A, hA⟩ := exists_snoc_lastOr q X
  rw [hA]; simp

theorem firstOr_mem (t : Nat) (Y : List Nat) : firstOr t Y ∈ Y ++ [t] := by
  obtain ⟨B, hB⟩ := exists_cons_firstOr t Y
  rw [hB]; simp

theorem chain_frame {m m2 : Mem} : ∀ {l : List Nat}, List.Chain' (Lnk m) l →
    (∀ x ∈ l.dropLast, (rd m2 x).next = (rd m x).next) →
    (∀ y ∈ l.tail, (rd m2 y).prev = (rd m y).prev) → List.Chain' (Lnk m2) l
  | [], _, _, _ => List.chain'_nil
  | [_], _, _, _ => List.chain'_singleton _
  | a :: b :: l, h, hn, hp => by
    rw [List.chain'_cons] at h ⊢
    refine ⟨⟨?_, ?_⟩, chain_frame h.2 ?_ ?_⟩
    · rw [hn a (by simp [List.dropLast])]; exact h.1.1
    · rw [hp b (by simp)]; exact h.1.2
    · intro x hx; exact hn x (by simp [List.dropLast] at hx ⊢; exact Or.inr hx)
    · intro y hy; exact hp y (by simp at hy ⊢; exact Or.inr hy)

theorem chain_frame_all {m m2 : Mem} {l : List Nat} (h : List.Chain' (Lnk m) l)
    (hn : ∀ x, (rd m2 x).next = (rd m x).next)
    (hp : ∀ y, (rd m2 y).prev = (rd m y).prev) : List.Chain' (Lnk m2) l :=
  chain_frame h (fun x _ => hn x) (fun y _ => hp y)

/-- Unlinking `a` between `c` and `n`. -/
theorem chain_unlink {m m2 : Mem} {A B : List Nat} {c a n : Nat}
    (hnd : (A ++ c :: a :: n :: B).Nodup)
    (h : List.Chain' (Lnk m) (A ++ c :: a :: n :: B))
    (hn : ∀ x, (rd m2 x).next = if x = c then some n else (rd m x).next)
    (hp : ∀ x, (rd m2 x).prev = if x = n then some c else (rd m x).prev) :
    List.Chain' (Lnk m2) (A ++ c :: n :: B) := by
  rw [List.chain'_split] at h ⊢
  obtain ⟨h1, h2⟩ := h
  rw [List.chain'_cons] at h2 ⊢
  rw [List.chain'_cons] at h2
  simp only [List.nodup_append, List.nodup_cons, List.mem_cons, not_or] at hnd
  obtain ⟨hA, ⟨⟨hca, hcn, hcB⟩, ⟨han, haB⟩, hnB, hB⟩, hdisj⟩ := hnd
  have hdis : ∀ x ∈ A, x ≠ c ∧ x ≠ a ∧ x ≠ n ∧ x ∉ B := by
    intro x hx
    have := hdisj hx
    refine ⟨?_, ?_, ?_, ?_⟩ <;> intro h <;> apply this <;> simp [h]
  refine ⟨chain_frame h1 ?_ ?_, ⟨?_, ?_⟩, chain_frame h2.2.2 ?_ ?_⟩
  · intro x hx
    rw [List.dropLast_concat] at hx
    rw [hn, if_neg (hdis x hx).1]
  · intro y hy
    have hy2 : y ∈ A ++ [c] := List.mem_of_mem_tail hy
    rw [hp, if_neg]
    rcases List.mem_append.1 hy2 with h3 | h3
    · exact (hdis y h3).2.2.1
    · simp at h3; rw [h3]; exact hcn
  · rw [hn, if_pos rfl]
  · rw [hp, if_pos rfl]
  · intro x hx
    have hx2 : x ∈ n :: B := List.mem_of_mem_dropLast hx
    rw [hn, if_neg]
    rcases List.mem_cons.1 hx2 with h3 | h3
    · rw [h3]; exact fun h4 => hcn h4.symm
    · intro h4; rw [h4] at h3; exact hcB h3
  · intro y hy
    simp only [List.tail_cons] at hy
    rw [hp, if_neg]
    intro h4; rw [h4] at hy; exact hnB hy

/-- Linking `e` between `c` and `b`. -/
theorem chain_link {m m2 : Mem} {A B : List Nat} {c e b : Nat}
    (hnd : (A ++ c :: b :: B).Nodup) (he : e ∉ A ++ c :: b :: B)
    (h : List.Chain' (Lnk m) (A ++ c :: b :: B))
    (hn : ∀ x, (rd m2 x).next =
      if x = c then some e else if x = e then some b else (rd m x).next)
    (hp : ∀ x, (rd m2 x).prev =
      if x = b then some e else if x = e then some c else (rd m x).prev) :
    List.Chain' (Lnk m2) (A ++ c :: e :: b :: B) := by
  rw [List.chain'_split] at h ⊢
  obtain ⟨h1, h2⟩ := h
  rw [List.chain'_cons] at h2 ⊢
  rw [List.chain'_cons]
  simp only [List.nodup_append, List.nodup_cons, List.mem_cons, not_or] at hnd
  obtain ⟨hA, ⟨⟨hcb, hcB⟩, hbB, hB⟩, hdisj⟩ := hnd
  simp only [List.mem_append, List.mem_cons, not_or] at he
  obtain ⟨heA, hec, heb, heB⟩ := he
  have hdis : ∀ x ∈ A, x ≠ c ∧ x ≠ b ∧ x ∉ B ∧ x ≠ e := by
    intro x hx
    have := hdisj hx
    refine ⟨?_, ?_, ?_, fun h4 => heA (h4 ▸ hx)⟩ <;> intro h <;> apply this <;> simp [h]
  refine ⟨chain_frame h1 ?_ ?_, ⟨?_, ?_⟩, ⟨?_, ?_⟩, chain_frame h2.2 ?_ ?_⟩
  · intro x hx
    rw [List.dropLast_concat] at hx
    rw [hn, if_neg (hdis x hx).1, if_neg (hdis x hx).2.2.2]
  · intro y hy
    have hy2 : y ∈ A ++ [c] := List.mem_of_mem_tail hy
    rcases List.mem_append.1 hy2 with h3 | h3
    · rw [hp, if_neg (hdis y h3).2.1, if_neg (hdis y h3).2.2.2]
    · simp at h3; rw [h3, hp, if_neg hcb, if_neg (fun h4 => hec h4.symm)]
  · rw [hn, if_pos rfl]
  · rw [hp, if_neg heb, if_pos rfl]
  · rw [hn, if_neg hec, if_pos rfl]
  · rw [hp, if_pos rfl]
  · intro x hx
    have hx2 : x ∈ b :: B := List.mem_of_mem_dropLast hx
    rcases List.mem_cons.1 hx2 with h3 | h3
    · rw [h3, hn, if_neg (fun h4 => hcb h4.symm), if_neg (fun h4 => heb h4.symm)]
    · rw [hn, if_neg, if_neg]
      · intro h4; rw [h4] at h3; exact heB h3
      · intro h4; rw [h4] at h3; exact hcB h3
  · intro y hy
    simp only [List.tail_cons] at hy
    rw [hp, if_neg, if_neg]
    · intro h4; rw [h4] at hy; exact heB hy
    · intro h4; rw [h4] at hy; exact hbB hy

/-! ## `pq_remove` -/

theorem ok_bind {α β : Type} (a : α) (f : α → M β) : (Except.ok a : M α) >>= f = f a := rfl

theorem load_some (m : Mem) (a : Nat) : load m (some a) = Except.ok (rd m a) := rfl

theorem ASSERT_true (m : Mem) : ASSERT m true = Except.ok () := rfl

theorem ite_store_parent (m : Mem) (p v : Ptr) :
    (if p ≠ none then store m p (fun x => { x with parent := v }) else pure m)
      = (Except.ok (set_parent_opt m p v) : M Mem) := by
  cases p <;> rfl

theorem ite_clear_parent_slot (m : Mem) (a : Nat) (p : Ptr) (hp : (rd m a).parent = p) :
    (if p ≠ none then do
        let pe ← load m p
        if some a = pe.left then store m p (fun x => { x with left := none })
        else store m p (fun x => { x with right := none })
      else pure m) = (Except.ok (clear_parent_slot m a) : M Mem) := by
  unfold clear_parent_slot
  rw [hp]
  cases p with
  | none => rfl
  | some g =>
    simp only [ne_eq, not_false_eq_true, if_true, load_some, ok_bind, reduceCtorEq]
    split_ifs <;> rfl

@[simp] theorem rd_set_parent_opt_prev (m : Mem) (p v : Ptr) (x : Nat) :
    (rd (set_parent_opt m p v) x).prev = (rd m x).prev := by
  cases p <;> simp [set_parent_opt]

@[simp] theorem rd_set_parent_opt_next (m : Mem) (p v : Ptr) (x : Nat) :
    (rd (set_parent_opt m p v) x).next = (rd m x).next := by
  cases p <;> simp [set_parent_opt]

@[simp] theorem rd_set_parent_opt_left (m : Mem) (p v : Ptr) (x : Nat) :
    (rd (set_parent_opt m p v) x).left = (rd m x).left := by
  cases p <;> simp [set_parent_opt]

@[simp] theorem rd_set_parent_opt_right (m : Mem) (p v : Ptr) (x : Nat) :
    (rd (set_parent_opt m p v) x).right = (rd m x).right := by
  cases p <;> simp [set_parent_opt]

@[simp] theorem rd_set_parent_opt_id (m : Mem) (p v : Ptr) (x : Nat) :
    (rd (set_parent_opt m p v) x).id = (rd m x).id := by
  cases p <;> simp [set_parent_opt]

@[simp] theorem rd_set_parent_opt_priority (m : Mem) (p v : Ptr) (x : Nat) :
    (rd (set_parent_opt m p v) x).priority = (rd m x).priority := by
  cases p <;> simp [set_parent_opt]

theorem rd_set_parent_opt_parent (m : Mem) (p v : Ptr) (x : Nat) :
    (rd (set_parent_opt m p v) x).parent = if p = some x then v else (rd m x).parent := by
  cases p with
  | none => simp [set_parent_opt]
  | some l =>
    simp only [set_parent_opt, rd_set_parent_parent, Option.some.injEq]
    by_cases h : x = l
    · simp [h]
    · simp [h, Ne.symm h]

@[simp] theorem rd_clear_parent_slot_prev (m : Mem) (a x : Nat) :
    (rd (clear_parent_slot m a) x).prev = (rd m x).prev := by
  unfold clear_parent_slot
  split
  · rfl
  · split_ifs <;> simp

@[simp] theorem rd_clear_parent_slot_next (m : Mem) (a x : Nat) :
    (rd (clear_parent_slot m a) x).next = (rd m x).next := by
  unfold clear_parent_slot
  split
  · rfl
  · split_ifs <;> simp

@[simp] theorem rd_clear_parent_slot_parent (m : Mem) (a x : Nat) :
    (rd (clear_parent_slot m a) x).parent = (rd m x).parent := by
  unfold clear_parent_slot
  split
  · rfl
  · split_ifs <;> simp

@[simp] theorem rd_clear_parent_slot_id (m : Mem) (a x : Nat) :
    (rd (clear_parent_slot m a) x).id = (rd m x).id := by
  unfold clear_parent_slot
  split
  · rfl
  · split_ifs <;> simp

@[simp] theorem rd_clear_parent_slot_priority (m : Mem) (a x : Nat) :
    (rd (clear_parent_slot m a) x).priority = (rd m x).priority := by
  unfold clear_parent_slot
  split
  · rfl
  · split_ifs <;> simp

theorem rd_clear_parent_slot_left (m : Mem) (a x : Nat) :
    (rd (clear_parent_slot m a) x).left = (rd m x).left ∨
      (rd (clear_parent_slot m a) x).left = none := by
  unfold clear_parent_slot
  split
  · exact Or.inl rfl
  · split_ifs
    · rw [rd_set_left_left]; split_ifs
      · exact Or.inr rfl
      · exact Or.inl rfl
    · exact Or.inl (by simp)

theorem rd_clear_parent_slot_right (m : Mem) (a x : Nat) :
    (rd (clear_parent_slot m a) x).right = (rd m x).right ∨
      (rd (clear_parent_slot m a) x).right = none := by
  unfold clear_parent_slot
  split
  · exact Or.inl rfl
  · split_ifs
    · exact Or.inl (by simp)
    · rw [rd_set_right_right]; split_ifs
      · exact Or.inr rfl
      · exact Or.inl rfl

theorem rd_clear_parent_slot_at (m : Mem) (a g : Nat) (h : (rd m a).parent = some g) :
    ((rd m g).left = some a → (rd (clear_parent_slot m a) g).left = none) ∧
    ((rd m g).left ≠ some a → (rd (clear_parent_slot m a) g).right = none) := by
  unfold clear_parent_slot
  rw [h]
  constructor
  · intro h2; simp [h2]
  · intro h2; simp [Ne.symm h2]

theorem pq_remove_eq (m : Mem) (a c n : Nat)
    (hp : (rd m a).prev = some c) (hn : (rd m a).next = some n) :
    pq_remove m (some a) = Except.ok (some n, remove_mem m a c n) := by
  unfold pq_remove remove_mem
  simp only [ASSERT_true, ok_bind, load_some, hp, hn, store_next, store_prev,
    rd_set_next_next, rd_set_next_prev, ite_self,
    show (some a != none) = true from rfl]
  rw [ite_clear_parent_slot _ a _ rfl]
  simp only [ok_bind, ite_store_parent]
  simp [pure, Except.pure, hn]

theorem pq_remove_spec (m : Mem) (a c n : Nat)
    (hp : (rd m a).prev = some c) (hn : (rd m a).next = some n) :
    ∃ m2, pq_remove m (some a) = Except.ok (some n, m2) ∧
      (∀ x, (rd m2 x).next = if x = c then some n else (rd m x).next) ∧
      (∀ x, (rd m2 x).prev = if x = n then some c else (rd m x).prev) ∧
      (∀ x, (rd m2 x).id = (rd m x).id) ∧
      (∀ x, (rd m2 x).priority = (rd m x).priority) ∧
      (∀ x, (rd m2 x).left = (rd m x).left ∨ (rd m2 x).left = none) ∧
      (∀ x, (rd m2 x).right = (rd m x).right ∨ (rd m2 x).right = none) ∧
      (∀ g, (rd m a).parent = some g →
        ((rd m g).left = some a → (rd m2 g).left = none) ∧
        ((rd m g).left ≠ some a → (rd m2 g).right = none)) := by
  refine ⟨remove_mem m a c n, pq_remove_eq m a c n hp hn, ?_, ?_, ?_, ?_, ?_, ?_, ?_⟩
  · intro x; simp [remove_mem]
  · intro x; simp [remove_mem]
  · intro x; simp [remove_mem]
  · intro x; simp [remove_mem]
  · intro x
    simp only [remove_mem, rd_set_parent_opt_left]
    have := rd_clear_parent_slot_left (set_prev (set_next m c (some n)) n (some c)) a x
    simpa using this
  · intro x
    simp only [remove_mem, rd_set_parent_opt_right]
    have := rd_clear_parent_slot_right (set_prev (set_next m c (some n)) n (some c)) a x
    simpa using this
  · intro g hg
    simp only [remove_mem, rd_set_parent_opt_left, rd_set_parent_opt_right]
    have := rd_clear_parent_slot_at (set_prev (set_next m c (some n)) n (some c)) a g
      (by simpa using hg)
    simpa using this

/-! ## The walks of `parent`, `left` and `right` -/

theorem parent_loop_congr {m m2 : Mem} (h : ∀ x, (rd m2 x).prev = (rd m x).prev) :
    ∀ (k : Nat) (p : Ptr) (r : Option Ptr), parent_loop m k p = Except.ok r →
      parent_loop m2 k p = Except.ok r := by
  intro k
  induction k with
  | zero => intro p r hr; exact hr
  | succ k ih =>
    intro p r hr
    cases p with
    | none => simp [parent_loop, load, bind, Except.bind] at hr
    | some a =>
      simp only [parent_loop, load_some, ok_bind, h] at hr ⊢
      cases hq : (rd m a).prev with
      | none => rw [hq] at hr; simp [load, bind, Except.bind] at hr
      | some c =>
        rw [hq] at hr
        simp only [load_some, ok_bind, h] at hr ⊢
        split_ifs at hr ⊢ with h1
        · exact hr
        · exact ih _ _ hr

theorem child_loop_congr {m m2 : Mem} (h : ∀ x, (rd m2 x).next = (rd m x).next) :
    ∀ (k : Nat) (p : Ptr) (r : Option Ptr), child_loop m k p = Except.ok r →
      child_loop m2 k p = Except.ok r := by
  intro k
  induction k with
  | zero => intro p r hr; exact hr
  | succ k ih =>
    intro p r hr
    cases p with
    | none => simp [child_loop, load, bind, Except.bind] at hr
    | some a =>
      simp only [child_loop, load_some, ok_bind, h] at hr ⊢
      cases hq : (rd m a).next with
      | none => rw [hq] at hr; simp [load, bind, Except.bind] at hr
      | some c =>
        rw [hq] at hr
        simp only [load_some, ok_bind, h] at hr ⊢
        split_ifs at hr ⊢ with h1
        · exact hr
        · exact ih _ _ hr

theorem child_loop_chain {m : Mem} {t : Nat} (ht : (rd m t).next = none) :
    ∀ (k : Nat) (a : Nat) (Y : List Nat), List.Chain' (Lnk m) (a :: (Y ++ [t])) →
      child_loop m k (some a) =
        Except.ok ((if k ≤ Y.length then (a :: Y)[k]? else none).map some) := by
  intro k
  induction k with
  | zero => intro a Y _; simp [child_loop, pure, Except.pure]
  | succ k ih =>
    intro a Y h
    cases Y with
    | nil =>
      have h1 : Lnk m a t := by simpa using h
      simp [child_loop, load_some, ok_bind, h1.1, ht, pure, Except.pure]
    | cons y Y =>
      rw [List.cons_append, List.chain'_cons] at h
      have h2 : (rd m y).next ≠ none := by
        cases Y with
        | nil =>
          have : Lnk m y t := by simpa using h.2
          rw [this.1]; simp
        | cons z Y =>
          have := h.2
          rw [List.cons_append, List.chain'_cons] at this
          rw [this.1.1]; simp
      simp only [child_loop, load_some, ok_bind, h.1.1, if_neg h2, ih y Y h.2]
      simp

theorem parent_loop_chain {m : Mem} {q : Nat} (hq : (rd m q).prev = none) :
    ∀ (k : Nat) (a : Nat) (X : List Nat), List.Chain' (Lnk m) (q :: (X ++ [a])) →
      parent_loop m k (some a) =
        Except.ok ((if k ≤ X.length then (X ++ [a])[X.length - k]? else none).map some) := by
  intro k
  induction k with
  | zero => intro a X _; simp [parent_loop, pure, Except.pure]
  | succ k ih =>
    intro a X h
    rcases List.eq_nil_or_concat X with hX | ⟨X2, x, hX⟩
    · subst hX
      have h1 : Lnk m q a := by simpa using h
      simp [parent_loop, load_some, ok_bind, h1.2, hq, pure, Except.pure]
    · rw [List.concat_eq_append] at hX
      subst hX
      have h3 : q :: (X2 ++ [x] ++ [a]) = (q :: X2) ++ x :: [a] := by simp
      rw [h3, List.chain'_split] at h
      have h1 : Lnk m x a := by simpa using h.2
      have h4 : List.Chain' (Lnk m) (q :: (X2 ++ [x])) := by simpa using h.1
      have h2 : (rd m x).prev ≠ none := by
        rcases List.eq_nil_or_concat X2 with hX2 | ⟨X3, z, hX2⟩
        · subst hX2
          have : Lnk m q x := by simpa using h4
          rw [this.2]; simp
        · rw [List.concat_eq_append] at hX2
          subst hX2
          have h5 : q :: (X3 ++ [z] ++ [x]) = (q :: X3) ++ z :: [x] := by simp
          rw [h5, List.chain'_split] at h4
          have : Lnk m z x := by simpa using h4.2
          rw [this.2]; simp
      have key : (if k ≤ X2.length then (X2 ++ [x])[X2.length - k]? else none) =
          (if k + 1 ≤ (X2 ++ [x]).length then
            (X2 ++ [x] ++ [a])[(X2 ++ [x]).length - (k + 1)]? else none) := by
        simp only [List.length_append, List.length_singleton, add_le_add_iff_right]
        split_ifs with h6
        · have h7 : X2.length + 1 - (k + 1) = X2.length - k := by omega
          rw [h7, List.getElem?_append_left
            (show X2.length - k < (X2 ++ [x]).length by simp; omega)]
        · rfl
      simp only [parent_loop, load_some, ok_bind, h1.2, if_neg h2, ih x X2 h4, key]

/-! ## `pq_insert` -/

theorem parent_eq (m : Mem) (e : Nat) (W : Option Nat)
    (hW : parent_loop m ((rd m e).id - Int.tdiv (rd m e).id 2).toNat (some e)
      = Except.ok (W.map some)) :
    parent m (some e) = Except.ok (W, parent_slot_mem m e W) := by
  unfold parent parent_slot_mem
  simp only [show (some e != none) = true from rfl, ASSERT_true, ok_bind, load_some, hW]
  cases W with
  | none => rfl
  | some w =>
    simp only [Option.map_some', load_some, ok_bind]
    split_ifs <;> rfl

theorem left_eq (m : Mem) (e : Nat) (Lw : Option Nat)
    (hL : child_loop m ((rd m e).id * 2 - (rd m e).id).toNat (some e)
      = Except.ok (Lw.map some)) :
    left m (some e) = Except.ok Lw := by
  unfold left
  simp only [show (some e != none) = true from rfl, ASSERT_true, ok_bind, load_some, hL]
  cases Lw <;> rfl

theorem right_eq (m : Mem) (e : Nat) (Rw : Option Nat)
    (hR : child_loop m ((rd m e).id * 2 + 1 - (rd m e).id).toNat (some e)
      = Except.ok (Rw.map some)) :
    right m (some e) = Except.ok Rw := by
  unfold right
  simp only [show (some e != none) = true from rfl, ASSERT_true, ok_bind, load_some, hR]
  cases Rw <;> rfl

theorem ite_insert_slot (m : Mem) (e : Nat) :
    (if (rd m e).parent ≠ none then do
        let pe ← load m (rd m e).parent
        if (rd m e).id = 2 * pe.id then
          store m (rd m e).parent (fun x => { x with left := some e })
        else if (rd m e).id = 2 * pe.id + 1 then
          store m (rd m e).parent (fun x => { x with right := some e })
        else pure m
      else pure m) = (Except.ok (insert_slot_mem m e (rd m e).parent) : M Mem) := by
  unfold insert_slot_mem
  cases (rd m e).parent with
  | none => rfl
  | some g =>
    simp only [ne_eq, not_false_eq_true, if_true, load_some, ok_bind, reduceCtorEq]
    split_ifs <;> rfl

@[simp] theorem rd_link_mem_id (m : Mem) (b e c x : Nat) :
    (rd (link_mem m b e c) x).id = if x = e then (rd m c).id + 1 else (rd m x).id := by
  simp [link_mem]

@[simp] theorem rd_link_mem_priority (m : Mem) (b e c x : Nat) :
    (rd (link_mem m b e c) x).priority = (rd m x).priority := by
  simp [link_mem]

@[simp] theorem rd_link_mem_left (m : Mem) (b e c x : Nat) :
    (rd (link_mem m b e c) x).left = (rd m x).left := by
  simp [link_mem]

@[simp] theorem rd_link_mem_right (m : Mem) (b e c x : Nat) :
    (rd (link_mem m b e c) x).right = (rd m x).right := by
  simp [link_mem]

@[simp] theorem rd_link_mem_parent (m : Mem) (b e c x : Nat) :
    (rd (link_mem m b e c) x).parent = (rd m x).parent := by
  simp [link_mem]

theorem rd_link_mem_next (m : Mem) (b e c x : Nat) :
    (rd (link_mem m b e c) x).next =
      if x = c then some e else if x = e then some b else (rd m x).next := by
  simp [link_mem]

theorem rd_link_mem_prev (m : Mem) (b e c x : Nat) :
    (rd (link_mem m b e c) x).prev =
      if x = b then some e else if x = e then some c else (rd m x).prev := by
  simp [link_mem]


@[simp] theorem rd_parent_slot_mem_prev (m : Mem) (e : Nat) (W : Option Nat) (x : Nat) :
    (rd (parent_slot_mem m e W) x).prev = (rd m x).prev := by
  unfold parent_slot_mem
  cases W with
  | none => rfl
  | some w => simp only []; split_ifs <;> simp

@[simp] theorem rd_parent_slot_mem_next (m : Mem) (e : Nat) (W : Option Nat) (x : Nat) :
    (rd (parent_slot_mem m e W) x).next = (rd m x).next := by
  unfold parent_slot_mem
  cases W with
  | none => rfl
  | some w => simp only []; split_ifs <;> simp

@[simp] theorem rd_parent_slot_mem_id (m : Mem) (e : Nat) (W : Option Nat) (x : Nat) :
    (rd (parent_slot_mem m e W) x).id = (rd m x).id := by
  unfold parent_slot_mem
  cases W with
  | none => rfl
  | some w => simp only []; split_ifs <;> simp

@[simp] theorem rd_parent_slot_mem_priority (m : Mem) (e : Nat) (W : Option Nat) (x : Nat) :
    (rd (parent_slot_mem m e W) x).priority = (rd m x).priority := by
  unfold parent_slot_mem
  cases W with
  | none => rfl
  | some w => simp only []; split_ifs <;> simp

@[simp] theorem rd_parent_slot_mem_parent (m : Mem) (e : Nat) (W : Option Nat) (x : Nat) :
    (rd (parent_slot_mem m e W) x).parent = (rd m x).parent := by
  unfold parent_slot_mem
  cases W with
  | none => rfl
  | some w => simp only []; split_ifs <;> simp

@[simp] theorem rd_insert_slot_mem_prev (m : Mem) (e : Nat) (W : Option Nat) (x : Nat) :
    (rd (insert_slot_mem m e W) x).prev = (rd m x).prev := by
  unfold insert_slot_mem
  cases W with
  | none => rfl
  | some w => simp only []; split_ifs <;> simp

@[simp] theorem rd_insert_slot_mem_next (m : Mem) (e : Nat) (W : Option Nat) (x : Nat) :
    (rd (insert_slot_mem m e W) x).next = (rd m x).next := by
  unfold insert_slot_mem
  cases W with
  | none => rfl
  | some w => simp only []; split_ifs <;> simp

@[simp] theorem rd_insert_slot_mem_id (m : Mem) (e : Nat) (W : Option Nat) (x : Nat) :
    (rd (insert_slot_mem m e W) x).id = (rd m x).id := by
  unfold insert_slot_mem
  cases W with
  | none => rfl
  | some w => simp only []; split_ifs <;> simp

@[simp] theorem rd_insert_slot_mem_priority (m : Mem) (e : Nat) (W : Option Nat) (x : Nat) :
    (rd (insert_slot_mem m e W) x).priority = (rd m x).priority := by
  unfold insert_slot_mem
  cases W with
  | none => rfl
  | some w => simp only []; split_ifs <;> simp

@[simp] theorem rd_insert_slot_mem_parent (m : Mem) (e : Nat) (W : Option Nat) (x : Nat) :
    (rd (insert_slot_mem m e W) x).parent = (rd m x).parent := by
  unfold insert_slot_mem
  cases W with
  | none => rfl
  | some w => simp only []; split_ifs <;> simp

theorem rd_parent_slot_mem_left (m : Mem) (e : Nat) (W : Option Nat) (x : Nat) :
    (rd (parent_slot_mem m e W) x).left =
      if W = some x ∧ (rd m e).id = 2 * (rd m x).id then some e else (rd m x).left := by
  unfold parent_slot_mem
  cases W with
  | none => simp
  | some w =>
    simp only [Option.some.injEq]
    by_cases hx : w = x
    · subst hx
      by_cases h : (rd m e).id = (rd m w).id * 2
      · simp [h, mul_comm]
      · have h2 : ¬ (rd m e).id = 2 * (rd m w).id := by rwa [mul_comm]
        simp [h, h2]
    · have hx2 : ¬ x = w := fun h => hx h.symm
      split_ifs <;> simp_all

theorem rd_parent_slot_mem_right (m : Mem) (e : Nat) (W : Option Nat) (x : Nat) :
    (rd (parent_slot_mem m e W) x).right =
      if W = some x ∧ (rd m e).id ≠ 2 * (rd m x).id then some e else (rd m x).right := by
  unfold parent_slot_mem
  cases W with
  | none => simp
  | some w =>
    simp only [Option.some.injEq]
    by_cases hx : w = x
    · subst hx
      by_cases h : (rd m e).id = (rd m w).id * 2
      · simp [h, mul_comm]
      · have h2 : ¬ (rd m e).id = 2 * (rd m w).id := by rwa [mul_comm]
        simp [h, h2]
    · have hx2 : ¬ x = w := fun h => hx h.symm
      split_ifs <;> simp_all

theorem rd_insert_slot_mem_left (m : Mem) (e : Nat) (W : Option Nat) (x : Nat) :
    (rd (insert_slot_mem m e W) x).left =
      if W = some x ∧ (rd m e).id = 2 * (rd m x).id then some e else (rd m x).left := by
  unfold insert_slot_mem
  cases W with
  | none => simp
  | some w =>
    simp only [Option.some.injEq]
    by_cases hx : w = x
    · subst hx
      by_cases h : (rd m e).id = 2 * (rd m w).id
      · simp [h]
      · simp only [h, if_false, and_false]
        split_ifs <;> simp_all
    · have hx2 : ¬ x = w := fun h => hx h.symm
      split_ifs <;> simp_all

theorem rd_insert_slot_mem_right (m : Mem) (e : Nat) (W : Option Nat) (x : Nat) :
    (rd (insert_slot_mem m e W) x).right =
      if W = some x ∧ (rd m e).id = 2 * (rd m x).id + 1 then some e else (rd m x).right := by
  unfold insert_slot_mem
  cases W with
  | none => simp
  | some w =>
    simp only [Option.some.injEq]
    by_cases hx : w = x
    · subst hx
      by_cases h : (rd m e).id = 2 * (rd m w).id
      · have h2 : ¬ (rd m e).id = 2 * (rd m w).id + 1 := by omega
        simp [h, h2]
      · simp only [h, if_false, true_and]
        split_ifs <;> simp_all
    · have hx2 : ¬ x = w := fun h => hx h.symm
      split_ifs <;> simp_all

theorem pq_insert_eq (m : Mem) (b e c : Nat) (p : Int) (W Lw Rw : Option Nat)
    (hb : (rd m b).prev = some c)
    (hW : parent_loop (link_mem m b e c)
      (((rd m c).id + 1) - Int.tdiv ((rd m c).id + 1) 2).toNat (some e) = Except.ok (W.map some))
    (hL : child_loop (link_mem m b e c)
      (((rd m c).id + 1) * 2 - ((rd m c).id + 1)).toNat (some e) = Except.ok (Lw.map some))
    (hR : child_loop (link_mem m b e c)
      (((rd m c).id + 1) * 2 + 1 - ((rd m c).id + 1)).toNat (some e)
        = Except.ok (Rw.map some)) :
    pq_insert m (some b) (some e) p = Except.ok (insert_mem m b e c p W Lw Rw) := by
  have hlink : set_prev (set_next (set_next (set_prev (set_id m e ((rd m c).id + 1)) e (some c))
      e (some b)) c (some e)) b (some e) = link_mem m b e c := rfl
  unfold pq_insert insert_mem
  simp only [show (some b != none && some e != none) = true from rfl, ASSERT_true, ok_bind,
    load_some, hb, store_id, store_prev, store_next, rd_set_id_prev, rd_set_prev_prev,
    rd_set_next_prev, ite_self, hlink]
  rw [parent_eq _ e W (by simpa using hW)]
  simp only [ok_bind, store_parent, load_some]
  rw [ite_insert_slot]
  simp only [ok_bind, rd_set_parent_parent, if_true]
  rw [left_eq _ e Lw (by
    refine child_loop_congr (m := link_mem m b e c) ?_ _ _ _ ?_
    · intro x; simp
    · simpa using hL)]
  simp only [ok_bind, store_left, load_some, ite_store_parent, rd_set_left_left, if_true]
  rw [right_eq _ e Rw (by
    refine child_loop_congr (m := link_mem m b e c) ?_ _ _ _ ?_
    · intro x; simp
    · simpa using hR)]
  simp only [ok_bind, store_right, load_some, ite_store_parent, rd_set_right_right, if_true,
    store_priority]

/-! ## Fields after `pq_insert` -/

theorem rd_insert_mem_next (m : Mem) (b e c : Nat) (p : Int) (W Lw Rw : Option Nat) (x : Nat) :
    (rd (insert_mem m b e c p W Lw Rw) x).next =
      if x = c then some e else if x = e then some b else (rd m x).next := by
  simp [insert_mem, rd_link_mem_next]

theorem rd_insert_mem_prev (m : Mem) (b e c : Nat) (p : Int) (W Lw Rw : Option Nat) (x : Nat) :
    (rd (insert_mem m b e c p W Lw Rw) x).prev =
      if x = b then some e else if x = e then some c else (rd m x).prev := by
  simp [insert_mem, rd_link_mem_prev]

theorem rd_insert_mem_id (m : Mem) (b e c : Nat) (p : Int) (W Lw Rw : Option Nat) (x : Nat) :
    (rd (insert_mem m b e c p W Lw Rw) x).id =
      if x = e then (rd m c).id + 1 else (rd m x).id := by
  simp [insert_mem]

theorem rd_insert_mem_priority (m : Mem) (b e c : Nat) (p : Int) (W Lw Rw : Option Nat)
    (x : Nat) :
    (rd (insert_mem m b e c p W Lw Rw) x).priority =
      if x = e then p else (rd m x).priority := by
  simp [insert_mem]

theorem rd_insert_mem_left (m : Mem) (b e c : Nat) (p : Int) (W Lw Rw : Option Nat) (x : Nat) :
    (rd (insert_mem m b e c p W Lw Rw) x).left =
      if x = e then Lw
      else if W = some x ∧ (rd m c).id + 1 = 2 * (rd m x).id then some e
      else (rd m x).left := by
  by_cases hx : x = e
  · simp [insert_mem, hx]
  · simp only [insert_mem, rd_set_priority_left, rd_set_parent_opt_left, rd_set_right_left,
      rd_set_left_left, if_neg hx, rd_insert_slot_mem_left, rd_set_parent_id,
      rd_parent_slot_mem_id, rd_link_mem_id, if_true, rd_set_parent_left,
      rd_parent_slot_mem_left, rd_link_mem_left]
    by_cases hW : W = some x
    · by_cases h2 : (rd m c).id + 1 = 2 * (rd m x).id
      · simp [hW, h2]
      · simp [hW, h2]
    · simp [hW]

theorem rd_insert_mem_right (m : Mem) (b e c : Nat) (p : Int) (W Lw Rw : Option Nat) (x : Nat) :
    (rd (insert_mem m b e c p W Lw Rw) x).right =
      if x = e then Rw
      else if W = some x ∧ (rd m c).id + 1 ≠ 2 * (rd m x).id then some e
      else (rd m x).right := by
  by_cases hx : x = e
  · simp [insert_mem, hx]
  · simp only [insert_mem, rd_set_priority_right, rd_set_parent_opt_right, rd_set_right_right,
      if_neg hx, rd_set_left_right, rd_insert_slot_mem_right, rd_set_parent_id,
      rd_parent_slot_mem_id, rd_link_mem_id, if_true, rd_set_parent_right,
      rd_parent_slot_mem_right, rd_link_mem_right]
    by_cases hW : W = some x
    · by_cases h2 : (rd m c).id + 1 = 2 * (rd m x).id
      · have h3 : ¬ (rd m c).id + 1 = 2 * (rd m x).id + 1 := by omega
        simp [hW, h2, h3]
      · simp [hW, h2]
    · simp [hW]

theorem rd_insert_mem_parent (m : Mem) (b e c : Nat) (p : Int) (W Lw Rw : Option Nat)
    (x : Nat) :
    (rd (insert_mem m b e c p W Lw Rw) x).parent =
      if Rw = some x then some e else if Lw = some x then some e
      else if x = e then W else (rd m x).parent := by
  simp [insert_mem, rd_set_parent_opt_parent]

/-! ## List structure under `pq_remove` and `pq_insert` -/

theorem seq_decomp (q t : Nat) (X Y : List Nat) :
    ∃ A B, q :: X = A ++ [lastOr q X] ∧ Y ++ [t] = firstOr t Y :: B ∧
      q :: ((X ++ Y) ++ [t]) = A ++ lastOr q X :: firstOr t Y :: B := by
  obtain ⟨A, hA⟩ := exists_snoc_lastOr q X
  obtain ⟨B, hB⟩ := exists_cons_firstOr t Y
  refine ⟨A, B, hA, hB, ?_⟩
  have : q :: ((X ++ Y) ++ [t]) = (q :: X) ++ (Y ++ [t]) := by simp
  rw [this, hA, hB]; simp

theorem seq_decomp_mid (q t a : Nat) (X Y : List Nat) :
    ∃ A B, q :: X = A ++ [lastOr q X] ∧ Y ++ [t] = firstOr t Y :: B ∧
      q :: ((X ++ a :: Y) ++ [t]) = A ++ lastOr q X :: a :: firstOr t Y :: B := by
  obtain ⟨A, hA⟩ := exists_snoc_lastOr q X
  obtain ⟨B, hB⟩ := exists_cons_firstOr t Y
  refine ⟨A, B, hA, hB, ?_⟩
  have : q :: ((X ++ a :: Y) ++ [t]) = (q :: X) ++ a :: (Y ++ [t]) := by simp
  rw [this, hA, hB]; simp

theorem chain_rel_mid {R : Nat → Nat → Prop} {A B : List Nat} {x y : Nat}
    (h : List.Chain' R (A ++ x :: y :: B)) : R x y := by
  rw [List.chain'_split, List.chain'_cons] at h
  exact h.2.1

theorem IsList.lnk {m : Mem} {q : Nat} {X Y : List Nat} (h : IsList m q (X ++ Y)) :
    Lnk m (lastOr q X) (firstOr (q + 1) Y) := by
  obtain ⟨A, B, _, _, hS⟩ := seq_decomp q (q + 1) X Y
  have h2 := h.2.1
  rw [hS] at h2
  exact chain_rel_mid h2

theorem IsList.prev_eq {m : Mem} {q a : Nat} {X Y : List Nat} (h : IsList m q (X ++ a :: Y)) :
    (rd m a).prev = some (lastOr q X) := by
  have := IsList.lnk (X := X) (Y := a :: Y) h
  exact this.2

theorem IsList.next_eq {m : Mem} {q a : Nat} {X Y : List Nat} (h : IsList m q (X ++ a :: Y)) :
    (rd m a).next = some (firstOr (q + 1) Y) := by
  have h2 : IsList m q ((X ++ [a]) ++ Y) := by simpa using h
  have := IsList.lnk h2
  rw [lastOr_append_singleton] at this
  exact this.1

theorem IsList.head_next {m : Mem} {q : Nat} {L : List Nat} (h : IsList m q L) :
    (rd m q).next = some (firstOr (q + 1) L) := by
  have := IsList.lnk (X := []) (Y := L) (by simpa using h)
  exact this.1

theorem IsList.tail_prev {m : Mem} {q : Nat} {L : List Nat} (h : IsList m q L) :
    (rd m (q + 1)).prev = some (lastOr q L) := by
  have := IsList.lnk (X := L) (Y := []) (by simpa using h)
  exact this.2

theorem IsList.not_mem_head {m : Mem} {q : Nat} {L : List Nat} (h : IsList m q L) : q ∉ L := by
  have := h.1
  simp only [List.nodup_cons, List.mem_append, not_or] at this
  exact this.1.1

theorem IsList.not_mem_tail {m : Mem} {q : Nat} {L : List Nat} (h : IsList m q L) :
    q + 1 ∉ L := by
  have := h.1
  rw [List.nodup_cons, List.nodup_append] at this
  intro h2
  exact this.2.2.2 h2 (by simp)

theorem IsList.nodup {m : Mem} {q : Nat} {L : List Nat} (h : IsList m q L) : L.Nodup := by
  have := h.1
  rw [List.nodup_cons, List.nodup_append] at this
  exact this.2.1

theorem IsList.congr {m m2 : Mem} {q : Nat} {L : List Nat} (h : IsList m q L)
    (hn : ∀ x, (rd m2 x).next = (rd m x).next)
    (hp : ∀ x, (rd m2 x).prev = (rd m x).prev) : IsList m2 q L :=
  ⟨h.1, chain_frame_all h.2.1 hn hp, by rw [hp]; exact h.2.2.1, by rw [hn]; exact h.2.2.2⟩

theorem IsList.remove {m m2 : Mem} {q a : Nat} {X Y : List Nat}
    (h : IsList m q (X ++ a :: Y))
    (hn : ∀ x, (rd m2 x).next =
      if x = lastOr q X then some (firstOr (q + 1) Y) else (rd m x).next)
    (hp : ∀ x, (rd m2 x).prev =
      if x = firstOr (q + 1) Y then some (lastOr q X) else (rd m x).prev) :
    IsList m2 q (X ++ Y) := by
  obtain ⟨A, B, hA, hB, hS⟩ := seq_decomp_mid q (q + 1) a X Y
  obtain ⟨A2, B2, hA2, hB2, hS2⟩ := seq_decomp q (q + 1) X Y
  have hAeq : A2 = A := by
    have := hA2.symm.trans hA
    exact List.append_cancel_right this
  have hBeq : B2 = B := by
    have := hB2.symm.trans hB
    simpa using this
  subst hAeq; subst hBeq
  obtain ⟨hnd, hch, hhp, htn⟩ := h
  rw [hS] at hnd hch
  have hnd2 : (A2 ++ lastOr q X :: firstOr (q + 1) Y :: B2).Nodup := by
    have hsub : (A2 ++ lastOr q X :: firstOr (q + 1) Y :: B2).Sublist
        (A2 ++ lastOr q X :: a :: firstOr (q + 1) Y :: B2) := by
      apply List.Sublist.append (List.Sublist.refl _)
      exact List.Sublist.cons₂ _ (List.Sublist.cons _ (List.Sublist.refl _))
    exact hnd.sublist hsub
  refine ⟨by rw [hS2]; exact hnd2, by rw [hS2]; exact chain_unlink hnd hch hn hp, ?_, ?_⟩
  · rw [hp, if_neg, hhp]
    intro h3
    have h4 : firstOr (q + 1) Y ∈ Y ++ [q + 1] := firstOr_mem _ _
    have h5 : (q :: ((X ++ Y) ++ [q + 1])).Nodup := by rw [hS2]; exact hnd2
    rw [List.nodup_cons] at h5
    apply h5.1
    rw [← h3] at h4
    simp only [List.append_assoc, List.mem_append]
    exact Or.inr (List.mem_append.1 h4)
  · rw [hn, if_neg, htn]
    intro h3
    have h4 : lastOr q X ∈ q :: X := lastOr_mem _ _
    have h5 : (q :: ((X ++ Y) ++ [q + 1])).Nodup := by rw [hS2]; exact hnd2
    have h6 : ((q :: X) ++ (Y ++ [q + 1])).Nodup := by simpa using h5
    rw [List.nodup_append] at h6
    exact h6.2.2 h4 (by rw [← h3]; simp)

theorem IsList.insert {m m2 : Mem} {q e : Nat} {X Y : List Nat}
    (h : IsList m q (X ++ Y)) (he : e ∉ q :: ((X ++ Y) ++ [q + 1]))
    (hn : ∀ x, (rd m2 x).next =
      if x = lastOr q X then some e else if x = e then some (firstOr (q + 1) Y)
      else (rd m x).next)
    (hp : ∀ x, (rd m2 x).prev =
      if x = firstOr (q + 1) Y then some e else if x = e then some (lastOr q X)
      else (rd m x).prev) :
    IsList m2 q (X ++ e :: Y) := by
  obtain ⟨A, B, hA, hB, hS⟩ := seq_decomp_mid q (q + 1) e X Y
  obtain ⟨A2, B2, hA2, hB2, hS2⟩ := seq_decomp q (q + 1) X Y
  have hAeq : A2 = A := by
    have := hA2.symm.trans hA
    exact List.append_cancel_right this
  have hBeq : B2 = B := by
    have := hB2.symm.trans hB
    simpa using this
  subst hAeq; subst hBeq
  obtain ⟨hnd, hch, hhp, htn⟩ := h
  rw [hS2] at hnd hch he
  have hc_mem : lastOr q X ∈ q :: ((X ++ Y) ++ [q + 1]) := by
    have h4 : lastOr q X ∈ q :: X := lastOr_mem _ _
    simp only [List.mem_cons, List.mem_append] at h4 ⊢
    tauto
  have hb_mem : firstOr (q + 1) Y ∈ q :: ((X ++ Y) ++ [q + 1]) := by
    have h4 : firstOr (q + 1) Y ∈ Y ++ [q + 1] := firstOr_mem _ _
    simp only [List.mem_cons, List.mem_append] at h4 ⊢
    tauto
  have hq_mem : q ∈ q :: ((X ++ Y) ++ [q + 1]) := by simp
  have ht_mem : q + 1 ∈ q :: ((X ++ Y) ++ [q + 1]) := by simp
  rw [hS2] at hc_mem hb_mem hq_mem ht_mem
  have hne : ∀ y, y ∈ A2 ++ lastOr q X :: firstOr (q + 1) Y :: B2 → y ≠ e :=
    fun y hy h3 => he (h3 ▸ hy)
  have hnd2 : (A2 ++ lastOr q X :: e :: firstOr (q + 1) Y :: B2).Nodup := by
    have hperm : (A2 ++ lastOr q X :: e :: firstOr (q + 1) Y :: B2).Perm
        (e :: (A2 ++ lastOr q X :: firstOr (q + 1) Y :: B2)) := by
      have h1 : A2 ++ lastOr q X :: e :: firstOr (q + 1) Y :: B2
          = (A2 ++ [lastOr q X]) ++ e :: (firstOr (q + 1) Y :: B2) := by simp
      have h2 : A2 ++ lastOr q X :: firstOr (q + 1) Y :: B2
          = (A2 ++ [lastOr q X]) ++ (firstOr (q + 1) Y :: B2) := by simp
      rw [h1, h2]
      exact List.perm_middle
    rw [hperm.nodup_iff, List.nodup_cons]
    exact ⟨he, hnd⟩
  have hqb : q ≠ firstOr (q + 1) Y := by
    intro h3
    have h4 : firstOr (q + 1) Y ∈ Y ++ [q + 1] := firstOr_mem _ _
    have h5 : (q :: ((X ++ Y) ++ [q + 1])).Nodup := by rw [hS2]; exact hnd
    rw [List.nodup_cons] at h5
    apply h5.1
    rw [← h3] at h4
    simp only [List.append_assoc, List.mem_append]
    exact Or.inr (List.mem_append.1 h4)
  have htc : q + 1 ≠ lastOr q X := by
    intro h3
    have h4 : lastOr q X ∈ q :: X := lastOr_mem _ _
    have h5 : (q :: ((X ++ Y) ++ [q + 1])).Nodup := by rw [hS2]; exact hnd
    have h6 : ((q :: X) ++ (Y ++ [q + 1])).Nodup := by simpa using h5
    rw [List.nodup_append] at h6
    exact h6.2.2 h4 (by rw [← h3]; simp)
  refine ⟨by rw [hS]; exact hnd2, by rw [hS]; exact chain_link hnd he hch hn hp, ?_, ?_⟩
  · rw [hp, if_neg hqb, if_neg (hne q hq_mem), hhp]
  · rw [hn, if_neg htc, if_neg (hne (q + 1) ht_mem), htn]

/-! ## `pq_remove` and `pq_insert` on a linked queue -/

theorem pq_remove_list {m : Mem} {q a : Nat} {X Y : List Nat}
    (h : IsList m q (X ++ a :: Y)) :
    ∃ m2, pq_remove m (some a) = Except.ok (some (firstOr (q + 1) Y), m2) ∧
      IsList m2 q (X ++ Y) ∧
      (∀ x, (rd m2 x).id = (rd m x).id) ∧
      (∀ x, (rd m2 x).priority = (rd m x).priority) ∧
      (∀ x, (rd m2 x).left = (rd m x).left ∨ (rd m2 x).left = none) ∧
      (∀ x, (rd m2 x).right = (rd m x).right ∨ (rd m2 x).right = none) ∧
      (∀ g, (rd m a).parent = some g →
        ((rd m g).left = some a → (rd m2 g).left = none) ∧
        ((rd m g).left ≠ some a → (rd m2 g).right = none)) := by
  obtain ⟨m2, h1, h2, h3, h4, h5, h6, h7, h8⟩ :=
    pq_remove_spec m a (lastOr q X) (firstOr (q + 1) Y) h.prev_eq h.next_eq
  exact ⟨m2, h1, h.remove h2 h3, h4, h5, h6, h7, h8⟩

theorem pq_insert_list {m : Mem} {q e : Nat} {X Y : List Nat} (p : Int)
    (h : IsList m q (X ++ Y)) (he : e ∉ q :: ((X ++ Y) ++ [q + 1])) :
    pq_insert m (some (firstOr (q + 1) Y)) (some e) p =
      Except.ok (insert_mem m (firstOr (q + 1) Y) e (lastOr q X) p
        (parent_walk X e ((rd m (lastOr q X)).id + 1))
        (child_walk Y e ((((rd m (lastOr q X)).id + 1) * 2
          - ((rd m (lastOr q X)).id + 1)).toNat))
        (child_walk Y e ((((rd m (lastOr q X)).id + 1) * 2 + 1
          - ((rd m (lastOr q X)).id + 1)).toNat))) ∧
    IsList (insert_mem m (firstOr (q + 1) Y) e (lastOr q X) p
        (parent_walk X e ((rd m (lastOr q X)).id + 1))
        (child_walk Y e ((((rd m (lastOr q X)).id + 1) * 2
          - ((rd m (lastOr q X)).id + 1)).toNat))
        (child_walk Y e ((((rd m (lastOr q X)).id + 1) * 2 + 1
          - ((rd m (lastOr q X)).id + 1)).toNat))) q (X ++ e :: Y) := by
  have hl : IsList (link_mem m (firstOr (q + 1) Y) e (lastOr q X)) q (X ++ e :: Y) :=
    h.insert he (rd_link_mem_next m _ e _) (rd_link_mem_prev m _ e _)
  have hch := hl.2.1
  have hS : q :: ((X ++ e :: Y) ++ [q + 1]) = (q :: X) ++ e :: (Y ++ [q + 1]) := by simp
  rw [hS, List.chain'_split] at hch
  constructor
  · apply pq_insert_eq
    · exact h.lnk.2
    · exact parent_loop_chain hl.2.2.1 _ e X (by simpa using hch.1)
    · exact child_loop_chain hl.2.2.2 _ e Y hch.2
    · exact child_loop_chain hl.2.2.2 _ e Y hch.2
  · exact h.insert he (rd_insert_mem_next m _ e _ p _ _ _) (rd_insert_mem_prev m _ e _ p _ _ _)

/-! ## `pq_init`, ids and the accessors -/

theorem pq_init_eq (m : Mem) (q : Nat) : pq_init m (some q) = Except.ok (init_mem m q) := rfl

theorem init_mem_isList (m : Mem) (q : Nat) : IsList (init_mem m q) q [] := by
  refine ⟨by simp, ?_, by simp [init_mem], by simp [init_mem]⟩
  simp only [List.nil_append, List.chain'_cons, List.chain'_singleton, and_true]
  constructor <;> simp [init_mem]

theorem init_mem_wf (m : Mem) (q : Nat) : WF (init_mem m q) q [] :=
  ⟨init_mem_isList m q, by simp [init_mem], trivial⟩

theorem Ids.append {m : Mem} : ∀ {k : Int} {L1 L2 : List Nat},
    Ids m k (L1 ++ L2) ↔ Ids m k L1 ∧ Ids m (k + L1.length) L2
  | k, [], L2 => by simp [Ids]
  | k, a :: L1, L2 => by
    have ih := @Ids.append m (k + 1) L1 L2
    have e : k + 1 + (L1.length : Int) = k + ((a :: L1).length : Int) := by
      simp only [List.length_cons]; push_cast; ring
    rw [e] at ih
    show (rd m a).id = k + 1 ∧ Ids m (k + 1) (L1 ++ L2) ↔
      ((rd m a).id = k + 1 ∧ Ids m (k + 1) L1) ∧ Ids m (k + ((a :: L1).length : Int)) L2
    rw [ih, and_assoc]

theorem Ids.congr_of_eq {m m2 : Mem} : ∀ {k : Int} {L : List Nat}, Ids m k L →
    (∀ x ∈ L, (rd m2 x).id = (rd m x).id) → Ids m2 k L
  | _, [], _, _ => trivial
  | k, a :: L, h, hid =>
    ⟨by rw [hid a (by simp)]; exact h.1,
      Ids.congr_of_eq h.2 (fun x hx => hid x (List.mem_cons_of_mem _ hx))⟩

theorem Ids.getElem {m : Mem} : ∀ {k : Int} {L : List Nat} {i : Nat} {a : Nat},
    Ids m k L → L[i]? = some a → (rd m a).id = k + i + 1
  | _, [], _, _, _, h => by simp at h
  | k, b :: L, 0, a, hI, h => by
    simp only [List.getElem?_cons_zero, Option.some.injEq] at h
    subst h; simpa using hI.1
  | k, b :: L, i + 1, a, hI, h => by
    simp only [List.getElem?_cons_succ] at h
    have := Ids.getElem hI.2 h
    rw [this]; push_cast; ring

theorem WF.lastOr_id {m : Mem} {q : Nat} {X Y : List Nat} (h : WF m q (X ++ Y)) :
    (rd m (lastOr q X)).id = X.length := by
  rcases List.eq_nil_or_concat X with hX | ⟨X2, x, hX⟩
  · subst hX; simpa [lastOr] using h.2.1
  · rw [List.concat_eq_append] at hX
    subst hX
    rw [lastOr_append_singleton]
    have h2 := h.2.2
    rw [Ids.append, Ids.append] at h2
    have := h2.1.2.1
    rw [this]; simp

theorem Ids.nonneg_mem {m : Mem} {k : Int} {L : List Nat} (h : Ids m k L) {a : Nat}
    (ha : a ∈ L) : k + 1 ≤ (rd m a).id := by
  obtain ⟨i, hi⟩ := List.getElem?_of_mem ha
  rw [Ids.getElem h hi]; omega

theorem walk_next_chain {m : Mem} {t : Nat} :
    ∀ (Y : List Nat) (a : Nat) (fuel : Nat), List.Chain' (Lnk m) (a :: (Y ++ [t])) →
      (a :: Y).Nodup → t ∉ a :: Y → Y.length + 1 < fuel →
      walk_next m (some t) fuel (some a) = Except.ok (a :: Y)
  | [], a, fuel, h, _, ht, hf => by
    obtain ⟨f, rfl⟩ : ∃ f, fuel = f + 2 := ⟨fuel - 2, by simp at hf; omega⟩
    have h1 : Lnk m a t := by simpa using h
    have hat : a ≠ t := fun h2 => ht (by simp [h2])
    simp [walk_next, hat, h1.1, ok_bind, pure, Except.pure]
  | y :: Y, a, fuel, h, hnd, ht, hf => by
    obtain ⟨f, rfl⟩ : ∃ f, fuel = f + 1 := ⟨fuel - 1, by simp at hf; omega⟩
    rw [List.cons_append, List.chain'_cons] at h
    have hat : a ≠ t := fun h2 => ht (by simp [h2])
    have ih := walk_next_chain Y y f h.2 (List.nodup_cons.1 hnd).2
      (fun h2 => ht (List.mem_cons_of_mem _ h2)) (by simp at hf; omega)
    simp [walk_next, hat, h.1.1, ih, ok_bind, pure, Except.pure]

theorem pq_size_loop_chain {m : Mem} {t : Nat} :
    ∀ (Y : List Nat) (a : Nat) (fuel cnt : Nat), List.Chain' (Lnk m) (a :: (Y ++ [t])) →
      t ∉ a :: Y → Y.length + 1 < fuel →
      pq_size_loop m (some t) fuel (some a) cnt = Except.ok (cnt + Y.length + 1)
  | [], a, fuel, cnt, h, ht, hf => by
    obtain ⟨f, rfl⟩ : ∃ f, fuel = f + 2 := ⟨fuel - 2, by simp at hf; omega⟩
    have h1 : Lnk m a t := by simpa using h
    have hat : a ≠ t := fun h2 => ht (by simp [h2])
    simp [pq_size_loop, hat, h1.1, ok_bind, load_some, pure, Except.pure]
  | y :: Y, a, fuel, cnt, h, ht, hf => by
    obtain ⟨f, rfl⟩ : ∃ f, fuel = f + 1 := ⟨fuel - 1, by simp at hf; omega⟩
    rw [List.cons_append, List.chain'_cons] at h
    have hat : a ≠ t := fun h2 => ht (by simp [h2])
    have ih := pq_size_loop_chain Y y f (cnt + 1) h.2
      (fun h2 => ht (List.mem_cons_of_mem _ h2)) (by simp at hf; omega)
    simp only [pq_size_loop, Option.some.injEq, hat, if_false, load_some, ok_bind, h.1.1, ih,
      List.length_cons]
    congr 1; omega

theorem pq_front_eq {m : Mem} {q : Nat} {L : List Nat} (h : IsList m q L) :
    pq_front m (some q) = Except.ok (some (firstOr (q + 1) L)) := by
  simp [pq_front, ASSERT, head_of, load_some, ok_bind, h.head_next, pure, Except.pure, bind,
    Except.bind]

theorem pq_back_eq {m : Mem} {q : Nat} {L : List Nat} (h : IsList m q L) :
    pq_back m (some q) = Except.ok (some (lastOr q L)) := by
  simp [pq_back, ASSERT, tail_of, load_some, ok_bind, h.tail_prev, pure, Except.pure, bind,
    Except.bind]

theorem pq_empty_eq {m : Mem} {q : Nat} {L : List Nat} (h : IsList m q L) :
    pq_empty m (some q) = Except.ok (decide (L = [])) := by
  have h2 := h.not_mem_tail
  cases L with
  | nil =>
    simp [pq_empty, head_of, tail_of, load_some, h.head_next, firstOr, pure, Except.pure, bind,
      Except.bind]
  | cons a L =>
    have : a ≠ q + 1 := fun h3 => h2 (by simp [h3])
    simp [pq_empty, head_of, tail_of, load_some, h.head_next, firstOr, pure, Except.pure, bind,
      Except.bind, this]

theorem pq_nodes_eq {m : Mem} {q : Nat} {L : List Nat} (h : IsList m q L) {fuel : Nat}
    (hf : L.length + 1 ≤ fuel) : pq_nodes fuel m (some q) = Except.ok L := by
  have h2 := h.not_mem_tail
  unfold pq_nodes
  rw [pq_front_eq h]
  simp only [pq_tail, show (some q != none) = true from rfl, ASSERT_true, ok_bind, tail_of,
    Option.map_some', pure, Except.pure]
  cases L with
  | nil =>
    obtain ⟨f, rfl⟩ : ∃ f, fuel = f + 1 := ⟨fuel - 1, by simp at hf; omega⟩
    simp [firstOr, walk_next, pure, Except.pure]
  | cons a L =>
    have hch := h.2.1
    rw [List.cons_append, List.chain'_cons] at hch
    exact walk_next_chain L a fuel hch.2 h.nodup h2 (by simpa using hf)

theorem pq_size_eq {m : Mem} {q : Nat} {L : List Nat} (h : IsList m q L) {fuel : Nat}
    (hf : L.length + 1 ≤ fuel) : pq_size fuel m (some q) = Except.ok L.length := by
  have h2 := h.not_mem_tail
  unfold pq_size
  rw [pq_front_eq h]
  simp only [pq_tail, show (some q != none) = true from rfl, ASSERT_true, ok_bind, tail_of,
    Option.map_some', pure, Except.pure]
  cases L with
  | nil =>
    obtain ⟨f, rfl⟩ : ∃ f, fuel = f + 1 := ⟨fuel - 1, by simp at hf; omega⟩
    simp [firstOr, pq_size_loop, pure, Except.pure]
  | cons a L =>
    have hch := h.2.1
    rw [List.cons_append, List.chain'_cons] at hch
    rw [firstOr, pq_size_loop_chain L a fuel 0 hch.2 h2 (by simpa using hf)]
    simp

/-! ## Walk lengths for natural ids -/

theorem parent_steps_nat (d : Nat) : ((d : Int) - Int.tdiv (d : Int) 2).toNat = d - d / 2 := by
  rw [Int.tdiv_eq_ediv (by omega) (by omega)]
  omega

theorem left_steps_nat (d : Nat) : ((d : Int) * 2 - (d : Int)).toNat = d := by omega

theorem right_steps_nat (d : Nat) : ((d : Int) * 2 + 1 - (d : Int)).toNat = d + 1 := by omega

theorem parent_walk_nat (X : List Nat) (e : Nat) (d : Nat) :
    parent_walk X e (d : Int) =
      if d - d / 2 ≤ X.length then (X ++ [e])[X.length - (d - d / 2)]? else none := by
  unfold parent_walk
  rw [parent_steps_nat]

/-- The walk of `parent` from the node at position `X.length + 1` ends at the
node at position `(X.length + 1) / 2`. -/
theorem parent_walk_end (X : List Nat) (e : Nat) :
    parent_walk X e ((X.length : Int) + 1) =
      if X.length = 0 then none else X[(X.length + 1) / 2 - 1]? := by
  have h : ((X.length : Int) + 1) = ((X.length + 1 : Nat) : Int) := by push_cast; rfl
  rw [h, parent_walk_nat]
  by_cases h0 : X.length = 0
  · rw [if_pos h0, if_neg (by omega)]
  · rw [if_neg h0, if_pos (by omega)]
    have h1 : X.length - (X.length + 1 - (X.length + 1) / 2) = (X.length + 1) / 2 - 1 := by omega
    rw [h1, List.getElem?_append_left (by omega)]

theorem child_walk_nil (e k : Nat) (hk : 0 < k) : child_walk [] e k = none := by
  unfold child_walk
  rw [if_neg (by simp; omega)]

theorem pq_push_back_wf {m : Mem} {q e : Nat} {L : List Nat} (p : Int)
    (h : WF m q L) (he : e ∉ q :: (L ++ [q + 1])) :
    pq_push_back m (some q) (some e) p =
      Except.ok (insert_mem m (q + 1) e (lastOr q L) p
        (if L.length = 0 then none else L[(L.length + 1) / 2 - 1]?) none none) ∧
    WF (insert_mem m (q + 1) e (lastOr q L) p
        (if L.length = 0 then none else L[(L.length + 1) / 2 - 1]?) none none) q (L ++ [e]) := by
  have hl : IsList m q (L ++ []) := by simpa using h.1
  have he2 : e ∉ q :: ((L ++ []) ++ [q + 1]) := by simpa using he
  have hid : (rd m (lastOr q L)).id = L.length := WF.lastOr_id (X := L) (Y := []) (by simpa using h)
  obtain ⟨h1, h2⟩ := pq_insert_list p hl he2
  rw [hid, parent_walk_end] at h1 h2
  have e1 : ((L.length : Int) + 1) = ((L.length + 1 : Nat) : Int) := by push_cast; rfl
  rw [e1, left_steps_nat, right_steps_nat, child_walk_nil _ _ (by omega),
    child_walk_nil _ _ (by omega)] at h1 h2
  simp only [firstOr] at h1 h2
  refine ⟨?_, h2, ?_, ?_⟩
  · simp only [pq_push_back, pq_tail, show (some q != none) = true from rfl, ASSERT_true,
      ok_bind, tail_of, Option.map_some', pure, Except.pure]
    exact h1
  · rw [rd_insert_mem_id, if_neg]
    · exact h.2.1
    · intro h3; apply he; simp [h3]
  · rw [Ids.append]
    constructor
    · apply Ids.congr_of_eq h.2.2
      intro x hx
      rw [rd_insert_mem_id, if_neg]
      intro h3; apply he; rw [← h3]; simp [hx]
    · simp [Ids, rd_insert_mem_id, hid]

/-! ## Queues filled by `pq_push_back` -/

theorem decomp_of_getElem {L : List Nat} {i e : Nat} (h : L[i]? = some e) :
    ∃ X Y, L = X ++ e :: Y ∧ X.length = i := by
  obtain ⟨hi, he⟩ := List.getElem?_eq_some.1 h
  refine ⟨L.take i, L.drop (i + 1), ?_, by simp; omega⟩
  rw [← he, ← List.drop_eq_getElem_cons hi, List.take_append_drop]

theorem fresh_of_nodup {q e : Nat} {L R : List Nat}
    (h : (q :: ((L ++ e :: R) ++ [q + 1])).Nodup) :
    e ∉ q :: (L ++ [q + 1]) ∧ e ∉ R ∧ (q :: (((L ++ [e]) ++ R) ++ [q + 1])).Nodup := by
  have h0 := h
  have hp : (q :: ((L ++ e :: R) ++ [q + 1])).Perm (e :: (q :: ((L ++ R) ++ [q + 1]))) := by
    have e1 : q :: ((L ++ e :: R) ++ [q + 1]) = (q :: L) ++ e :: (R ++ [q + 1]) := by simp
    have e2 : q :: ((L ++ R) ++ [q + 1]) = (q :: L) ++ (R ++ [q + 1]) := by simp
    rw [e1, e2]
    exact List.perm_middle
  rw [hp.nodup_iff, List.nodup_cons] at h
  have h1 := h.1
  simp only [List.mem_cons, List.mem_append, List.mem_singleton, not_or] at h1 ⊢
  refine ⟨⟨h1.1, h1.2.1.1, h1.2.2⟩, h1.2.1.2, ?_⟩
  simpa using h0

theorem push_all_spec : ∀ (ns : List (Nat × Int)) (m : Mem) (q : Nat) (L : List Nat),
    WF m q L → (q :: ((L ++ ns.map Prod.fst) ++ [q + 1])).Nodup →
    ∃ m2, push_all (some q) m ns = Except.ok m2 ∧ WF m2 q (L ++ ns.map Prod.fst) ∧
      (∀ x, x ∉ ns.map Prod.fst → (rd m2 x).priority = (rd m x).priority) ∧
      ns.map (fun a => (rd m2 a.1).priority) = ns.map Prod.snd
  | [], m, q, L, h, _ => ⟨m, rfl, by simpa using h, fun _ _ => rfl, rfl⟩
  | (e, p) :: ns, m, q, L, h, hnd => by
    obtain ⟨he, hens, hnd2⟩ := fresh_of_nodup (q := q) (e := e) (L := L) (R := ns.map Prod.fst) hnd
    obtain ⟨h1, h2⟩ := pq_push_back_wf p h he
    obtain ⟨m2, h3, h4, h5, h6⟩ := push_all_spec ns _ q (L ++ [e]) h2 hnd2
    refine ⟨m2, ?_, by simpa using h4, ?_, ?_⟩
    · simp only [push_all, h1, ok_bind, h3]
    · intro x hx
      simp only [List.map_cons, List.mem_cons, not_or] at hx
      rw [h5 x hx.2, rd_insert_mem_priority, if_neg hx.1]
    · simp only [List.map_cons, h6, List.cons.injEq, and_true]
      rw [h5 e hens, rd_insert_mem_priority, if_pos rfl]

theorem filled_wf {m0 m : Mem} {q : Nat} {ns : List (Nat × Int)}
    (hfresh : (q :: (ns.map Prod.fst ++ [q + 1])).Nodup)
    (hm : (pq_init m0 (some q) >>= fun m1 => push_all (some q) m1 ns) = Except.ok m) :
    WF m q (ns.map Prod.fst) ∧ ns.map (fun a => (rd m a.1).priority) = ns.map Prod.snd := by
  rw [pq_init_eq, ok_bind] at hm
  obtain ⟨m2, h1, h2, _, h4⟩ := push_all_spec ns (init_mem m0 q) q [] (init_mem_wf m0 q)
    (by simpa using hfresh)
  rw [h1] at hm
  cases hm
  exact ⟨by simpa using h2, h4⟩

theorem WF.split_chain {m : Mem} {q e : Nat} {X Y : List Nat} (h : WF m q (X ++ e :: Y)) :
    List.Chain' (Lnk m) (q :: (X ++ [e])) ∧ List.Chain' (Lnk m) (e :: (Y ++ [q + 1])) := by
  have hch := h.1.2.1
  have hS : q :: ((X ++ e :: Y) ++ [q + 1]) = (q :: X) ++ e :: (Y ++ [q + 1]) := by simp
  rw [hS, List.chain'_split] at hch
  exact ⟨by simpa using hch.1, hch.2⟩

theorem WF.id_mid {m : Mem} {q e : Nat} {X Y : List Nat} (h : WF m q (X ++ e :: Y)) :
    (rd m e).id = ((X.length + 1 : Nat) : Int) := by
  have := Ids.getElem h.2.2 (i := X.length) (a := e)
    (by rw [List.getElem?_append_right (le_refl _)]; simp)
  rw [this]; push_cast; ring

theorem WF.parent_call {m : Mem} {q e : Nat} {X Y : List Nat} (h : WF m q (X ++ e :: Y)) :
    parent m (some e) =
      Except.ok (if X.length = 0 then none else X[(X.length + 1) / 2 - 1]?,
        parent_slot_mem m e (if X.length = 0 then none else X[(X.length + 1) / 2 - 1]?)) := by
  apply parent_eq
  rw [h.id_mid]
  have := parent_loop_chain h.1.2.2.1
    (((X.length + 1 : Nat) : Int) - Int.tdiv ((X.length + 1 : Nat) : Int) 2).toNat e X
    h.split_chain.1
  rw [this]
  have h2 := parent_walk_end X e
  unfold parent_walk at h2
  have e1 : ((X.length : Int) + 1) = ((X.length + 1 : Nat) : Int) := by push_cast; rfl
  rw [e1] at h2
  rw [h2]

theorem WF.left_call {m : Mem} {q e : Nat} {X Y : List Nat} (h : WF m q (X ++ e :: Y)) :
    left m (some e) = Except.ok (child_walk Y e (X.length + 1)) := by
  apply left_eq
  rw [h.id_mid, left_steps_nat]
  exact child_loop_chain h.1.2.2.2 _ e Y h.split_chain.2

theorem WF.right_call {m : Mem} {q e : Nat} {X Y : List Nat} (h : WF m q (X ++ e :: Y)) :
    right m (some e) = Except.ok (child_walk Y e (X.length + 2)) := by
  apply right_eq
  rw [h.id_mid, right_steps_nat]
  exact child_loop_chain h.1.2.2.2 _ e Y h.split_chain.2

theorem child_walk_index (X Y : List Nat) (e k : Nat) (hk : 0 < k) :
    child_walk Y e k = (X ++ e :: Y)[X.length + k]? := by
  unfold child_walk
  rw [List.getElem?_append_right (by omega)]
  have : X.length + k - X.length = k := by omega
  rw [this]
  split_ifs with h1
  · rfl
  · rw [List.getElem?_eq_none]
    simp only [List.length_cons]; omega

/-- C13 (as amended): after `pq_init` the queue is empty, and on it `pq_front`
and `heap_maximum` return the tail sentinel and `pq_back` returns the head
sentinel instead of failing; the assertion of each accessor only rejects a
`NULL` queue handle. -/
theorem accessors_on_empty_queue (m0 : Mem) (q : Nat) :
    ∃ m, pq_init m0 (some q) = Except.ok m ∧
      pq_empty m (some q) = Except.ok true ∧
      pq_front m (some q) = Except.ok (some (q + 1)) ∧
      pq_back m (some q) = Except.ok (some q) ∧
      heap_maximum m (some q) = Except.ok (some (q + 1)) ∧
      pq_front m none = Except.error (Fault.assertion, m) ∧
      pq_back m none = Except.error (Fault.assertion, m) ∧
      heap_maximum m none = Except.error (Fault.assertion, m) := by
  have h := init_mem_isList m0 q
  refine ⟨init_mem m0 q, pq_init_eq m0 q, by simpa using pq_empty_eq h,
    by simpa [firstOr] using pq_front_eq h, by simpa [lastOr] using pq_back_eq h, ?_,
    rfl, rfl, rfl⟩
  simp only [heap_maximum, show (some q != none) = true from rfl, ASSERT_true, ok_bind]
  simpa [firstOr] using pq_front_eq h

/-- C13 (counterexample): on the empty queue made by `pq_init` in a zeroed
memory, `pq_front`, `pq_back` and `heap_maximum` return the sentinels 1, 0
and 1; none of them fails. -/
theorem accessors_on_empty_do_not_fail :
    (do
      let m ← pq_init (zeros 2) (some 0)
      let e ← pq_empty m (some 0)
      let f ← pq_front m (some 0)
      let b ← pq_back m (some 0)
      let x ← heap_maximum m (some 0)
      pure (e, f, b, x))
      = Except.ok (true, some 1, some 0, some 1) := by
  decide

/-- C14: after `pq_init` the queue is empty with size 0; after pushing the
nodes of `ns` (distinct, none a sentinel) with `pq_push_back`, the size is the
number of pushes, the queue is empty iff nothing was pushed, walking `next`
visits the nodes in push order, the `i`-th visited node has id `i` and its
pushed priority, and `pq_front` / `pq_back` are the first / last pushed nodes. -/
theorem init_and_append (m0 : Mem) (q : Nat) (ns : List (Nat × Int))
    (hfresh : (q :: (ns.map Prod.fst ++ [q + 1])).Nodup) :
    ∃ m1 m2, pq_init m0 (some q) = Except.ok m1 ∧
      pq_empty m1 (some q) = Except.ok true ∧
      (∀ fuel, 1 ≤ fuel → pq_size fuel m1 (some q) = Except.ok 0) ∧
      push_all (some q) m1 ns = Except.ok m2 ∧
      (∀ fuel, ns.length + 1 ≤ fuel → pq_size fuel m2 (some q) = Except.ok ns.length) ∧
      pq_empty m2 (some q) = Except.ok (decide (ns.length = 0)) ∧
      (∀ fuel, ns.length + 1 ≤ fuel →
        pq_nodes fuel m2 (some q) = Except.ok (ns.map Prod.fst)) ∧
      (∀ (i a : Nat) (p : Int), ns[i]? = some (a, p) →
        (rd m2 a).id = (i : Int) + 1 ∧ (rd m2 a).priority = p) ∧
      pq_front m2 (some q) = Except.ok (some (firstOr (q + 1) (ns.map Prod.fst))) ∧
      pq_back m2 (some q) = Except.ok (some (lastOr q (ns.map Prod.fst))) := by
  have h0 := init_mem_isList m0 q
  obtain ⟨m2, h1, h2, _, h4⟩ := push_all_spec ns (init_mem m0 q) q [] (init_mem_wf m0 q)
    (by simpa using hfresh)
  have hw : WF m2 q (ns.map Prod.fst) := by simpa using h2
  refine ⟨init_mem m0 q, m2, pq_init_eq m0 q, by simpa using pq_empty_eq h0, ?_, h1, ?_, ?_, ?_,
    ?_, pq_front_eq hw.1, pq_back_eq hw.1⟩
  · intro fuel hf
    simpa using pq_size_eq h0 (by simpa using hf)
  · intro fuel hf
    simpa using pq_size_eq hw.1 (by simpa using hf)
  · simpa using pq_empty_eq hw.1
  · intro fuel hf
    exact pq_nodes_eq hw.1 (by simpa using hf)
  · intro i a p hi
    constructor
    · have := Ids.getElem hw.2.2 (i := i) (a := a) (by simp [List.getElem?_map, hi])
      rw [this]; ring
    · have h5 := congrArg (fun l => l[i]?) h4
      simp only [List.getElem?_map, hi, Option.map_some'] at h5
      exact Option.some.inj h5

theorem init_and_append_witness :
    ∃ m2, (pq_init (zeros 2) (some 0) >>= fun m1 =>
        push_all (some 0) m1 [(2, 5), (3, 7)]) = Except.ok m2 ∧
      pq_size 3 m2 (some 0) = Except.ok 2 ∧ pq_nodes 3 m2 (some 0) = Except.ok [2, 3] := by
  obtain ⟨m1, m2, h1, _, _, h4, h5, _, h7, _⟩ :=
    init_and_append (zeros 2) 0 [(2, 5), (3, 7)] (by decide)
  exact ⟨m2, by rw [h1]; exact h4, h5 3 (by simp), h7 3 (by simp)⟩

/-- C15: on a queue filled by `pq_push_back` whose nodes are `X ++ e :: Y`,
`pq_remove(e)` returns the node that followed `e` (the tail sentinel when `e`
was last); afterwards walking `next` visits `X ++ Y`, and every node keeps its
id and its priority. -/
theorem pq_remove_unlinks (m0 m : Mem) (q : Nat) (ns : List (Nat × Int))
    (hfresh : (q :: (ns.map Prod.fst ++ [q + 1])).Nodup)
    (hm : (pq_init m0 (some q) >>= fun m1 => push_all (some q) m1 ns) = Except.ok m)
    (X Y : List Nat) (e : Nat) (hL : ns.map Prod.fst = X ++ e :: Y) :
    ∃ m2, pq_remove m (some e) = Except.ok (some (firstOr (q + 1) Y), m2) ∧
      (∀ fuel, X.length + Y.length + 1 ≤ fuel →
        pq_nodes fuel m2 (some q) = Except.ok (X ++ Y)) ∧
      (∀ x, (rd m2 x).id = (rd m x).id ∧ (rd m2 x).priority = (rd m x).priority) := by
  have hw := (filled_wf hfresh hm).1
  rw [hL] at hw
  obtain ⟨m2, h1, h2, h3, h4, _⟩ := pq_remove_list hw.1
  exact ⟨m2, h1, fun fuel hf => pq_nodes_eq h2 (by simpa using hf), fun x => ⟨h3 x, h4 x⟩⟩

theorem pq_remove_unlinks_witness :
    ∃ m2, pq_remove
        [⟨none, some 2, none, none, none, 0, 0⟩, ⟨some 3, none, none, none, none, 0, 0⟩,
          ⟨some 0, some 3, none, some 3, none, 1, 5⟩, ⟨some 2, some 1, some 2, none, none, 2, 7⟩]
        (some 2) = Except.ok (some 3, m2) ∧
      pq_nodes 2 m2 (some 0) = Except.ok [3] := by
  obtain ⟨m2, h1, h2, _⟩ := pq_remove_unlinks (zeros 2)
    [⟨none, some 2, none, none, none, 0, 0⟩, ⟨some 3, none, none, none, none, 0, 0⟩,
      ⟨some 0, some 3, none, some 3, none, 1, 5⟩, ⟨some 2, some 1, some 2, none, none, 2, 7⟩]
    0 [(2, 5), (3, 7)] (by decide) (by decide) [] [3] 2 (by decide)
  exact ⟨m2, h1, h2 2 (by simp)⟩

/-- C18: on a queue filled by `pq_push_back`, for the node `e` at list
position `i + 1` (id `i + 1`): `parent(e)` returns `NULL` when the id is 1 and
otherwise the node of id `(i + 1) / 2`, whose left slot (even id) or right slot
(odd id) it sets to `e`; `left(e)` and `right(e)` return the nodes of id
`2 (i + 1)` and `2 (i + 1) + 1` when such nodes are linked and `NULL`
otherwise. -/
theorem derive_relations (m0 m : Mem) (q : Nat) (ns : List (Nat × Int))
    (hfresh : (q :: (ns.map Prod.fst ++ [q + 1])).Nodup)
    (hm : (pq_init m0 (some q) >>= fun m1 => push_all (some q) m1 ns) = Except.ok m)
    (i e : Nat) (he : (ns.map Prod.fst)[i]? = some e) :
    (rd m e).id = (i : Int) + 1 ∧
    (∃ m2, parent m (some e) =
        Except.ok (if i = 0 then none else (ns.map Prod.fst)[(i + 1) / 2 - 1]?, m2) ∧
      ∀ w, i ≠ 0 → (ns.map Prod.fst)[(i + 1) / 2 - 1]? = some w →
        (rd m w).id = (((i + 1) / 2 : Nat) : Int) ∧
        if (i + 1) % 2 = 0 then (rd m2 w).left = some e else (rd m2 w).right = some e) ∧
    left m (some e) = Except.ok
      (if 2 * (i + 1) ≤ ns.length then (ns.map Prod.fst)[2 * (i + 1) - 1]? else none) ∧
    right m (some e) = Except.ok
      (if 2 * (i + 1) + 1 ≤ ns.length then (ns.map Prod.fst)[2 * (i + 1)]? else none) := by
  have hw := (filled_wf hfresh hm).1
  have hlen : (ns.map Prod.fst).length = ns.length := by simp
  obtain ⟨X, Y, hL, hX⟩ := decomp_of_getElem he
  rw [hL] at hw
  have hlen2 : X.length + (Y.length + 1) = ns.length := by
    rw [← hlen, hL]; simp
  have hid : (rd m e).id = (i : Int) + 1 := by rw [hw.id_mid, hX]; push_cast; rfl
  have hW : (if X.length = 0 then none else X[(X.length + 1) / 2 - 1]?) =
      (if i = 0 then none else (ns.map Prod.fst)[(i + 1) / 2 - 1]?) := by
    rw [hL, hX]
    split_ifs with h0
    · rfl
    · rw [List.getElem?_append_left (by omega)]
  have hpc := hw.parent_call
  rw [hW] at hpc
  refine ⟨hid, ⟨_, hpc, ?_⟩, ?_, ?_⟩
  · intro w h0 hw2
    have hidw : (rd m w).id = (((i + 1) / 2 : Nat) : Int) := by
      have := Ids.getElem hw.2.2 (i := (i + 1) / 2 - 1) (a := w) (by rw [← hL]; exact hw2)
      rw [this]
      have : 1 ≤ (i + 1) / 2 := by omega
      push_cast [this]; omega
    refine ⟨hidw, ?_⟩
    rw [if_neg h0, hw2]
    split_ifs with h2
    · rw [rd_parent_slot_mem_left, if_pos]
      refine ⟨rfl, ?_⟩
      rw [hid, hidw]; omega
    · rw [rd_parent_slot_mem_right, if_pos]
      refine ⟨rfl, ?_⟩
      rw [hid, hidw]; omega
  · rw [hw.left_call, child_walk_index X Y e _ (by omega), hL, hX]
    have e1 : i + (i + 1) = 2 * (i + 1) - 1 := by omega
    rw [e1]
    split_ifs with h1
    · rfl
    · rw [List.getElem?_eq_none]
      simp only [List.length_append, List.length_cons]; omega
  · rw [hw.right_call, child_walk_index X Y e _ (by omega), hL, hX]
    have e1 : i + (i + 2) = 2 * (i + 1) := by omega
    rw [e1]
    split_ifs with h1
    · rfl
    · rw [List.getElem?_eq_none]
      simp only [List.length_append, List.length_cons]; omega

theorem derive_relations_witness :
    left [⟨none, some 2, none, none, none, 0, 0⟩, ⟨some 3, none, none, none, none, 0, 0⟩,
        ⟨some 0, some 3, none, some 3, none, 1, 5⟩, ⟨some 2, some 1, some 2, none, none, 2, 7⟩]
      (some 2) = Except.ok (some 3) := by
  have h := derive_relations (zeros 2)
    [⟨none, some 2, none, none, none, 0, 0⟩, ⟨some 3, none, none, none, none, 0, 0⟩,
      ⟨some 0, some 3, none, some 3, none, 1, 5⟩, ⟨some 2, some 1, some 2, none, none, 2, 7⟩]
    0 [(2, 5), (3, 7)] (by decide) (by decide) 0 2 (by decide)
  simpa using h.2.2.1

/-! ## Fields after `pq_remove` -/

@[simp] theorem rd_remove_mem_id (m : Mem) (a c n x : Nat) :
    (rd (remove_mem m a c n) x).id = (rd m x).id := by
  simp [remove_mem]

@[simp] theorem rd_remove_mem_priority (m : Mem) (a c n x : Nat) :
    (rd (remove_mem m a c n) x).priority = (rd m x).priority := by
  simp [remove_mem]

theorem rd_remove_mem_next (m : Mem) (a c n x : Nat) :
    (rd (remove_mem m a c n) x).next = if x = c then some n else (rd m x).next := by
  simp [remove_mem]

theorem rd_remove_mem_prev (m : Mem) (a c n x : Nat) :
    (rd (remove_mem m a c n) x).prev = if x = n then some c else (rd m x).prev := by
  simp [remove_mem]

theorem rd_remove_mem_left (m : Mem) (a c n x : Nat) :
    (rd (remove_mem m a c n) x).left = (rd m x).left ∨ (rd (remove_mem m a c n) x).left = none := by
  simp only [remove_mem, rd_set_parent_opt_left]
  have := rd_clear_parent_slot_left (set_prev (set_next m c (some n)) n (some c)) a x
  simpa using this

theorem rd_remove_mem_right (m : Mem) (a c n x : Nat) :
    (rd (remove_mem m a c n) x).right = (rd m x).right ∨
      (rd (remove_mem m a c n) x).right = none := by
  simp only [remove_mem, rd_set_parent_opt_right]
  have := rd_clear_parent_slot_right (set_prev (set_next m c (some n)) n (some c)) a x
  simpa using this

theorem rd_remove_mem_clear (m : Mem) (a c n g : Nat) (hg : (rd m a).parent = some g) :
    ((rd m g).left = some a → (rd (remove_mem m a c n) g).left = none) ∧
    ((rd m g).left ≠ some a → (rd (remove_mem m a c n) g).right = none) := by
  simp only [remove_mem, rd_set_parent_opt_left, rd_set_parent_opt_right]
  have := rd_clear_parent_slot_at (set_prev (set_next m c (some n)) n (some c)) a g
    (by simpa using hg)
  simpa using this

theorem pq_remove_list_eq {m : Mem} {q a : Nat} {X Y : List Nat}
    (h : IsList m q (X ++ a :: Y)) :
    pq_remove m (some a) =
      Except.ok (some (firstOr (q + 1) Y), remove_mem m a (lastOr q X) (firstOr (q + 1) Y)) ∧
    IsList (remove_mem m a (lastOr q X) (firstOr (q + 1) Y)) q (X ++ Y) :=
  ⟨pq_remove_eq m a _ _ h.prev_eq h.next_eq,
    h.remove (rd_remove_mem_next m a _ _) (rd_remove_mem_prev m a _ _)⟩

theorem IsList.not_mem_of_mid {m : Mem} {q a : Nat} {X Y : List Nat}
    (h : IsList m q (X ++ a :: Y)) : a ∉ q :: ((X ++ Y) ++ [q + 1]) := by
  have h1 := h.1
  have hp : (q :: ((X ++ a :: Y) ++ [q + 1])).Perm (a :: (q :: ((X ++ Y) ++ [q + 1]))) := by
    have e1 : q :: ((X ++ a :: Y) ++ [q + 1]) = (q :: X) ++ a :: (Y ++ [q + 1]) := by simp
    have e2 : q :: ((X ++ Y) ++ [q + 1]) = (q :: X) ++ (Y ++ [q + 1]) := by simp
    rw [e1, e2]
    exact List.perm_middle
  rw [hp.nodup_iff, List.nodup_cons] at h1
  exact h1.1

/-! ## `exchange` on a linked queue -/

theorem pq_insert_at {m : Mem} {q e : Nat} {X Y : List Nat} (p : Int)
    (h : IsList m q (X ++ Y)) (he : e ∉ q :: ((X ++ Y) ++ [q + 1])) :
    pq_insert m (some (firstOr (q + 1) Y)) (some e) p = Except.ok (insert_at m q e X Y p) ∧
    IsList (insert_at m q e X Y p) q (X ++ e :: Y) :=
  pq_insert_list p h he

theorem pq_remove_at {m : Mem} {q a : Nat} {X Y : List Nat}
    (h : IsList m q (X ++ a :: Y)) :
    pq_remove m (some a) = Except.ok (some (firstOr (q + 1) Y), remove_at m q a X Y) ∧
    IsList (remove_at m q a X Y) q (X ++ Y) :=
  pq_remove_list_eq h

theorem exchange_far {m : Mem} {q fst snd : Nat} {X1 Y1 X2 Y2 X3 Y3 X4 Y4 : List Nat}
    (h : IsList m q (X1 ++ fst :: Y1))
    (h2 : X1 ++ Y1 = X2 ++ snd :: Y2)
    (h3 : X2 ++ Y2 = X3 ++ Y3) (h3n : (rd m snd).next = some (firstOr (q + 1) Y3))
    (h4 : X3 ++ fst :: Y3 = X4 ++ Y4) (h4n : (rd m fst).next = some (firstOr (q + 1) Y4))
    (hna : (rd m fst).next ≠ some snd) (hnb : (rd m snd).next ≠ some fst) :
    exchange m (some fst) (some snd)
      = Except.ok (far_mem m q fst snd X1 Y1 X2 Y2 X3 Y3 X4 Y4) ∧
    IsList (far_mem m q fst snd X1 Y1 X2 Y2 X3 Y3 X4 Y4) q (X4 ++ snd :: Y4) := by
  have hf1 := h.not_mem_of_mid
  obtain ⟨r1, l1⟩ := pq_remove_at h
  have l1b : IsList (remove_at m q fst X1 Y1) q (X2 ++ snd :: Y2) := by rw [← h2]; exact l1
  have hs2 := l1b.not_mem_of_mid
  obtain ⟨r2, l2⟩ := pq_remove_at l1b
  have l2b : IsList (remove_at (remove_at m q fst X1 Y1) q snd X2 Y2) q (X3 ++ Y3) := by
    rw [← h3]; exact l2
  have hf3 : fst ∉ q :: ((X3 ++ Y3) ++ [q + 1]) := by
    rw [← h3]
    intro hmem
    apply hf1
    rw [h2]
    simp only [List.mem_cons, List.mem_append, List.mem_singleton] at hmem ⊢
    tauto
  obtain ⟨r3, l3⟩ := pq_insert_at (rd (remove_at (remove_at m q fst X1 Y1) q snd X2 Y2) fst).priority
    l2b hf3
  have hne : fst ≠ snd := by
    intro hh
    apply hf1
    rw [h2, hh]
    simp
  have l3b : IsList (insert_at (remove_at (remove_at m q fst X1 Y1) q snd X2 Y2) q fst X3 Y3
      (rd (remove_at (remove_at m q fst X1 Y1) q snd X2 Y2) fst).priority) q (X4 ++ Y4) := by
    rw [← h4]; exact l3
  have hs4 : snd ∉ q :: ((X4 ++ Y4) ++ [q + 1]) := by
    rw [← h4]
    intro hmem
    apply hs2
    rw [h3]
    simp only [List.mem_cons, List.mem_append, List.mem_singleton] at hmem ⊢
    rcases hmem with h5 | (h5 | h5 | h5) | h5
    · exact Or.inl h5
    · exact Or.inr (Or.inl (Or.inl h5))
    · exact absurd h5.symm hne
    · exact Or.inr (Or.inl (Or.inr h5))
    · exact Or.inr (Or.inr h5)
  obtain ⟨r4, l4⟩ := pq_insert_at
    (rd (insert_at (remove_at (remove_at m q fst X1 Y1) q snd X2 Y2) q fst X3 Y3
      (rd (remove_at (remove_at m q fst X1 Y1) q snd X2 Y2) fst).priority) snd).priority l3b hs4
  refine ⟨?_, l4⟩
  unfold exchange
  simp only [show (some fst != none && some snd != none) = true from rfl, ASSERT_true, ok_bind,
    load_some, Option.some.injEq, if_neg hne, if_neg hna, if_neg hnb]
  rw [r1]
  simp only [ok_bind]
  rw [r2]
  simp only [ok_bind]
  rw [h3n, r3]
  simp only [ok_bind]
  rw [h4n, r4]
  simp only [far_mem]

theorem exchange_adj_fwd {m : Mem} {q u v : Nat} {X Y : List Nat}
    (h : IsList m q (X ++ u :: v :: Y)) :
    exchange m (some u) (some v) = Except.ok (adj_mem m q u v X Y) ∧
    IsList (adj_mem m q u v X Y) q (X ++ v :: u :: Y) := by
  have hu := h.not_mem_of_mid
  obtain ⟨r1, l1⟩ := pq_remove_at h
  have hne : u ≠ v := by
    intro hh; apply hu; rw [hh]; simp
  have hun : (rd m u).next = some v := by simpa [firstOr] using h.next_eq
  have hvn : (rd m v).next = some (firstOr (q + 1) Y) := by
    have h' : IsList m q ((X ++ [u]) ++ v :: Y) := by simpa using h
    exact h'.next_eq
  have hvp : (rd (remove_at m q u X (v :: Y)) v).prev = some (lastOr q X) := l1.prev_eq
  have l2 : IsList (set_id (remove_at m q u X (v :: Y)) v
      ((rd (remove_at m q u X (v :: Y)) (lastOr q X)).id + 1)) q ((X ++ [v]) ++ Y) := by
    have : IsList (remove_at m q u X (v :: Y)) q ((X ++ [v]) ++ Y) := by simpa using l1
    exact this.congr (by intro x; simp) (by intro x; simp)
  have hu3 : u ∉ q :: (((X ++ [v]) ++ Y) ++ [q + 1]) := by simpa using hu
  obtain ⟨r3, l3⟩ := pq_insert_at (rd (set_id (remove_at m q u X (v :: Y)) v
      ((rd (remove_at m q u X (v :: Y)) (lastOr q X)).id + 1)) u).priority l2 hu3
  refine ⟨?_, by rw [show X ++ v :: u :: Y = (X ++ [v]) ++ u :: Y by simp]; exact l3⟩
  unfold exchange
  simp only [show (some u != none && some v != none) = true from rfl, ASSERT_true, ok_bind,
    load_some, Option.some.injEq, if_neg hne, hun, if_true]
  rw [r1]
  simp only [ok_bind]
  rw [hvp]
  simp only [load_some, ok_bind, store_id]
  rw [hvn, r3]
  simp only [adj_mem]

theorem exchange_adj_bwd {m : Mem} {q u v : Nat} {X Y : List Nat}
    (h : IsList m q (X ++ u :: v :: Y)) :
    exchange m (some v) (some u) = Except.ok (adj_mem m q u v X Y) := by
  have hu := h.not_mem_of_mid
  obtain ⟨r1, l1⟩ := pq_remove_at h
  have hne : u ≠ v := by
    intro hh; apply hu; rw [hh]; simp
  have hun : (rd m u).next = some v := by simpa [firstOr] using h.next_eq
  have hvn : (rd m v).next = some (firstOr (q + 1) Y) := by
    have h' : IsList m q ((X ++ [u]) ++ v :: Y) := by simpa using h
    exact h'.next_eq
  have hvnu : ¬ (rd m v).next = some u := by
    rw [hvn]
    intro h5
    have h6 : firstOr (q + 1) Y ∈ Y ++ [q + 1] := firstOr_mem _ _
    apply hu
    rw [← Option.some.inj h5]
    simp only [List.mem_cons, List.mem_append, List.mem_singleton] at h6 ⊢
    tauto
  have hvp : (rd (remove_at m q u X (v :: Y)) v).prev = some (lastOr q X) := l1.prev_eq
  have l2 : IsList (set_id (remove_at m q u X (v :: Y)) v
      ((rd (remove_at m q u X (v :: Y)) (lastOr q X)).id + 1)) q ((X ++ [v]) ++ Y) := by
    have : IsList (remove_at m q u X (v :: Y)) q ((X ++ [v]) ++ Y) := by simpa using l1
    exact this.congr (by intro x; simp) (by intro x; simp)
  have hu3 : u ∉ q :: (((X ++ [v]) ++ Y) ++ [q + 1]) := by simpa using hu
  obtain ⟨r3, _⟩ := pq_insert_at (rd (set_id (remove_at m q u X (v :: Y)) v
      ((rd (remove_at m q u X (v :: Y)) (lastOr q X)).id + 1)) u).priority l2 hu3
  unfold exchange
  simp only [show (some v != none && some u != none) = true from rfl, ASSERT_true, ok_bind,
    load_some, Option.some.injEq, if_neg (Ne.symm hne), if_neg hvnu, hun, if_true]
  rw [r1]
  simp only [ok_bind]
  rw [hvp]
  simp only [load_some, ok_bind, store_id]
  rw [hvn, r3]
  simp only [adj_mem]

/-! ## Fields after `insert_at` and `remove_at` -/

theorem insert_at_eq {m : Mem} {q e : Nat} {X Y : List Nat} {p : Int} {k : Nat}
    (hk : (rd m (lastOr q X)).id = (k : Int)) :
    insert_at m q e X Y p =
      insert_mem m (firstOr (q + 1) Y) e (lastOr q X) p
        (parent_walk X e ((k + 1 : Nat) : Int)) (child_walk Y e (k + 1))
        (child_walk Y e (k + 2)) := by
  unfold insert_at
  have e1 : (rd m (lastOr q X)).id + 1 = ((k + 1 : Nat) : Int) := by rw [hk]; push_cast; rfl
  rw [e1, left_steps_nat, right_steps_nat]

theorem insert_at_id {m : Mem} {q e : Nat} {X Y : List Nat} {p : Int} {k : Nat}
    (hk : (rd m (lastOr q X)).id = (k : Int)) (x : Nat) :
    (rd (insert_at m q e X Y p) x).id = if x = e then ((k + 1 : Nat) : Int) else (rd m x).id := by
  rw [insert_at_eq hk, rd_insert_mem_id, hk]; push_cast; rfl

theorem insert_at_priority {m : Mem} {q e : Nat} {X Y : List Nat} {p : Int} (x : Nat) :
    (rd (insert_at m q e X Y p) x).priority = if x = e then p else (rd m x).priority := by
  unfold insert_at; rw [rd_insert_mem_priority]

theorem insert_at_left {m : Mem} {q e : Nat} {X Y : List Nat} {p : Int} {k : Nat}
    (hk : (rd m (lastOr q X)).id = (k : Int)) (x : Nat) :
    (rd (insert_at m q e X Y p) x).left =
      if x = e then child_walk Y e (k + 1)
      else if parent_walk X e ((k + 1 : Nat) : Int) = some x ∧
          ((k + 1 : Nat) : Int) = 2 * (rd m x).id then some e
      else (rd m x).left := by
  rw [insert_at_eq hk, rd_insert_mem_left, hk]; push_cast; rfl

theorem insert_at_right {m : Mem} {q e : Nat} {X Y : List Nat} {p : Int} {k : Nat}
    (hk : (rd m (lastOr q X)).id = (k : Int)) (x : Nat) :
    (rd (insert_at m q e X Y p) x).right =
      if x = e then child_walk Y e (k + 2)
      else if parent_walk X e ((k + 1 : Nat) : Int) = some x ∧
          ((k + 1 : Nat) : Int) ≠ 2 * (rd m x).id then some e
      else (rd m x).right := by
  rw [insert_at_eq hk, rd_insert_mem_right, hk]; push_cast; rfl

theorem insert_at_parent {m : Mem} {q e : Nat} {X Y : List Nat} {p : Int} {k : Nat}
    (hk : (rd m (lastOr q X)).id = (k : Int)) (x : Nat) :
    (rd (insert_at m q e X Y p) x).parent =
      if child_walk Y e (k + 2) = some x then some e
      else if child_walk Y e (k + 1) = some x then some e
      else if x = e then parent_walk X e ((k + 1 : Nat) : Int) else (rd m x).parent := by
  rw [insert_at_eq hk, rd_insert_mem_parent]

@[simp] theorem remove_at_id (m : Mem) (q a : Nat) (X Y : List Nat) (x : Nat) :
    (rd (remove_at m q a X Y) x).id = (rd m x).id := by
  simp [remove_at]

@[simp] theorem remove_at_priority (m : Mem) (q a : Nat) (X Y : List Nat) (x : Nat) :
    (rd (remove_at m q a X Y) x).priority = (rd m x).priority := by
  simp [remove_at]

theorem remove_at_left (m : Mem) (q a : Nat) (X Y : List Nat) (x : Nat) :
    (rd (remove_at m q a X Y) x).left = (rd m x).left ∨ (rd (remove_at m q a X Y) x).left = none :=
  rd_remove_mem_left _ _ _ _ _

theorem remove_at_right (m : Mem) (q a : Nat) (X Y : List Nat) (x : Nat) :
    (rd (remove_at m q a X Y) x).right = (rd m x).right ∨
      (rd (remove_at m q a X Y) x).right = none :=
  rd_remove_mem_right _ _ _ _ _

theorem remove_at_clear (m : Mem) (q a : Nat) (X Y : List Nat) (g : Nat)
    (hg : (rd m a).parent = some g) :
    ((rd m g).left = some a → (rd (remove_at m q a X Y) g).left = none) ∧
    ((rd m g).left ≠ some a → (rd (remove_at m q a X Y) g).right = none) :=
  rd_remove_mem_clear _ _ _ _ _ hg

/-- The walk of `parent` for the node of id `d` that follows the nodes `X`,
in index form: it takes `d - d / 2` steps back. -/
theorem parent_walk_cases (X : List Nat) (e d : Nat) :
    parent_walk X e (d : Int) =
      if d - d / 2 = 0 then some e
      else if d - d / 2 ≤ X.length then X[X.length - (d - d / 2)]? else none := by
  rw [parent_walk_nat]
  by_cases h0 : d - d / 2 = 0
  · rw [if_pos h0, h0, if_pos (Nat.zero_le _)]
    simp
  · rw [if_neg h0]
    split_ifs with h1
    · rw [List.getElem?_append_left (by omega)]
    · rfl

theorem parent_walk_mem {X : List Nat} {e d x : Nat} (hd : 0 < d)
    (h : parent_walk X e (d : Int) = some x) : x ∈ X := by
  rw [parent_walk_cases, if_neg (by omega)] at h
  split_ifs at h
  exact List.getElem?_mem h

theorem child_walk_mem {Y : List Nat} {e k x : Nat} (hk : 0 < k)
    (h : child_walk Y e k = some x) : x ∈ Y := by
  unfold child_walk at h
  split_ifs at h
  obtain ⟨k2, rfl⟩ : ∃ k2, k = k2 + 1 := ⟨k - 1, by omega⟩
  rw [List.getElem?_cons_succ] at h
  exact List.getElem?_mem h

/-! ## Fields after the non-adjacent branch of `exchange` -/

theorem far_mem_id {m : Mem} {q fst snd : Nat} {X1 Y1 X2 Y2 X3 Y3 X4 Y4 : List Nat}
    {k3 k4 : Nat} (hk3 : (rd m (lastOr q X3)).id = (k3 : Int))
    (hk4 : (if lastOr q X4 = fst then ((k3 + 1 : Nat) : Int) else (rd m (lastOr q X4)).id)
      = (k4 : Int)) (x : Nat) :
    (rd (far_mem m q fst snd X1 Y1 X2 Y2 X3 Y3 X4 Y4) x).id =
      if x = snd then ((k4 + 1 : Nat) : Int)
      else if x = fst then ((k3 + 1 : Nat) : Int) else (rd m x).id := by
  have h3 : (rd (remove_at (remove_at m q fst X1 Y1) q snd X2 Y2) (lastOr q X3)).id = (k3 : Int) := by
    simpa using hk3
  have h4 : (rd (insert_at (remove_at (remove_at m q fst X1 Y1) q snd X2 Y2) q fst X3 Y3
      (rd (remove_at (remove_at m q fst X1 Y1) q snd X2 Y2) fst).priority) (lastOr q X4)).id
      = (k4 : Int) := by
    rw [insert_at_id h3]; simpa using hk4
  simp only [far_mem]
  rw [insert_at_id h4, insert_at_id h3]
  simp

theorem far_mem_priority {m : Mem} {q fst snd : Nat} {X1 Y1 X2 Y2 X3 Y3 X4 Y4 : List Nat}
    (x : Nat) :
    (rd (far_mem m q fst snd X1 Y1 X2 Y2 X3 Y3 X4 Y4) x).priority = (rd m x).priority := by
  simp only [far_mem, insert_at_priority, remove_at_priority]
  by_cases h1 : x = snd
  · subst h1
    simp only [if_true]
    split_ifs with h2
    · rw [h2]
    · rfl
  · rw [if_neg h1]
    split_ifs with h2
    · rw [h2]
    · rfl

theorem far_mem_left {m : Mem} {q fst snd : Nat} {X1 Y1 X2 Y2 X3 Y3 X4 Y4 : List Nat}
    {k3 k4 : Nat} (hk3 : (rd m (lastOr q X3)).id = (k3 : Int))
    (hk4 : (if lastOr q X4 = fst then ((k3 + 1 : Nat) : Int) else (rd m (lastOr q X4)).id)
      = (k4 : Int)) (x : Nat) :
    (rd (far_mem m q fst snd X1 Y1 X2 Y2 X3 Y3 X4 Y4) x).left =
      if x = snd then child_walk Y4 snd (k4 + 1)
      else if parent_walk X4 snd ((k4 + 1 : Nat) : Int) = some x ∧
          ((k4 + 1 : Nat) : Int) =
            2 * (if x = fst then ((k3 + 1 : Nat) : Int) else (rd m x).id) then some snd
      else if x = fst then child_walk Y3 fst (k3 + 1)
      else if parent_walk X3 fst ((k3 + 1 : Nat) : Int) = some x ∧
          ((k3 + 1 : Nat) : Int) = 2 * (rd m x).id then some fst
      else (rd (remove_at (remove_at m q fst X1 Y1) q snd X2 Y2) x).left := by
  have h3 : (rd (remove_at (remove_at m q fst X1 Y1) q snd X2 Y2) (lastOr q X3)).id = (k3 : Int) := by
    simpa using hk3
  have h4 : (rd (insert_at (remove_at (remove_at m q fst X1 Y1) q snd X2 Y2) q fst X3 Y3
      (rd (remove_at (remove_at m q fst X1 Y1) q snd X2 Y2) fst).priority) (lastOr q X4)).id
      = (k4 : Int) := by
    rw [insert_at_id h3]; simpa using hk4
  simp only [far_mem]
  rw [insert_at_left h4, insert_at_left h3, insert_at_id h3]
  simp

theorem far_mem_right {m : Mem} {q fst snd : Nat} {X1 Y1 X2 Y2 X3 Y3 X4 Y4 : List Nat}
    {k3 k4 : Nat} (hk3 : (rd m (lastOr q X3)).id = (k3 : Int))
    (hk4 : (if lastOr q X4 = fst then ((k3 + 1 : Nat) : Int) else (rd m (lastOr q X4)).id)
      = (k4 : Int)) (x : Nat) :
    (rd (far_mem m q fst snd X1 Y1 X2 Y2 X3 Y3 X4 Y4) x).right =
      if x = snd then child_walk Y4 snd (k4 + 2)
      else if parent_walk X4 snd ((k4 + 1 : Nat) : Int) = some x ∧
          ((k4 + 1 : Nat) : Int) ≠
            2 * (if x = fst then ((k3 + 1 : Nat) : Int) else (rd m x).id) then some snd
      else if x = fst then child_walk Y3 fst (k3 + 2)
      else if parent_walk X3 fst ((k3 + 1 : Nat) : Int) = some x ∧
          ((k3 + 1 : Nat) : Int) ≠ 2 * (rd m x).id then some fst
      else (rd (remove_at (remove_at m q fst X1 Y1) q snd X2 Y2) x).right := by
  have h3 : (rd (remove_at (remove_at m q fst X1 Y1) q snd X2 Y2) (lastOr q X3)).id = (k3 : Int) := by
    simpa using hk3
  have h4 : (rd (insert_at (remove_at (remove_at m q fst X1 Y1) q snd X2 Y2) q fst X3 Y3
      (rd (remove_at (remove_at m q fst X1 Y1) q snd X2 Y2) fst).priority) (lastOr q X4)).id
      = (k4 : Int) := by
    rw [insert_at_id h3]; simpa using hk4
  simp only [far_mem]
  rw [insert_at_right h4, insert_at_right h3, insert_at_id h3]
  simp

theorem far_mem_parent {m : Mem} {q fst snd : Nat} {X1 Y1 X2 Y2 X3 Y3 X4 Y4 : List Nat}
    {k3 k4 : Nat} (hk3 : (rd m (lastOr q X3)).id = (k3 : Int))
    (hk4 : (if lastOr q X4 = fst then ((k3 + 1 : Nat) : Int) else (rd m (lastOr q X4)).id)
      = (k4 : Int)) (x : Nat) :
    (rd (far_mem m q fst snd X1 Y1 X2 Y2 X3 Y3 X4 Y4) x).parent =
      if child_walk Y4 snd (k4 + 2) = some x then some snd
      else if child_walk Y4 snd (k4 + 1) = some x then some snd
      else if x = snd then parent_walk X4 snd ((k4 + 1 : Nat) : Int)
      else if child_walk Y3 fst (k3 + 2) = some x then some fst
      else if child_walk Y3 fst (k3 + 1) = some x then some fst
      else if x = fst then parent_walk X3 fst ((k3 + 1 : Nat) : Int)
      else (rd (remove_at (remove_at m q fst X1 Y1) q snd X2 Y2) x).parent := by
  have h3 : (rd (remove_at (remove_at m q fst X1 Y1) q snd X2 Y2) (lastOr q X3)).id = (k3 : Int) := by
    simpa using hk3
  have h4 : (rd (insert_at (remove_at (remove_at m q fst X1 Y1) q snd X2 Y2) q fst X3 Y3
      (rd (remove_at (remove_at m q fst X1 Y1) q snd X2 Y2) fst).priority) (lastOr q X4)).id
      = (k4 : Int) := by
    rw [insert_at_id h3]; simpa using hk4
  simp only [far_mem]
  rw [insert_at_parent h4, insert_at_parent h3]

theorem far_mem_left_old {m : Mem} {q fst snd : Nat} {X1 Y1 X2 Y2 : List Nat} (x : Nat) :
    (rd (remove_at (remove_at m q fst X1 Y1) q snd X2 Y2) x).left = (rd m x).left ∨
    (rd (remove_at (remove_at m q fst X1 Y1) q snd X2 Y2) x).left = none := by
  rcases remove_at_left (remove_at m q fst X1 Y1) q snd X2 Y2 x with h | h
  · rcases remove_at_left m q fst X1 Y1 x with h2 | h2
    · exact Or.inl (h.trans h2)
    · exact Or.inr (h.trans h2)
  · exact Or.inr h

theorem far_mem_right_old {m : Mem} {q fst snd : Nat} {X1 Y1 X2 Y2 : List Nat} (x : Nat) :
    (rd (remove_at (remove_at m q fst X1 Y1) q snd X2 Y2) x).right = (rd m x).right ∨
    (rd (remove_at (remove_at m q fst X1 Y1) q snd X2 Y2) x).right = none := by
  rcases remove_at_right (remove_at m q fst X1 Y1) q snd X2 Y2 x with h | h
  · rcases remove_at_right m q fst X1 Y1 x with h2 | h2
    · exact Or.inl (h.trans h2)
    · exact Or.inr (h.trans h2)
  · exact Or.inr h

/-! ## Index views of a list with two marked nodes -/

theorem getElem?_swap (L1 M L3 : List Nat) (a b r : Nat) :
    (L1 ++ b :: (M ++ a :: L3))[r]? =
      if r = L1.length then some b
      else if r = L1.length + M.length + 1 then some a
      else (L1 ++ a :: (M ++ b :: L3))[r]? := by
  by_cases h1 : r < L1.length
  · rw [if_neg (by omega), if_neg (by omega), List.getElem?_append_left h1,
      List.getElem?_append_left h1]
  · rw [List.getElem?_append_right (by omega), List.getElem?_append_right (by omega)]
    by_cases h2 : r = L1.length
    · rw [if_pos h2, h2]; simp
    · rw [if_neg h2]
      obtain ⟨t, ht⟩ : ∃ t, r - L1.length = t + 1 := ⟨r - L1.length - 1, by omega⟩
      rw [ht, List.getElem?_cons_succ, List.getElem?_cons_succ]
      by_cases h3 : t < M.length
      · rw [if_neg (by omega), List.getElem?_append_left h3, List.getElem?_append_left h3]
      · rw [List.getElem?_append_right (by omega), List.getElem?_append_right (by omega)]
        by_cases h4 : t = M.length
        · rw [if_pos (by omega), h4]; simp
        · rw [if_neg (by omega)]
          obtain ⟨s, hs⟩ : ∃ s, t - M.length = s + 1 := ⟨t - M.length - 1, by omega⟩
          rw [hs, List.getElem?_cons_succ, List.getElem?_cons_succ]

theorem getElem?_skip (L1 R : List Nat) (a t : Nat) :
    (L1 ++ R)[t]? = if t < L1.length then (L1 ++ a :: R)[t]? else (L1 ++ a :: R)[t + 1]? := by
  by_cases h1 : t < L1.length
  · rw [if_pos h1, List.getElem?_append_left h1, List.getElem?_append_left h1]
  · rw [if_neg h1, List.getElem?_append_right (by omega), List.getElem?_append_right (by omega)]
    have : t + 1 - L1.length = (t - L1.length) + 1 := by omega
    rw [this, List.getElem?_cons_succ]

theorem getElem?_mid (L1 R : List Nat) (a : Nat) : (L1 ++ a :: R)[L1.length]? = some a := by
  rw [List.getElem?_append_right (le_refl _)]; simp

theorem getElem?_mid2 (L1 M L3 : List Nat) (a b : Nat) :
    (L1 ++ a :: (M ++ b :: L3))[L1.length + M.length + 1]? = some b := by
  have : L1 ++ a :: (M ++ b :: L3) = (L1 ++ a :: M) ++ b :: L3 := by simp
  rw [this]
  have h2 : L1.length + M.length + 1 = (L1 ++ a :: M).length := by simp; omega
  rw [h2]
  exact getElem?_mid _ _ _

theorem getElem?_prefix (X R : List Nat) (t : Nat) (h : t < X.length) :
    X[t]? = (X ++ R)[t]? := by
  rw [List.getElem?_append_left h]

theorem nodup_getElem?_inj {L : List Nat} (h : L.Nodup) {r s x : Nat}
    (hr : L[r]? = some x) (hs : L[s]? = some x) : r = s := by
  obtain ⟨h1, h2⟩ := List.getElem?_eq_some.1 hr
  obtain ⟨h3, h4⟩ := List.getElem?_eq_some.1 hs
  exact (List.Nodup.getElem_inj_iff h).1 (h2.trans h4.symm)

/-! ## `exchange` of two non-adjacent nodes: list, ids, priorities -/

theorem Ids.of_getElem {m : Mem} : ∀ {k : Int} {L : List Nat},
    (∀ (r x : Nat), L[r]? = some x → (rd m x).id = k + (r : Int) + 1) → Ids m k L
  | _, [], _ => trivial
  | k, a :: L, h => by
    refine ⟨by simpa using h 0 a (by simp), Ids.of_getElem ?_⟩
    intro r x hr
    have := h (r + 1) x (by simpa using hr)
    rw [this]; push_cast; ring

theorem lastOr_append_nonempty (q : Nat) (X M : List Nat) (hM : M ≠ []) (a : Nat) :
    lastOr q (X ++ M) = lastOr q (X ++ a :: M) := by
  cases M with
  | nil => exact absurd rfl hM
  | cons y M => rw [lastOr_append_cons, lastOr_append_cons]; rfl

theorem firstOr_append_nonempty (t : Nat) (M R R2 : List Nat) (hM : M ≠ []) :
    firstOr t (M ++ R) = firstOr t (M ++ R2) := by
  cases M with
  | nil => exact absurd rfl hM
  | cons y M => rfl

theorem firstOr_mem_of_ne (t : Nat) (M R : List Nat) (hM : M ≠ []) : firstOr t (M ++ R) ∈ M := by
  cases M with
  | nil => exact absurd rfl hM
  | cons y M => simp [firstOr]

/-- Facts about the two marked nodes of a well-formed queue. -/
theorem WF.marks {m : Mem} {q a b : Nat} {L1 M L3 : List Nat}
    (h : WF m q (L1 ++ a :: (M ++ b :: L3))) :
    a ≠ b ∧ a ≠ q ∧ b ≠ q ∧ a ∉ L1 ∧ b ∉ L1 ∧ a ∉ M ∧ b ∉ M ∧ a ∉ L3 ∧ b ∉ L3 ∧
    a ≠ q + 1 ∧ b ≠ q + 1 := by
  have h1 := h.1.1
  simp only [List.nodup_cons, List.nodup_append, List.mem_append, List.mem_cons, not_or,
    List.mem_singleton] at h1
  have h2 := h.1.nodup
  have h3 : (L1 ++ a :: (M ++ b :: L3)).Nodup := h2
  rw [List.nodup_append] at h3
  obtain ⟨_, h4, h5⟩ := h3
  rw [List.nodup_cons, List.nodup_append] at h4
  obtain ⟨h6, _, h7, h8⟩ := h4
  rw [List.nodup_cons] at h7
  simp only [List.mem_append, List.mem_cons, not_or] at h6
  refine ⟨h6.2.1, ?_, ?_, ?_, ?_, h6.1, ?_, h6.2.2, h7.1, ?_, ?_⟩
  · intro e; apply h.1.not_mem_head; rw [← e]; simp
  · intro e; apply h.1.not_mem_head; rw [← e]; simp
  · intro e; exact h5 e (by simp)
  · intro e; exact h5 e (by simp)
  · intro e; exact h8 e (by simp)
  · intro e; apply h.1.not_mem_tail; rw [← e]; simp
  · intro e; apply h.1.not_mem_tail; rw [← e]; simp

theorem exchange_down_list {m : Mem} {q a b : Nat} {L1 M L3 : List Nat}
    (h : WF m q (L1 ++ a :: (M ++ b :: L3))) (hM : M ≠ []) :
    exchange m (some a) (some b) = Except.ok (down_mem m q a b L1 M L3) ∧
    IsList (down_mem m q a b L1 M L3) q (L1 ++ b :: (M ++ a :: L3)) ∧
    (∀ x, (rd (down_mem m q a b L1 M L3) x).id =
      if x = b then ((L1.length + 1 : Nat) : Int)
      else if x = a then ((L1.length + M.length + 2 : Nat) : Int) else (rd m x).id) ∧
    (rd m (lastOr q (L1 ++ M))).id = ((L1.length + M.length + 1 : Nat) : Int) ∧
    (if lastOr q L1 = a then ((L1.length + M.length + 1 + 1 : Nat) : Int)
      else (rd m (lastOr q L1)).id) = ((L1.length : Nat) : Int) := by
  obtain ⟨hab, haq, hbq, haL1, hbL1, haM, hbM, haL3, hbL3, hat, hbt⟩ := h.marks
  have hk3 : (rd m (lastOr q (L1 ++ M))).id = ((L1.length + M.length + 1 : Nat) : Int) := by
    rw [lastOr_append_nonempty q L1 M hM a]
    have h' : WF m q ((L1 ++ a :: M) ++ b :: L3) := by simpa using h
    rw [WF.lastOr_id h']
    simp only [List.length_append, List.length_cons]; push_cast; ring
  have hk4 : (if lastOr q L1 = a then ((L1.length + M.length + 1 + 1 : Nat) : Int)
      else (rd m (lastOr q L1)).id) = ((L1.length : Nat) : Int) := by
    have hne : lastOr q L1 ≠ a := by
      intro e
      have := lastOr_mem q L1
      rw [e] at this
      rcases List.mem_cons.1 this with h1 | h1
      · exact haq h1
      · exact haL1 h1
    rw [if_neg hne, WF.lastOr_id h]
  have hfar := @exchange_far m q a b L1 (M ++ b :: L3) (L1 ++ M) L3 (L1 ++ M) L3 L1
    (M ++ a :: L3) h.1 (by simp) rfl
    (by
      have h' : IsList m q ((L1 ++ a :: M) ++ b :: L3) := by simpa using h.1
      exact h'.next_eq)
    (by simp)
    (by rw [h.1.next_eq, firstOr_append_nonempty (q + 1) M (b :: L3) (a :: L3) hM])
    (by
      rw [h.1.next_eq]
      intro e
      have := firstOr_mem_of_ne (q + 1) M (b :: L3) hM
      rw [Option.some.inj e] at this
      exact hbM this)
    (by
      have h' : IsList m q ((L1 ++ a :: M) ++ b :: L3) := by simpa using h.1
      rw [h'.next_eq]
      intro e
      have := firstOr_mem (q + 1) L3
      rw [Option.some.inj e] at this
      rcases List.mem_append.1 this with h1 | h1
      · exact haL3 h1
      · exact hat (by simpa using h1))
  refine ⟨hfar.1, hfar.2, ?_, hk3, hk4⟩
  intro x
  unfold down_mem
  rw [far_mem_id hk3 hk4]

/-! ## `exchange` keeps the numbering -/

theorem swap_wf {m m2 : Mem} {q a b : Nat} {L1 M L3 : List Nat}
    (h : WF m q (L1 ++ a :: (M ++ b :: L3)))
    (hl : IsList m2 q (L1 ++ b :: (M ++ a :: L3)))
    (hid : ∀ x, (rd m2 x).id =
      if x = b then ((L1.length + 1 : Nat) : Int)
      else if x = a then ((L1.length + M.length + 2 : Nat) : Int) else (rd m x).id) :
    WF m2 q (L1 ++ b :: (M ++ a :: L3)) := by
  obtain ⟨hab, haq, hbq, haL1, hbL1, haM, hbM, haL3, hbL3, hat, hbt⟩ := h.marks
  refine ⟨hl, ?_, Ids.of_getElem ?_⟩
  · rw [hid, if_neg (Ne.symm hbq), if_neg (Ne.symm haq)]; exact h.2.1
  · intro r x hr
    rw [getElem?_swap] at hr
    rw [hid]
    by_cases h1 : r = L1.length
    · rw [if_pos h1] at hr
      rw [if_pos (Option.some.inj hr).symm, h1]; push_cast; ring
    · rw [if_neg h1] at hr
      by_cases h2 : r = L1.length + M.length + 1
      · rw [if_pos h2] at hr
        have hx : x = a := (Option.some.inj hr).symm
        rw [if_neg (by rw [hx]; exact hab), if_pos hx, h2]; push_cast; ring
      · rw [if_neg h2] at hr
        have hxb : x ≠ b := by
          intro e
          rw [e] at hr
          exact h2 (nodup_getElem?_inj h.1.nodup hr (getElem?_mid2 L1 M L3 a b))
        have hxa : x ≠ a := by
          intro e
          rw [e] at hr
          exact h1 (nodup_getElem?_inj h.1.nodup hr (getElem?_mid L1 _ a))
        rw [if_neg hxb, if_neg hxa]
        exact Ids.getElem h.2.2 hr

theorem exchange_down_wf {m : Mem} {q a b : Nat} {L1 M L3 : List Nat}
    (h : WF m q (L1 ++ a :: (M ++ b :: L3))) (hM : M ≠ []) :
    exchange m (some a) (some b) = Except.ok (down_mem m q a b L1 M L3) ∧
    WF (down_mem m q a b L1 M L3) q (L1 ++ b :: (M ++ a :: L3)) ∧
    ∀ x, (rd (down_mem m q a b L1 M L3) x).priority = (rd m x).priority := by
  obtain ⟨h1, h2, h3, _, _⟩ := exchange_down_list h hM
  exact ⟨h1, swap_wf h h2 h3, fun x => far_mem_priority x⟩

/-! ## `exchange(a, b)` with `a` before `b`, not adjacent: cached relations -/

/-- Index forms of the four walks made by `exchange(a, b)` when `a` precedes
`b` and they are not adjacent. -/
theorem down_walks {a b : Nat} {L1 M L3 : List Nat} (hM : M ≠ []) :
    (∀ k, 0 < k → child_walk (M ++ a :: L3) b k
      = (L1 ++ b :: (M ++ a :: L3))[L1.length + k]?) ∧
    (∀ k, 0 < k → child_walk L3 a k
      = (L1 ++ b :: (M ++ a :: L3))[L1.length + M.length + 1 + k]?) ∧
    (parent_walk L1 b ((L1.length + 1 : Nat) : Int)
      = if L1.length = 0 then none
        else (L1 ++ a :: (M ++ b :: L3))[(L1.length + 1) / 2 - 1]?) ∧
    (parent_walk (L1 ++ M) a ((L1.length + M.length + 1 + 1 : Nat) : Int)
      = if L1.length + M.length + 1 < 3 then none
        else if (L1.length + M.length + 2) / 2 - 2 < L1.length then
          (L1 ++ a :: (M ++ b :: L3))[(L1.length + M.length + 2) / 2 - 2]?
        else (L1 ++ a :: (M ++ b :: L3))[(L1.length + M.length + 2) / 2 - 1]?) := by
  have hMl : 0 < M.length := List.length_pos.2 hM
  refine ⟨fun k hk => child_walk_index L1 _ b k hk, ?_, ?_, ?_⟩
  · intro k hk
    have e1 : L1 ++ b :: (M ++ a :: L3) = (L1 ++ b :: M) ++ a :: L3 := by simp
    have e2 : L1.length + M.length + 1 = (L1 ++ b :: M).length := by simp; omega
    rw [e1, e2]
    exact child_walk_index _ _ a k hk
  · have e1 : ((L1.length + 1 : Nat) : Int) = (L1.length : Int) + 1 := by push_cast; rfl
    rw [e1, parent_walk_end]
    split_ifs with h0
    · rfl
    · rw [List.getElem?_append_left (by omega)]
  · rw [parent_walk_cases, if_neg (by omega)]
    simp only [List.length_append]
    by_cases h3 : L1.length + M.length + 1 < 3
    · rw [if_pos h3, if_neg (by omega)]
    · rw [if_neg h3, if_pos (by omega)]
      have e3 : L1.length + M.length - (L1.length + M.length + 1 + 1
          - (L1.length + M.length + 1 + 1) / 2) = (L1.length + M.length + 2) / 2 - 2 := by omega
      rw [e3, getElem?_prefix (L1 ++ M) (b :: L3) _ (by simp; omega)]
      have e4 : (L1 ++ M) ++ b :: L3 = L1 ++ (M ++ b :: L3) := by simp
      rw [e4, getElem?_skip L1 (M ++ b :: L3) a]
      split_ifs with h5
      · rfl
      · have : (L1.length + M.length + 2) / 2 - 2 + 1 = (L1.length + M.length + 2) / 2 - 1 := by
          omega
        rw [this]

theorem swap_old {a b : Nat} {L1 M L3 : List Nat}
    (hnd : (L1 ++ b :: (M ++ a :: L3)).Nodup) {r x : Nat}
    (hr : (L1 ++ b :: (M ++ a :: L3))[r]? = some x) :
    (x = b → r = L1.length) ∧ (x = a → r = L1.length + M.length + 1) ∧
    (x ≠ a → x ≠ b → r ≠ L1.length ∧ r ≠ L1.length + M.length + 1 ∧
      (L1 ++ a :: (M ++ b :: L3))[r]? = some x) := by
  have hb : (L1 ++ b :: (M ++ a :: L3))[L1.length]? = some b := getElem?_mid _ _ _
  have ha : (L1 ++ b :: (M ++ a :: L3))[L1.length + M.length + 1]? = some a :=
    getElem?_mid2 _ _ _ _ _
  refine ⟨fun e => ?_, fun e => ?_, fun hxa hxb => ?_⟩
  · rw [e] at hr; exact nodup_getElem?_inj hnd hr hb
  · rw [e] at hr; exact nodup_getElem?_inj hnd hr ha
  · have h1 : r ≠ L1.length := by
      intro e; rw [e, hb] at hr; exact hxb (Option.some.inj hr).symm
    have h2 : r ≠ L1.length + M.length + 1 := by
      intro e; rw [e, ha] at hr; exact hxa (Option.some.inj hr).symm
    refine ⟨h1, h2, ?_⟩
    rw [getElem?_swap, if_neg h1, if_neg h2] at hr
    exact hr

theorem exchange_down_J1 {m : Mem} {q a b : Nat} {L1 M L3 : List Nat}
    (h : Inv m q (L1 ++ a :: (M ++ b :: L3))) (hM : M ≠ [])
    (hpos : 2 * (L1.length + 1) ≤ L1.length + M.length + 2) :
    J1 (down_mem m q a b L1 M L3) (L1 ++ b :: (M ++ a :: L3)) := by
  obtain ⟨hw, hJ1, hJ2⟩ := h
  obtain ⟨hab, haq, hbq, haL1, hbL1, haM, hbM, haL3, hbL3, hat, hbt⟩ := hw.marks
  obtain ⟨hex, hlist, hid, hk3, hk4⟩ := exchange_down_list hw hM
  obtain ⟨hc1, hc2, hp1, hp2⟩ := @down_walks a b L1 M L3 hM
  have hMl : 0 < M.length := List.length_pos.2 hM
  have hnd := hlist.nodup
  have hb : (L1 ++ b :: (M ++ a :: L3))[L1.length]? = some b := getElem?_mid _ _ _
  have ha : (L1 ++ b :: (M ++ a :: L3))[L1.length + M.length + 1]? = some a :=
    getElem?_mid2 _ _ _ _ _
  intro r x y hr hl
  obtain ⟨hxb_r, hxa_r, hold⟩ := swap_old hnd hr
  unfold down_mem at hl
  rw [far_mem_left hk3 hk4] at hl
  by_cases hxb : x = b
  · rw [if_pos hxb, hc1 _ (by omega)] at hl
    rw [hxb_r hxb]
    have e : 2 * L1.length + 1 = L1.length + (L1.length + 1) := by omega
    rw [e]; exact hl
  rw [if_neg hxb] at hl
  by_cases hxa : x = a
  · have hnp : ¬ (parent_walk L1 b ((L1.length + 1 : Nat) : Int) = some x ∧
        ((L1.length + 1 : Nat) : Int)
          = 2 * (if x = a then ((L1.length + M.length + 1 + 1 : Nat) : Int) else (rd m x).id)) := by
      intro hc
      have := parent_walk_mem (by omega) hc.1
      rw [hxa] at this
      exact haL1 this
    rw [if_neg hnp, if_pos hxa, hc2 _ (by omega)] at hl
    rw [hxa_r hxa]
    have e : 2 * (L1.length + M.length + 1) + 1
        = L1.length + M.length + 1 + (L1.length + M.length + 1 + 1) := by omega
    rw [e]; exact hl
  obtain ⟨hr1, hr2, hrN⟩ := hold hxa hxb
  have hidx : (rd m x).id = (r : Int) + 1 := by
    have := Ids.getElem hw.2.2 hrN
    rw [this]; ring
  simp only [if_neg hxa] at hl
  rw [hidx] at hl
  by_cases hc2' : parent_walk L1 b ((L1.length + 1 : Nat) : Int) = some x ∧
      ((L1.length + 1 : Nat) : Int) = 2 * ((r : Int) + 1)
  · rw [if_pos hc2'] at hl
    have e : 2 * r + 1 = L1.length := by omega
    rw [e, hb]; exact hl
  rw [if_neg hc2'] at hl
  by_cases hc4 : parent_walk (L1 ++ M) a ((L1.length + M.length + 1 + 1 : Nat) : Int) = some x ∧
      ((L1.length + M.length + 1 + 1 : Nat) : Int) = 2 * ((r : Int) + 1)
  · rw [if_pos hc4] at hl
    have e : 2 * r + 1 = L1.length + M.length + 1 := by omega
    rw [e, ha]; exact hl
  rw [if_neg hc4] at hl
  have hl2 : (rd m x).left = some y := by
    rcases @far_mem_left_old m q a b L1 (M ++ b :: L3) (L1 ++ M) L3 x with h5 | h5
    · rw [← h5]; exact hl
    · rw [h5] at hl; exact absurd hl (by simp)
  have hy := hJ1 r x y hrN hl2
  rw [getElem?_swap]
  by_cases e1 : 2 * r + 1 = L1.length
  · exfalso
    apply hc2'
    refine ⟨?_, by omega⟩
    rw [hp1, if_neg (by omega)]
    have : (L1.length + 1) / 2 - 1 = r := by omega
    rw [this]; exact hrN
  rw [if_neg e1]
  by_cases e2 : 2 * r + 1 = L1.length + M.length + 1
  · exfalso
    apply hc4
    refine ⟨?_, by omega⟩
    rw [hp2, if_neg (by omega), if_neg (by omega)]
    have : (L1.length + M.length + 2) / 2 - 1 = r := by omega
    rw [this]; exact hrN
  rw [if_neg e2]
  exact hy

theorem getElem?_ne_none_lt {L : List Nat} {r : Nat} (h : L[r]? ≠ none) : r < L.length := by
  by_contra hc
  exact h (List.getElem?_eq_none (by omega))

theorem exchange_down_J2 {m : Mem} {q a b : Nat} {L1 M L3 : List Nat}
    (h : Inv m q (L1 ++ a :: (M ++ b :: L3))) (hM : M ≠ []) :
    J2 (down_mem m q a b L1 M L3) (L1 ++ b :: (M ++ a :: L3)) := by
  obtain ⟨hw, hJ1, hJ2⟩ := h
  obtain ⟨hab, haq, hbq, haL1, hbL1, haM, hbM, haL3, hbL3, hat, hbt⟩ := hw.marks
  obtain ⟨hex, hlist, hid, hk3, hk4⟩ := exchange_down_list hw hM
  obtain ⟨hc1, hc2, hp1, hp2⟩ := @down_walks a b L1 M L3 hM
  have hMl : 0 < M.length := List.length_pos.2 hM
  have hnd := hlist.nodup
  have hlen : (L1 ++ b :: (M ++ a :: L3)).length = L1.length + M.length + L3.length + 2 := by
    simp only [List.length_append, List.length_cons]; omega
  have hlenN : (L1 ++ a :: (M ++ b :: L3)).length = L1.length + M.length + L3.length + 2 := by
    simp only [List.length_append, List.length_cons]; omega
  intro r x hr hrt
  obtain ⟨hxb_r, hxa_r, hold⟩ := swap_old hnd hr
  unfold down_mem at hrt
  rw [far_mem_right hk3 hk4] at hrt
  by_cases hxb : x = b
  · rw [if_pos hxb, hc1 _ (by omega)] at hrt
    have := getElem?_ne_none_lt hrt
    rw [hxb_r hxb]; omega
  rw [if_neg hxb] at hrt
  by_cases hxa : x = a
  · have hnp : ¬ (parent_walk L1 b ((L1.length + 1 : Nat) : Int) = some x ∧
        ((L1.length + 1 : Nat) : Int)
          ≠ 2 * (if x = a then ((L1.length + M.length + 1 + 1 : Nat) : Int) else (rd m x).id)) := by
      intro hc
      have := parent_walk_mem (by omega) hc.1
      rw [hxa] at this
      exact haL1 this
    rw [if_neg hnp, if_pos hxa, hc2 _ (by omega)] at hrt
    have := getElem?_ne_none_lt hrt
    rw [hxa_r hxa]; omega
  obtain ⟨hr1, hr2, hrN⟩ := hold hxa hxb
  have hidx : (rd m x).id = (r : Int) + 1 := by
    have := Ids.getElem hw.2.2 hrN
    rw [this]; ring
  have hrlt : r < L1.length + M.length + L3.length + 2 := by
    have := (List.getElem?_eq_some.1 hrN).1
    omega
  simp only [if_neg hxa] at hrt
  rw [hidx] at hrt
  by_cases hc2' : parent_walk L1 b ((L1.length + 1 : Nat) : Int) = some x ∧
      ((L1.length + 1 : Nat) : Int) ≠ 2 * ((r : Int) + 1)
  · -- the walk of `b` ended at `x`
    rw [hp1] at hc2'
    by_cases h0 : L1.length = 0
    · rw [if_pos h0] at hc2'; exact absurd hc2'.1 (by simp)
    · rw [if_neg h0] at hc2'
      have := nodup_getElem?_inj hw.1.nodup hrN hc2'.1
      rw [hlen]; omega
  rw [if_neg hc2'] at hrt
  by_cases hc4 : parent_walk (L1 ++ M) a ((L1.length + M.length + 1 + 1 : Nat) : Int) = some x ∧
      ((L1.length + M.length + 1 + 1 : Nat) : Int) ≠ 2 * ((r : Int) + 1)
  · rw [hp2] at hc4
    by_cases h3 : L1.length + M.length + 1 < 3
    · rw [if_pos h3] at hc4; exact absurd hc4.1 (by simp)
    · rw [if_neg h3] at hc4
      rw [hlen]
      split_ifs at hc4 with h5
      · have := nodup_getElem?_inj hw.1.nodup hrN hc4.1
        omega
      · have := nodup_getElem?_inj hw.1.nodup hrN hc4.1
        omega
  rw [if_neg hc4] at hrt
  have hr2' : (rd m x).right ≠ none := by
    rcases @far_mem_right_old m q a b L1 (M ++ b :: L3) (L1 ++ M) L3 x with h5 | h5
    · rw [← h5]; exact hrt
    · exact absurd h5 hrt
  have := hJ2 r x hrN hr2'
  rw [hlen]; rw [hlenN] at this; exact this

/-- After `exchange(a, b)` with `a` before `b` and not adjacent, both nodes
carry freshly derived child slots, and `a` a freshly derived parent. -/
theorem exchange_down_fresh {m : Mem} {q a b : Nat} {L1 M L3 : List Nat}
    (h : WF m q (L1 ++ a :: (M ++ b :: L3))) (hM : M ≠ [])
    (hpos : 2 * (L1.length + 1) ≤ L1.length + M.length + 2) :
    (rd (down_mem m q a b L1 M L3) a).left
      = (L1 ++ b :: (M ++ a :: L3))[2 * (L1.length + M.length + 1) + 1]? ∧
    (rd (down_mem m q a b L1 M L3) a).right
      = (L1 ++ b :: (M ++ a :: L3))[2 * (L1.length + M.length + 1) + 2]? ∧
    (rd (down_mem m q a b L1 M L3) b).left
      = (L1 ++ b :: (M ++ a :: L3))[2 * L1.length + 1]? ∧
    (rd (down_mem m q a b L1 M L3) b).right
      = (L1 ++ b :: (M ++ a :: L3))[2 * L1.length + 2]? ∧
    (rd (down_mem m q a b L1 M L3) a).parent
      = (L1 ++ b :: (M ++ a :: L3))[(L1.length + M.length + 2) / 2 - 1]? := by
  have hw := h
  obtain ⟨hab, haq, hbq, haL1, hbL1, haM, hbM, haL3, hbL3, hat, hbt⟩ := hw.marks
  obtain ⟨hex, hlist, hid, hk3, hk4⟩ := exchange_down_list hw hM
  obtain ⟨hc1, hc2, hp1, hp2⟩ := @down_walks a b L1 M L3 hM
  have hMl : 0 < M.length := List.length_pos.2 hM
  have hnd := hlist.nodup
  have hb : (L1 ++ b :: (M ++ a :: L3))[L1.length]? = some b := getElem?_mid _ _ _
  have ha : (L1 ++ b :: (M ++ a :: L3))[L1.length + M.length + 1]? = some a :=
    getElem?_mid2 _ _ _ _ _
  have hnpl : ∀ (P : Prop), ¬ (parent_walk L1 b ((L1.length + 1 : Nat) : Int) = some a ∧ P) := by
    intro P hc
    exact haL1 (parent_walk_mem (by omega) hc.1)
  unfold down_mem
  refine ⟨?_, ?_, ?_, ?_, ?_⟩
  · rw [far_mem_left hk3 hk4, if_neg hab, if_neg (hnpl _), if_pos rfl, hc2 _ (by omega)]
    congr 1; omega
  · rw [far_mem_right hk3 hk4, if_neg hab, if_neg (hnpl _), if_pos rfl, hc2 _ (by omega)]
    congr 1; omega
  · rw [far_mem_left hk3 hk4, if_pos rfl, hc1 _ (by omega)]
    congr 1; omega
  · rw [far_mem_right hk3 hk4, if_pos rfl, hc1 _ (by omega)]
    congr 1; omega
  · rw [far_mem_parent hk3 hk4, hc1 _ (by omega), hc1 _ (by omega)]
    by_cases e1 : (L1 ++ b :: (M ++ a :: L3))[L1.length + (L1.length + 2)]? = some a
    · rw [if_pos e1]
      have := nodup_getElem?_inj hnd e1 ha
      have e2 : (L1.length + M.length + 2) / 2 - 1 = L1.length := by omega
      rw [e2, hb]
    rw [if_neg e1]
    by_cases e3 : (L1 ++ b :: (M ++ a :: L3))[L1.length + (L1.length + 1)]? = some a
    · rw [if_pos e3]
      have := nodup_getElem?_inj hnd e3 ha
      have e2 : (L1.length + M.length + 2) / 2 - 1 = L1.length := by omega
      rw [e2, hb]
    rw [if_neg e3, if_neg hab]
    have e4 : ¬ child_walk L3 a (L1.length + M.length + 1 + 2) = some a :=
      fun hc => haL3 (child_walk_mem (by omega) hc)
    have e5 : ¬ child_walk L3 a (L1.length + M.length + 1 + 1) = some a :=
      fun hc => haL3 (child_walk_mem (by omega) hc)
    rw [if_neg e4, if_neg e5, if_pos rfl, hp2]
    have n1 : L1.length + (L1.length + 2) ≠ L1.length + M.length + 1 := by
      intro e; rw [e] at e1; exact e1 ha
    have n2 : L1.length + (L1.length + 1) ≠ L1.length + M.length + 1 := by
      intro e; rw [e] at e3; exact e3 ha
    rw [if_neg (by omega), if_neg (by omega), getElem?_swap, if_neg (by omega), if_neg (by omega)]

/-! ## `exchange(b, a)` with `a` before `b`, not adjacent -/

theorem exchange_up_list {m : Mem} {q a b : Nat} {L1 M L3 : List Nat}
    (h : WF m q (L1 ++ a :: (M ++ b :: L3))) (hM : M ≠ []) :
    exchange m (some b) (some a) = Except.ok (up_mem m q a b L1 M L3) ∧
    IsList (up_mem m q a b L1 M L3) q (L1 ++ b :: (M ++ a :: L3)) ∧
    (∀ x, (rd (up_mem m q a b L1 M L3) x).id =
      if x = b then ((L1.length + 1 : Nat) : Int)
      else if x = a then ((L1.length + M.length + 2 : Nat) : Int) else (rd m x).id) ∧
    (rd m (lastOr q L1)).id = ((L1.length : Nat) : Int) ∧
    (if lastOr q (L1 ++ b :: M) = b then ((L1.length + 1 : Nat) : Int)
      else (rd m (lastOr q (L1 ++ b :: M))).id) = ((L1.length + M.length + 1 : Nat) : Int) := by
  obtain ⟨hab, haq, hbq, haL1, hbL1, haM, hbM, haL3, hbL3, hat, hbt⟩ := h.marks
  have hk3 : (rd m (lastOr q L1)).id = ((L1.length : Nat) : Int) := WF.lastOr_id h
  have hlast : lastOr q (L1 ++ b :: M) = lastOr q (L1 ++ a :: M) := by
    rw [lastOr_append_cons, lastOr_append_cons]
    cases M with
    | nil => exact absurd rfl hM
    | cons y M => rfl
  have hk4 : (if lastOr q (L1 ++ b :: M) = b then ((L1.length + 1 : Nat) : Int)
      else (rd m (lastOr q (L1 ++ b :: M))).id) = ((L1.length + M.length + 1 : Nat) : Int) := by
    have hne : lastOr q (L1 ++ b :: M) ≠ b := by
      rw [lastOr_append_cons]
      cases M with
      | nil => exact absurd rfl hM
      | cons y M =>
        intro e
        have := lastOr_mem y M
        rw [show lastOr b (y :: M) = lastOr y M from rfl] at e
        rw [e] at this
        exact hbM this
    rw [if_neg hne, hlast]
    have h' : WF m q ((L1 ++ a :: M) ++ b :: L3) := by simpa using h
    rw [WF.lastOr_id h']
    simp only [List.length_append, List.length_cons]; push_cast; ring
  have hl' : IsList m q ((L1 ++ a :: M) ++ b :: L3) := by simpa using h.1
  have hfar := @exchange_far m q b a (L1 ++ a :: M) L3 L1 (M ++ L3) L1 (M ++ L3)
    (L1 ++ b :: M) L3 hl' (by simp) rfl
    (by rw [h.1.next_eq, firstOr_append_nonempty (q + 1) M (b :: L3) L3 hM])
    (by simp)
    hl'.next_eq
    (by
      rw [hl'.next_eq]
      intro e
      have := firstOr_mem (q + 1) L3
      rw [Option.some.inj e] at this
      rcases List.mem_append.1 this with h1 | h1
      · exact haL3 h1
      · exact hat (by simpa using h1))
    (by
      rw [h.1.next_eq]
      intro e
      have := firstOr_mem_of_ne (q + 1) M (b :: L3) hM
      rw [Option.some.inj e] at this
      exact hbM this)
  refine ⟨hfar.1, by simpa using hfar.2, ?_, hk3, hk4⟩
  intro x
  unfold up_mem
  rw [far_mem_id hk3 hk4]
  by_cases hxa : x = a
  · rw [if_pos hxa, if_neg (by rw [hxa]; exact hab), if_pos hxa]
  · rw [if_neg hxa, if_neg hxa]

theorem exchange_up_wf {m : Mem} {q a b : Nat} {L1 M L3 : List Nat}
    (h : WF m q (L1 ++ a :: (M ++ b :: L3))) (hM : M ≠ []) :
    exchange m (some b) (some a) = Except.ok (up_mem m q a b L1 M L3) ∧
    WF (up_mem m q a b L1 M L3) q (L1 ++ b :: (M ++ a :: L3)) ∧
    ∀ x, (rd (up_mem m q a b L1 M L3) x).priority = (rd m x).priority := by
  obtain ⟨h1, h2, h3, _, _⟩ := exchange_up_list h hM
  exact ⟨h1, swap_wf h h2 h3, fun x => far_mem_priority x⟩

/-- Index forms of the four walks made by `exchange(b, a)` when `a` precedes
`b` and they are not adjacent. -/
theorem up_walks {a b : Nat} {L1 M L3 : List Nat} (hM : M ≠ []) :
    (∀ k, 0 < k → child_walk L3 a k
      = (L1 ++ b :: (M ++ a :: L3))[L1.length + M.length + 1 + k]?) ∧
    (parent_walk (L1 ++ b :: M) a ((L1.length + M.length + 1 + 1 : Nat) : Int)
      = (L1 ++ b :: (M ++ a :: L3))[(L1.length + M.length + 2) / 2 - 1]?) ∧
    (∀ k, 0 < k → child_walk (M ++ L3) b k
      = if k - 1 < M.length then (L1 ++ b :: (M ++ a :: L3))[L1.length + k]?
        else (L1 ++ b :: (M ++ a :: L3))[L1.length + k + 1]?) ∧
    (parent_walk L1 b ((L1.length + 1 : Nat) : Int)
      = if L1.length = 0 then none
        else (L1 ++ a :: (M ++ b :: L3))[(L1.length + 1) / 2 - 1]?) := by
  have hMl : 0 < M.length := List.length_pos.2 hM
  obtain ⟨_, hc2, hp1, _⟩ := @down_walks a b L1 M L3 hM
  refine ⟨hc2, ?_, ?_, hp1⟩
  · have e1 : ((L1.length + M.length + 1 + 1 : Nat) : Int)
        = (((L1 ++ b :: M).length : Nat) : Int) + 1 := by
      simp only [List.length_append, List.length_cons]; push_cast; ring
    rw [e1, parent_walk_end, if_neg (by simp)]
    have e2 : (L1 ++ b :: M).length = L1.length + M.length + 1 := by
      simp only [List.length_append, List.length_cons]; omega
    rw [e2]
    have e3 : L1 ++ b :: (M ++ a :: L3) = (L1 ++ b :: M) ++ a :: L3 := by simp
    rw [e3, show (L1.length + M.length + 1 + 1) / 2 - 1 = (L1.length + M.length + 2) / 2 - 1 from rfl]
    exact getElem?_prefix _ _ _ (by rw [e2]; omega)
  · intro k hk
    obtain ⟨t, rfl⟩ : ∃ t, k = t + 1 := ⟨k - 1, by omega⟩
    unfold child_walk
    simp only [List.getElem?_cons_succ, add_tsub_cancel_right]
    have e4 : ∀ s, (L1 ++ b :: (M ++ a :: L3))[L1.length + (s + 1)]? = (M ++ a :: L3)[s]? := by
      intro s
      rw [List.getElem?_append_right (by omega)]
      have : L1.length + (s + 1) - L1.length = s + 1 := by omega
      rw [this, List.getElem?_cons_succ]
    by_cases h1 : t + 1 ≤ (M ++ L3).length
    · rw [if_pos h1, getElem?_skip M L3 a]
      split_ifs with h2
      · rw [e4]
      · rw [show L1.length + (t + 1) + 1 = L1.length + ((t + 1) + 1) by omega, e4]
    · rw [if_neg h1, if_neg (by simp at h1; omega)]
      rw [List.getElem?_eq_none]
      simp only [List.length_append, List.length_cons] at h1 ⊢
      omega

theorem exchange_up_J1 {m : Mem} {q a b : Nat} {L1 M L3 : List Nat}
    (h : Inv m q (L1 ++ a :: (M ++ b :: L3))) (hM : M ≠ [])
    (hpos : 2 * (L1.length + 1) ≤ L1.length + M.length + 2) :
    J1 (up_mem m q a b L1 M L3) (L1 ++ b :: (M ++ a :: L3)) := by
  obtain ⟨hw, hJ1, hJ2⟩ := h
  obtain ⟨hab, haq, hbq, haL1, hbL1, haM, hbM, haL3, hbL3, hat, hbt⟩ := hw.marks
  obtain ⟨hex, hlist, hid, hk3, hk4⟩ := exchange_up_list hw hM
  obtain ⟨hca, hpa, hcb, hpb⟩ := @up_walks a b L1 M L3 hM
  have hMl : 0 < M.length := List.length_pos.2 hM
  have hnd := hlist.nodup
  have hb : (L1 ++ b :: (M ++ a :: L3))[L1.length]? = some b := getElem?_mid _ _ _
  have ha : (L1 ++ b :: (M ++ a :: L3))[L1.length + M.length + 1]? = some a :=
    getElem?_mid2 _ _ _ _ _
  intro r x y hr hl
  obtain ⟨hxb_r, hxa_r, hold⟩ := swap_old hnd hr
  unfold up_mem at hl
  rw [far_mem_left hk3 hk4] at hl
  by_cases hxa : x = a
  · rw [if_pos hxa, hca _ (by omega)] at hl
    rw [hxa_r hxa]
    have e : 2 * (L1.length + M.length + 1) + 1
        = L1.length + M.length + 1 + (L1.length + M.length + 1 + 1) := by omega
    rw [e]; exact hl
  rw [if_neg hxa, hpa] at hl
  by_cases hxb : x = b
  · have hrb := hxb_r hxb
    simp only [if_pos hxb] at hl
    by_cases hc : (L1 ++ b :: (M ++ a :: L3))[(L1.length + M.length + 2) / 2 - 1]? = some x ∧
        ((L1.length + M.length + 1 + 1 : Nat) : Int) = 2 * ((L1.length + 1 : Nat) : Int)
    · rw [if_pos hc] at hl
      have e : 2 * r + 1 = L1.length + M.length + 1 := by
        have := hc.2
        push_cast at this
        omega
      rw [e, ha]; exact hl
    rw [if_neg hc, hcb _ (by omega)] at hl
    by_cases h1 : L1.length + 1 - 1 < M.length
    · rw [if_pos h1] at hl
      rw [hrb]
      have e : 2 * L1.length + 1 = L1.length + (L1.length + 1) := by omega
      rw [e]; exact hl
    · exfalso
      apply hc
      have e : (L1.length + M.length + 2) / 2 - 1 = L1.length := by omega
      refine ⟨by rw [e, hb, hxb], ?_⟩
      push_cast
      omega
  obtain ⟨hr1, hr2, hrN⟩ := hold hxa hxb
  have hidx : (rd m x).id = (r : Int) + 1 := by
    have := Ids.getElem hw.2.2 hrN
    rw [this]; ring
  simp only [if_neg hxb] at hl
  rw [hidx] at hl
  by_cases hc4 : (L1 ++ b :: (M ++ a :: L3))[(L1.length + M.length + 2) / 2 - 1]? = some x ∧
      ((L1.length + M.length + 1 + 1 : Nat) : Int) = 2 * ((r : Int) + 1)
  · rw [if_pos hc4] at hl
    have e : 2 * r + 1 = L1.length + M.length + 1 := by omega
    rw [e, ha]; exact hl
  rw [if_neg hc4] at hl
  by_cases hc2' : parent_walk L1 b ((L1.length + 1 : Nat) : Int) = some x ∧
      ((L1.length + 1 : Nat) : Int) = 2 * ((r : Int) + 1)
  · rw [if_pos hc2'] at hl
    have e : 2 * r + 1 = L1.length := by omega
    rw [e, hb]; exact hl
  rw [if_neg hc2'] at hl
  have hl2 : (rd m x).left = some y := by
    rcases @far_mem_left_old m q b a (L1 ++ a :: M) L3 L1 (M ++ L3) x with h5 | h5
    · rw [← h5]; exact hl
    · rw [h5] at hl; exact absurd hl (by simp)
  have hy := hJ1 r x y hrN hl2
  rw [getElem?_swap]
  by_cases e1 : 2 * r + 1 = L1.length
  · exfalso
    apply hc2'
    refine ⟨?_, by omega⟩
    rw [hpb, if_neg (by omega)]
    have : (L1.length + 1) / 2 - 1 = r := by omega
    rw [this]; exact hrN
  rw [if_neg e1]
  by_cases e2 : 2 * r + 1 = L1.length + M.length + 1
  · exfalso
    apply hc4
    refine ⟨?_, by omega⟩
    have : (L1.length + M.length + 2) / 2 - 1 = r := by omega
    rw [this]; exact hr
  rw [if_neg e2]
  exact hy

theorem exchange_up_J2 {m : Mem} {q a b : Nat} {L1 M L3 : List Nat}
    (h : Inv m q (L1 ++ a :: (M ++ b :: L3))) (hM : M ≠ []) :
    J2 (up_mem m q a b L1 M L3) (L1 ++ b :: (M ++ a :: L3)) := by
  obtain ⟨hw, hJ1, hJ2⟩ := h
  obtain ⟨hab, haq, hbq, haL1, hbL1, haM, hbM, haL3, hbL3, hat, hbt⟩ := hw.marks
  obtain ⟨hex, hlist, hid, hk3, hk4⟩ := exchange_up_list hw hM
  obtain ⟨hca, hpa, hcb, hpb⟩ := @up_walks a b L1 M L3 hM
  have hMl : 0 < M.length := List.length_pos.2 hM
  have hnd := hlist.nodup
  have hlen : (L1 ++ b :: (M ++ a :: L3)).length = L1.length + M.length + L3.length + 2 := by
    simp only [List.length_append, List.length_cons]; omega
  have hlenN : (L1 ++ a :: (M ++ b :: L3)).length = L1.length + M.length + L3.length + 2 := by
    simp only [List.length_append, List.length_cons]; omega
  intro r x hr hrt
  obtain ⟨hxb_r, hxa_r, hold⟩ := swap_old hnd hr
  have hrlt : r < L1.length + M.length + L3.length + 2 := by
    have := (List.getElem?_eq_some.1 hr).1
    omega
  unfold up_mem at hrt
  rw [far_mem_right hk3 hk4] at hrt
  by_cases hxa : x = a
  · rw [if_pos hxa, hca _ (by omega)] at hrt
    have := getElem?_ne_none_lt hrt
    rw [hxa_r hxa]; omega
  rw [if_neg hxa, hpa] at hrt
  by_cases hxb : x = b
  · have hrb := hxb_r hxb
    simp only [if_pos hxb] at hrt
    by_cases hc : (L1 ++ b :: (M ++ a :: L3))[(L1.length + M.length + 2) / 2 - 1]? = some x ∧
        ((L1.length + M.length + 1 + 1 : Nat) : Int) ≠ 2 * ((L1.length + 1 : Nat) : Int)
    · have := nodup_getElem?_inj hnd hr hc.1
      have h2 := hc.2
      push_cast at h2
      rw [hlen]; omega
    rw [if_neg hc, hcb _ (by omega)] at hrt
    split_ifs at hrt with h1
    · have := getElem?_ne_none_lt hrt
      omega
    · have := getElem?_ne_none_lt hrt
      omega
  obtain ⟨hr1, hr2, hrN⟩ := hold hxa hxb
  have hidx : (rd m x).id = (r : Int) + 1 := by
    have := Ids.getElem hw.2.2 hrN
    rw [this]; ring
  simp only [if_neg hxb] at hrt
  rw [hidx] at hrt
  by_cases hc4 : (L1 ++ b :: (M ++ a :: L3))[(L1.length + M.length + 2) / 2 - 1]? = some x ∧
      ((L1.length + M.length + 1 + 1 : Nat) : Int) ≠ 2 * ((r : Int) + 1)
  · have := nodup_getElem?_inj hnd hr hc4.1
    rw [hlen]; omega
  rw [if_neg hc4] at hrt
  by_cases hc2' : parent_walk L1 b ((L1.length + 1 : Nat) : Int) = some x ∧
      ((L1.length + 1 : Nat) : Int) ≠ 2 * ((r : Int) + 1)
  · rw [hpb] at hc2'
    by_cases h0 : L1.length = 0
    · rw [if_pos h0] at hc2'; exact absurd hc2'.1 (by simp)
    · rw [if_neg h0] at hc2'
      have := nodup_getElem?_inj hw.1.nodup hrN hc2'.1
      rw [hlen]; omega
  rw [if_neg hc2'] at hrt
  have hr2' : (rd m x).right ≠ none := by
    rcases @far_mem_right_old m q b a (L1 ++ a :: M) L3 L1 (M ++ L3) x with h5 | h5
    · rw [← h5]; exact hrt
    · exact absurd h5 hrt
  have := hJ2 r x hrN hr2'
  rw [hlen]; rw [hlenN] at this; exact this

/-- After `exchange(b, a)` with `a` before `b` and not adjacent, the node `b`
that moved towards the front carries a freshly derived parent. -/
theorem exchange_up_fresh {m : Mem} {q a b : Nat} {L1 M L3 : List Nat}
    (h : WF m q (L1 ++ a :: (M ++ b :: L3))) (hM : M ≠ []) :
    (rd (up_mem m q a b L1 M L3) b).parent
      = if L1.length = 0 then none
        else (L1 ++ b :: (M ++ a :: L3))[(L1.length + 1) / 2 - 1]? := by
  have hw := h
  obtain ⟨hab, haq, hbq, haL1, hbL1, haM, hbM, haL3, hbL3, hat, hbt⟩ := hw.marks
  obtain ⟨hex, hlist, hid, hk3, hk4⟩ := exchange_up_list hw hM
  obtain ⟨hca, hpa, hcb, hpb⟩ := @up_walks a b L1 M L3 hM
  have hMl : 0 < M.length := List.length_pos.2 hM
  have hnd := hlist.nodup
  have hnc : ∀ (Y : List Nat) (e k : Nat), b ∉ Y → 0 < k → child_walk Y e k ≠ some b := by
    intro Y e k hY hk hc
    exact hY (child_walk_mem hk hc)
  have hbML3 : b ∉ M ++ L3 := by
    intro h1
    rcases List.mem_append.1 h1 with h1 | h1
    · exact hbM h1
    · exact hbL3 h1
  unfold up_mem
  rw [far_mem_parent hk3 hk4, if_neg (hnc _ _ _ hbL3 (by omega)),
    if_neg (hnc _ _ _ hbL3 (by omega)), if_neg (Ne.symm hab),
    if_neg (hnc _ _ _ hbML3 (by omega)), if_neg (hnc _ _ _ hbML3 (by omega)), if_pos rfl, hpb]
  by_cases h0 : L1.length = 0
  · rw [if_pos h0, if_pos h0]
  · rw [if_neg h0, if_neg h0, List.getElem?_append_left (by omega),
      List.getElem?_append_left (by omega)]

/-! ## `exchange` of two adjacent nodes -/

theorem adj_mem_keys {m : Mem} {q u v : Nat} {X Y : List Nat}
    (h : WF m q (X ++ u :: v :: Y)) :
    (rd (remove_at m q u X (v :: Y)) (lastOr q X)).id = ((X.length : Nat) : Int) ∧
    (rd (set_id (remove_at m q u X (v :: Y)) v
      ((rd (remove_at m q u X (v :: Y)) (lastOr q X)).id + 1)) (lastOr q (X ++ [v]))).id
      = ((X.length + 1 : Nat) : Int) := by
  have hk : (rd m (lastOr q X)).id = ((X.length : Nat) : Int) := WF.lastOr_id h
  refine ⟨by simpa using hk, ?_⟩
  rw [lastOr_append_singleton]
  simp [hk]

theorem adj_mem_id {m : Mem} {q u v : Nat} {X Y : List Nat}
    (h : WF m q (X ++ u :: v :: Y)) (x : Nat) :
    (rd (adj_mem m q u v X Y) x).id =
      if x = v then ((X.length + 1 : Nat) : Int)
      else if x = u then ((X.length + 2 : Nat) : Int) else (rd m x).id := by
  obtain ⟨h1, h2⟩ := adj_mem_keys h
  have hne : u ≠ v := by
    have := h.1.not_mem_of_mid
    intro e; apply this; rw [e]; simp
  simp only [adj_mem]
  rw [insert_at_id h2]
  by_cases hxu : x = u
  · rw [if_pos hxu, if_neg (by rw [hxu]; exact hne), if_pos hxu]
  · rw [if_neg hxu, if_neg hxu]
    simp only [rd_set_id_id, remove_at_id]
    by_cases hxv : x = v
    · rw [if_pos hxv, if_pos hxv]
      have hk : (rd m (lastOr q X)).id = ((X.length : Nat) : Int) := WF.lastOr_id h
      rw [hk]; push_cast; rfl
    · rw [if_neg hxv, if_neg hxv]

theorem adj_mem_priority {m : Mem} {q u v : Nat} {X Y : List Nat} (x : Nat) :
    (rd (adj_mem m q u v X Y) x).priority = (rd m x).priority := by
  simp only [adj_mem]
  rw [insert_at_priority]
  by_cases hxu : x = u
  · rw [if_pos hxu, hxu]; simp
  · rw [if_neg hxu]; simp

theorem adj_mem_left {m : Mem} {q u v : Nat} {X Y : List Nat}
    (h : WF m q (X ++ u :: v :: Y)) (x : Nat) :
    (rd (adj_mem m q u v X Y) x).left =
      if x = u then child_walk Y u (X.length + 1 + 1)
      else if parent_walk (X ++ [v]) u ((X.length + 1 + 1 : Nat) : Int) = some x ∧
          ((X.length + 1 + 1 : Nat) : Int) =
            2 * (if x = v then ((X.length + 1 : Nat) : Int) else (rd m x).id) then some u
      else (rd (remove_at m q u X (v :: Y)) x).left := by
  obtain ⟨h1, h2⟩ := adj_mem_keys h
  have hk : (rd m (lastOr q X)).id = ((X.length : Nat) : Int) := WF.lastOr_id h
  simp only [adj_mem]
  rw [insert_at_left h2]
  simp only [rd_set_id_id, remove_at_id, rd_set_id_left, hk]
  push_cast
  rfl

theorem adj_mem_right {m : Mem} {q u v : Nat} {X Y : List Nat}
    (h : WF m q (X ++ u :: v :: Y)) (x : Nat) :
    (rd (adj_mem m q u v X Y) x).right =
      if x = u then child_walk Y u (X.length + 1 + 2)
      else if parent_walk (X ++ [v]) u ((X.length + 1 + 1 : Nat) : Int) = some x ∧
          ((X.length + 1 + 1 : Nat) : Int) ≠
            2 * (if x = v then ((X.length + 1 : Nat) : Int) else (rd m x).id) then some u
      else (rd (remove_at m q u X (v :: Y)) x).right := by
  obtain ⟨h1, h2⟩ := adj_mem_keys h
  have hk : (rd m (lastOr q X)).id = ((X.length : Nat) : Int) := WF.lastOr_id h
  simp only [adj_mem]
  rw [insert_at_right h2]
  simp only [rd_set_id_id, remove_at_id, rd_set_id_right, hk]
  push_cast
  rfl

theorem adj_mem_parent {m : Mem} {q u v : Nat} {X Y : List Nat}
    (h : WF m q (X ++ u :: v :: Y)) (x : Nat) :
    (rd (adj_mem m q u v X Y) x).parent =
      if child_walk Y u (X.length + 1 + 2) = some x then some u
      else if child_walk Y u (X.length + 1 + 1) = some x then some u
      else if x = u then parent_walk (X ++ [v]) u ((X.length + 1 + 1 : Nat) : Int)
      else (rd (remove_at m q u X (v :: Y)) x).parent := by
  obtain ⟨h1, h2⟩ := adj_mem_keys h
  simp only [adj_mem]
  rw [insert_at_parent h2]
  simp only [rd_set_id_parent]

theorem exchange_adj_wf {m : Mem} {q u v : Nat} {X Y : List Nat}
    (h : WF m q (X ++ u :: v :: Y)) :
    exchange m (some u) (some v) = Except.ok (adj_mem m q u v X Y) ∧
    exchange m (some v) (some u) = Except.ok (adj_mem m q u v X Y) ∧
    WF (adj_mem m q u v X Y) q (X ++ v :: u :: Y) ∧
    ∀ x, (rd (adj_mem m q u v X Y) x).priority = (rd m x).priority := by
  obtain ⟨e1, l1⟩ := exchange_adj_fwd h.1
  refine ⟨e1, exchange_adj_bwd h.1, ?_, fun x => adj_mem_priority x⟩
  have h' : WF m q (X ++ u :: ([] ++ v :: Y)) := h
  have l' : IsList (adj_mem m q u v X Y) q (X ++ v :: ([] ++ u :: Y)) := l1
  exact swap_wf h' l' (fun x => adj_mem_id h x)

theorem parent_walk_two (u v : Nat) :
    parent_walk ([] ++ [v]) u (((([] : List Nat)).length + 1 + 1 : Nat) : Int) = some v := by
  rw [parent_walk_nat]
  simp

theorem exchange_adj_J1 {m : Mem} {q u v : Nat} {Y : List Nat}
    (h : Inv m q (u :: v :: Y)) : J1 (adj_mem m q u v [] Y) (v :: u :: Y) := by
  obtain ⟨hw, hJ1, hJ2⟩ := h
  have hw' : WF m q ([] ++ u :: v :: Y) := hw
  obtain ⟨_, _, hwf, _⟩ := exchange_adj_wf hw'
  have hnd : (v :: u :: Y).Nodup := hwf.1.nodup
  have hne : u ≠ v := by
    have := hw'.1.not_mem_of_mid
    intro e; apply this; rw [e]; simp
  intro r x y hr hl
  rw [adj_mem_left hw', parent_walk_two] at hl
  by_cases hxu : x = u
  · rw [if_pos hxu] at hl
    have hr1 : r = 1 := nodup_getElem?_inj hnd hr (by rw [hxu]; simp)
    rw [hr1]
    unfold child_walk at hl
    split_ifs at hl with h1
    simpa using hl
  rw [if_neg hxu] at hl
  by_cases hxv : x = v
  · have hr0 : r = 0 := nodup_getElem?_inj hnd hr (by rw [hxv]; simp)
    rw [if_pos ⟨by rw [hxv], by rw [if_pos hxv]; simp⟩] at hl
    rw [hr0, ← Option.some.inj hl]; simp
  have hc : ¬ (some v = some x ∧ ((([] : List Nat).length + 1 + 1 : Nat) : Int)
      = 2 * (if x = v then ((([] : List Nat).length + 1 : Nat) : Int) else (rd m x).id)) := by
    intro hc; exact hxv (Option.some.inj hc.1).symm
  rw [if_neg hc] at hl
  have hl2 : (rd m x).left = some y := by
    rcases remove_at_left m q u [] (v :: Y) x with h5 | h5
    · rw [← h5]; exact hl
    · rw [h5] at hl; exact absurd hl (by simp)
  obtain ⟨r2, rfl⟩ : ∃ r2, r = r2 + 2 := by
    rcases r with _ | _ | r2
    · simp at hr; exact absurd hr.symm hxv
    · simp at hr; exact absurd hr.symm hxu
    · exact ⟨r2, rfl⟩
  have hrN : (u :: v :: Y)[r2 + 2]? = some x := by simpa using hr
  have := hJ1 (r2 + 2) x y hrN hl2
  have e : 2 * (r2 + 2) + 1 = (2 * r2 + 3) + 2 := by omega
  rw [e] at this ⊢
  simpa using this

theorem exchange_adj_J2 {m : Mem} {q u v : Nat} {Y : List Nat}
    (h : Inv m q (u :: v :: Y)) : J2 (adj_mem m q u v [] Y) (v :: u :: Y) := by
  obtain ⟨hw, hJ1, hJ2⟩ := h
  have hw' : WF m q ([] ++ u :: v :: Y) := hw
  obtain ⟨_, _, hwf, _⟩ := exchange_adj_wf hw'
  have hnd : (v :: u :: Y).Nodup := hwf.1.nodup
  have hne : u ≠ v := by
    have := hw'.1.not_mem_of_mid
    intro e; apply this; rw [e]; simp
  intro r x hr hrt
  rw [adj_mem_right hw', parent_walk_two] at hrt
  by_cases hxu : x = u
  · rw [if_pos hxu] at hrt
    have hr1 : r = 1 := nodup_getElem?_inj hnd hr (by rw [hxu]; simp)
    rw [hr1]
    unfold child_walk at hrt
    split_ifs at hrt with h1
    · simp only [List.length_nil, List.length_cons] at h1 ⊢
      omega
    · exact absurd rfl hrt
  rw [if_neg hxu] at hrt
  have hold : (rd m x).right ≠ none := by
    by_cases hxv : x = v
    · have hc : ¬ (some v = some x ∧ ((([] : List Nat).length + 1 + 1 : Nat) : Int)
          ≠ 2 * (if x = v then ((([] : List Nat).length + 1 : Nat) : Int) else (rd m x).id)) := by
        intro hc; apply hc.2; rw [if_pos hxv]; simp
      rw [if_neg hc] at hrt
      rcases remove_at_right m q u [] (v :: Y) x with h5 | h5
      · rw [← h5]; exact hrt
      · exact absurd h5 hrt
    · have hc : ¬ (some v = some x ∧ ((([] : List Nat).length + 1 + 1 : Nat) : Int)
          ≠ 2 * (if x = v then ((([] : List Nat).length + 1 : Nat) : Int) else (rd m x).id)) := by
        intro hc; exact hxv (Option.some.inj hc.1).symm
      rw [if_neg hc] at hrt
      rcases remove_at_right m q u [] (v :: Y) x with h5 | h5
      · rw [← h5]; exact hrt
      · exact absurd h5 hrt
  by_cases hxv : x = v
  · have hr0 : r = 0 := nodup_getElem?_inj hnd hr (by rw [hxv]; simp)
    have := hJ2 1 x (by rw [hxv]; simp) hold
    rw [hr0]
    simp only [List.length_cons] at this ⊢
    omega
  · obtain ⟨r2, rfl⟩ : ∃ r2, r = r2 + 2 := by
      rcases r with _ | _ | r2
      · simp at hr; exact absurd hr.symm hxv
      · simp at hr; exact absurd hr.symm hxu
      · exact ⟨r2, rfl⟩
    have hrN : (u :: v :: Y)[r2 + 2]? = some x := by simpa using hr
    have := hJ2 (r2 + 2) x hrN hold
    simp only [List.length_cons] at this ⊢
    omega

/-- After an exchange of the first two nodes `u`, `v`, the node `u` (now
second) carries freshly derived relations and `v` has `u` as its left child. -/
theorem exchange_adj_fresh {m : Mem} {q u v : Nat} {Y : List Nat}
    (h : WF m q (u :: v :: Y)) :
    (rd (adj_mem m q u v [] Y) u).left = (v :: u :: Y)[3]? ∧
    (rd (adj_mem m q u v [] Y) u).right = (v :: u :: Y)[4]? ∧
    (rd (adj_mem m q u v [] Y) u).parent = some v ∧
    (rd (adj_mem m q u v [] Y) v).left = some u := by
  have hw' : WF m q ([] ++ u :: v :: Y) := h
  obtain ⟨_, _, hwf, _⟩ := exchange_adj_wf hw'
  have hnd : (v :: u :: Y).Nodup := hwf.1.nodup
  have hne : u ≠ v := by
    have := hw'.1.not_mem_of_mid
    intro e; apply this; rw [e]; simp
  have huY : u ∉ Y := by
    intro hu
    have := hw'.1.not_mem_of_mid
    apply this; simp [hu]
  have hnc : ∀ k, 0 < k → child_walk Y u k ≠ some u := by
    intro k hk hc
    exact huY (child_walk_mem hk hc)
  refine ⟨?_, ?_, ?_, ?_⟩
  · rw [adj_mem_left hw', if_pos rfl]
    unfold child_walk
    split_ifs with h1
    · simp
    · simp only [List.length_nil] at h1
      rw [List.getElem?_eq_none]
      simp only [List.length_cons]; omega
  · rw [adj_mem_right hw', if_pos rfl]
    unfold child_walk
    split_ifs with h1
    · simp
    · simp only [List.length_nil] at h1
      rw [List.getElem?_eq_none]
      simp only [List.length_cons]; omega
  · rw [adj_mem_parent hw', if_neg (hnc _ (by omega)), if_neg (hnc _ (by omega)), if_pos rfl,
      parent_walk_two]
  · rw [adj_mem_left hw', if_neg (Ne.symm hne), parent_walk_two,
      if_pos ⟨rfl, by rw [if_pos rfl]; simp⟩]

/-! ## `exchange` as a swap of two list positions -/

theorem decomp_two {L : List Nat} {i j a b : Nat} (ha : L[i]? = some a) (hb : L[j]? = some b)
    (hij : i < j) :
    ∃ L1 M L3, L = L1 ++ a :: (M ++ b :: L3) ∧ L1.length = i ∧ M.length = j - i - 1 := by
  obtain ⟨L1, R, rfl, h1⟩ := decomp_of_getElem ha
  have hb2 : R[j - i - 1]? = some b := by
    rw [List.getElem?_append_right (by omega)] at hb
    have e : j - L1.length = (j - i - 1) + 1 := by omega
    rw [e, List.getElem?_cons_succ] at hb
    exact hb
  obtain ⟨M, L3, rfl, h2⟩ := decomp_of_getElem hb2
  exact ⟨L1, M, L3, rfl, h1, h2⟩

theorem set_swap (L1 M L3 : List Nat) (a b : Nat) :
    ((L1 ++ a :: (M ++ b :: L3)).set L1.length b).set (L1.length + M.length + 1) a
      = L1 ++ b :: (M ++ a :: L3) := by
  apply List.ext_getElem?
  intro r
  rw [getElem?_swap, List.getElem?_set, List.getElem?_set]
  have hlen : (L1 ++ a :: (M ++ b :: L3)).length = L1.length + M.length + L3.length + 2 := by
    simp only [List.length_append, List.length_cons]; omega
  by_cases h1 : r = L1.length
  · subst h1
    rw [if_neg (by omega), if_pos rfl, if_pos rfl, if_pos (by rw [hlen]; omega)]
  · rw [if_neg h1]
    by_cases h2 : r = L1.length + M.length + 1
    · subst h2
      rw [if_pos rfl, if_pos rfl, if_pos (by rw [List.length_set, hlen]; omega)]
    · rw [if_neg h2, if_neg (Ne.symm h2), if_neg (Ne.symm h1)]

theorem exchange_swap_any {m : Mem} {q a b : Nat} {L1 M L3 : List Nat}
    (h : WF m q (L1 ++ a :: (M ++ b :: L3))) (fst snd : Nat)
    (hfs : (fst = a ∧ snd = b) ∨ (fst = b ∧ snd = a)) :
    ∃ m2, exchange m (some fst) (some snd) = Except.ok m2 ∧
      WF m2 q (L1 ++ b :: (M ++ a :: L3)) ∧
      (∀ x, (rd m2 x).priority = (rd m x).priority) ∧
      (∀ x, (rd m2 x).id =
        if x = b then ((L1.length + 1 : Nat) : Int)
        else if x = a then ((L1.length + M.length + 2 : Nat) : Int) else (rd m x).id) := by
  by_cases hM : M = []
  · subst hM
    have h' : WF m q (L1 ++ a :: b :: L3) := h
    obtain ⟨e1, e2, hw, hp⟩ := exchange_adj_wf h'
    have hid : ∀ x, (rd (adj_mem m q a b L1 L3) x).id =
        if x = b then ((L1.length + 1 : Nat) : Int)
        else if x = a then ((L1.length + ([] : List Nat).length + 2 : Nat) : Int)
        else (rd m x).id := fun x => adj_mem_id h' x
    rcases hfs with ⟨rfl, rfl⟩ | ⟨rfl, rfl⟩
    · exact ⟨_, e1, hw, hp, hid⟩
    · exact ⟨_, e2, hw, hp, hid⟩
  · rcases hfs with ⟨rfl, rfl⟩ | ⟨rfl, rfl⟩
    · obtain ⟨e1, hw, hp⟩ := exchange_down_wf h hM
      obtain ⟨_, _, hid, _, _⟩ := exchange_down_list h hM
      exact ⟨_, e1, hw, hp, hid⟩
    · obtain ⟨e1, hw, hp⟩ := exchange_up_wf h hM
      obtain ⟨_, _, hid, _, _⟩ := exchange_up_list h hM
      exact ⟨_, e1, hw, hp, hid⟩

/-- C10: on a queue filled from `pq_init` by `pq_push_back`, for two distinct
linked nodes `a` (at list index `i`) and `b` (at list index `j`), in either
order and adjacent or not, `exchange(a, b)` returns; afterwards walking `next`
visits the old order with `a` and `b` swapped, `a` and `b` carry each
other's old ids, every other record keeps its id, and every record keeps
its priority. -/
theorem exchange_swaps_positions (m0 m : Mem) (q : Nat) (ns : List (Nat × Int))
    (hfresh : (q :: (ns.map Prod.fst ++ [q + 1])).Nodup)
    (hm : (pq_init m0 (some q) >>= fun m1 => push_all (some q) m1 ns) = Except.ok m)
    (i j a b : Nat) (ha : (ns.map Prod.fst)[i]? = some a) (hb : (ns.map Prod.fst)[j]? = some b)
    (hab : a ≠ b) :
    ∃ m2, exchange m (some a) (some b) = Except.ok m2 ∧
      pq_nodes (ns.length + 1) m (some q) = Except.ok (ns.map Prod.fst) ∧
      pq_nodes (ns.length + 1) m2 (some q)
        = Except.ok (((ns.map Prod.fst).set i b).set j a) ∧
      (rd m a).id = (i : Int) + 1 ∧ (rd m b).id = (j : Int) + 1 ∧
      (rd m2 a).id = (rd m b).id ∧ (rd m2 b).id = (rd m a).id ∧
      (∀ x, x ≠ a → x ≠ b → (rd m2 x).id = (rd m x).id) ∧
      (∀ x, (rd m2 x).priority = (rd m x).priority) := by
  have hw := (filled_wf hfresh hm).1
  have hida : (rd m a).id = (i : Int) + 1 := by
    have := Ids.getElem hw.2.2 ha
    rw [this]; ring
  have hidb : (rd m b).id = (j : Int) + 1 := by
    have := Ids.getElem hw.2.2 hb
    rw [this]; ring
  have hn0 : pq_nodes (ns.length + 1) m (some q) = Except.ok (ns.map Prod.fst) :=
    pq_nodes_eq hw.1 (by simp)
  have hij : i ≠ j := by
    intro e; rw [e, hb] at ha; exact hab (Option.some.inj ha).symm
  rcases Nat.lt_or_gt_of_ne hij with hlt | hlt
  · obtain ⟨L1, M, L3, hL, h1, h2⟩ := decomp_two ha hb hlt
    rw [hL] at hw
    obtain ⟨m2, e1, hw2, hp, hid⟩ := exchange_swap_any hw a b (Or.inl ⟨rfl, rfl⟩)
    have hlen : (L1 ++ b :: (M ++ a :: L3)).length = ns.length := by
      have := congrArg List.length hL
      simp only [List.length_map, List.length_append, List.length_cons] at this ⊢
      omega
    refine ⟨m2, e1, hn0, ?_, hida, hidb, ?_, ?_, ?_, hp⟩
    · rw [hL]
      have e : j = L1.length + M.length + 1 := by omega
      rw [← h1, e, set_swap]
      exact pq_nodes_eq hw2.1 (by rw [hlen])
    · rw [hid, if_neg hab, if_pos rfl, hidb]; push_cast; omega
    · rw [hid, if_pos rfl, hida]; push_cast; omega
    · intro x hxa hxb
      rw [hid, if_neg hxb, if_neg hxa]
  · obtain ⟨L1, M, L3, hL, h1, h2⟩ := decomp_two hb ha hlt
    rw [hL] at hw
    obtain ⟨m2, e1, hw2, hp, hid⟩ := exchange_swap_any hw a b (Or.inr ⟨rfl, rfl⟩)
    have hlen : (L1 ++ a :: (M ++ b :: L3)).length = ns.length := by
      have := congrArg List.length hL
      simp only [List.length_map, List.length_append, List.length_cons] at this ⊢
      omega
    refine ⟨m2, e1, hn0, ?_, hida, hidb, ?_, ?_, ?_, hp⟩
    · rw [hL, List.set_comm b a _ hij]
      have e : i = L1.length + M.length + 1 := by omega
      rw [← h1, e, set_swap]
      exact pq_nodes_eq hw2.1 (by rw [hlen])
    · rw [hid, if_pos rfl, hidb]; push_cast; omega
    · rw [hid, if_neg (Ne.symm hab), if_pos rfl, hida]; push_cast; omega
    · intro x hxa hxb
      rw [hid, if_neg hxa, if_neg hxb]

theorem exchange_swaps_positions_witness :
    ∃ m2, exchange
        [⟨none, some 2, none, none, none, 0, 0⟩, ⟨some 4, none, none, none, none, 0, 0⟩,
      ⟨some 0, some 3, none, some 3, some 4, 1, 5⟩, ⟨some 2, some 4, some 2, none, none, 2, 7⟩,
      ⟨some 3, some 1, some 2, none, none, 3, 1⟩]
        (some 4) (some 2) = Except.ok m2 ∧
      pq_nodes 4 m2 (some 0) = Except.ok [4, 3, 2] ∧
      (rd m2 4).id = 1 ∧ (rd m2 2).id = 3 ∧ (rd m2 2).priority = 5 := by
  obtain ⟨m2, h1, _, h3, h4, h5, h6, h7, _, h9⟩ := exchange_swaps_positions (zeros 2)
    [⟨none, some 2, none, none, none, 0, 0⟩, ⟨some 4, none, none, none, none, 0, 0⟩,
      ⟨some 0, some 3, none, some 3, some 4, 1, 5⟩, ⟨some 2, some 4, some 2, none, none, 2, 7⟩,
      ⟨some 3, some 1, some 2, none, none, 3, 1⟩]
    0 [(2, 5), (3, 7), (4, 1)] (by decide) (by decide) 2 0 4 2 (by decide) (by decide)
    (by decide)
  refine ⟨m2, h1, h3, ?_, ?_, ?_⟩
  · rw [h6, h5]; rfl
  · rw [h7, h4]; rfl
  · rw [h9]; rfl

/-! ## `pq_insert` does not depend on the inserted record -/

theorem length_wr (m : Mem) (a : Nat) (v : pq_elem) :
    (wr m a v).length = max m.length (a + 1) := by
  unfold wr
  split_ifs with h
  · rw [List.length_set]; omega
  · simp only [List.length_append, List.length_replicate, List.length_singleton]; omega

theorem mem_ext {m1 m2 : Mem} (hlen : m1.length = m2.length)
    (h : ∀ x, rd m1 x = rd m2 x) : m1 = m2 := by
  apply List.ext_getElem hlen
  intro n h1 h2
  have := h n
  unfold rd at this
  rw [List.getD_eq_getElem _ _ h1, List.getD_eq_getElem _ _ h2] at this
  exact this

theorem pq_elem_ext {a b : pq_elem} (h1 : a.prev = b.prev) (h2 : a.next = b.next)
    (h3 : a.parent = b.parent) (h4 : a.left = b.left) (h5 : a.right = b.right)
    (h6 : a.id = b.id) (h7 : a.priority = b.priority) : a = b := by
  cases a; cases b; simp_all

theorem length_set_parent_opt (m : Mem) (p v : Ptr) :
    (set_parent_opt m p v).length = max m.length (ptr_bound p) := by
  cases p with
  | none => simp [set_parent_opt, ptr_bound]
  | some l => simp [set_parent_opt, set_parent, length_wr, ptr_bound]

theorem length_insert_mem (m : Mem) (b e c : Nat) (p : Int) (W Lw Rw : Option Nat) :
    (insert_mem m b e c p W Lw Rw).length =
      max (max (max (max (max (max m.length (e + 1)) (c + 1)) (b + 1))
        (ptr_bound W))
        (ptr_bound Lw))
        (ptr_bound Rw) := by
  have h5 : (link_mem m b e c).length = max (max (max m.length (e + 1)) (c + 1)) (b + 1) := by
    simp only [link_mem, set_prev, set_next, set_id, length_wr]; omega
  have h6 : (parent_slot_mem (link_mem m b e c) e W).length
      = max (link_mem m b e c).length (ptr_bound W) := by
    cases W with
    | none => simp [parent_slot_mem, ptr_bound]
    | some w =>
      simp only [parent_slot_mem, ptr_bound]
      split_ifs <;> simp only [set_left, set_right, length_wr]
  have h8 : ∀ m0 : Mem, (ptr_bound W) ≤ m0.length →
      (insert_slot_mem m0 e W).length = m0.length := by
    intro m0 h0
    cases W with
    | none => simp [insert_slot_mem]
    | some w =>
      simp only [insert_slot_mem]
      simp only [ptr_bound] at h0
      split_ifs <;> simp only [set_left, set_right, length_wr] <;> omega
  have h7 : (set_parent (parent_slot_mem (link_mem m b e c) e W) e W).length
      = max (max (max (max m.length (e + 1)) (c + 1)) (b + 1)) (ptr_bound W) := by
    simp only [set_parent, length_wr, h6, h5]
    generalize (ptr_bound W) = w
    omega
  simp only [insert_mem, set_priority, set_right, set_left, length_wr, length_set_parent_opt]
  rw [h8 _ (by rw [h7]; exact le_max_right _ _), h7]
  generalize (ptr_bound W) = w
  generalize (ptr_bound Lw) = l
  generalize (ptr_bound Rw) = r
  omega

theorem insert_mem_agree {m1 m2 : Mem} {b e c : Nat} (p : Int) (W Lw Rw : Option Nat)
    (hlen : m1.length = m2.length) (hagree : ∀ x, x ≠ e → rd m2 x = rd m1 x)
    (hc : c ≠ e) :
    insert_mem m2 b e c p W Lw Rw = insert_mem m1 b e c p W Lw Rw := by
  apply mem_ext
  · rw [length_insert_mem, length_insert_mem, hlen]
  · intro x
    have hcid : (rd m2 c).id = (rd m1 c).id := by rw [hagree c hc]
    apply pq_elem_ext
    · rw [rd_insert_mem_prev, rd_insert_mem_prev]
      by_cases hx : x = e
      · subst hx; simp
      · rw [hagree x hx]
    · rw [rd_insert_mem_next, rd_insert_mem_next]
      by_cases hx : x = e
      · subst hx; simp
      · rw [hagree x hx]
    · rw [rd_insert_mem_parent, rd_insert_mem_parent]
      by_cases hx : x = e
      · subst hx; simp
      · rw [hagree x hx]
    · rw [rd_insert_mem_left, rd_insert_mem_left, hcid]
      by_cases hx : x = e
      · rw [if_pos hx, if_pos hx]
      · rw [hagree x hx]
    · rw [rd_insert_mem_right, rd_insert_mem_right, hcid]
      by_cases hx : x = e
      · rw [if_pos hx, if_pos hx]
      · rw [hagree x hx]
    · rw [rd_insert_mem_id, rd_insert_mem_id, hcid]
      by_cases hx : x = e
      · rw [if_pos hx, if_pos hx]
      · rw [hagree x hx]
    · rw [rd_insert_mem_priority, rd_insert_mem_priority]
      by_cases hx : x = e
      · rw [if_pos hx, if_pos hx]
      · rw [hagree x hx]

theorem IsList.agree {m1 m2 : Mem} {q e : Nat} {L : List Nat} (h : IsList m1 q L)
    (he : e ∉ q :: (L ++ [q + 1])) (hagree : ∀ x, x ≠ e → rd m2 x = rd m1 x) :
    IsList m2 q L := by
  have hne : ∀ x ∈ q :: (L ++ [q + 1]), x ≠ e := by
    intro x hx e1; rw [e1] at hx; exact he hx
  refine ⟨h.1, chain_frame h.2.1 ?_ ?_, ?_, ?_⟩
  · intro x hx
    rw [hagree x (hne x (List.mem_of_mem_dropLast hx))]
  · intro y hy
    rw [hagree y (hne y (List.mem_of_mem_tail hy))]
  · rw [hagree q (hne q (by simp))]; exact h.2.2.1
  · rw [hagree (q + 1) (hne (q + 1) (by simp))]; exact h.2.2.2

theorem pq_insert_agree {m1 m2 : Mem} {q e : Nat} {X Y : List Nat} (p : Int)
    (hw : IsList m1 q (X ++ Y)) (he : e ∉ q :: ((X ++ Y) ++ [q + 1]))
    (hlen : m1.length = m2.length) (hagree : ∀ x, x ≠ e → rd m2 x = rd m1 x) :
    ∃ r, pq_insert m1 (some (firstOr (q + 1) Y)) (some e) p = Except.ok r ∧
      pq_insert m2 (some (firstOr (q + 1) Y)) (some e) p = Except.ok r := by
  have hw2 : IsList m2 q (X ++ Y) := hw.agree he hagree
  obtain ⟨r1, _⟩ := pq_insert_list p hw he
  obtain ⟨r2, _⟩ := pq_insert_list p hw2 he
  have hc : lastOr q X ≠ e := by
    intro e1
    have := lastOr_mem q X
    rw [e1] at this
    apply he
    simp only [List.mem_cons, List.mem_append, List.mem_singleton] at this ⊢
    tauto
  refine ⟨_, r1, ?_⟩
  rw [r2, hagree _ hc, insert_mem_agree p _ _ _ hlen hagree hc]

/-- C20: on every queue state, that is every memory in which walking `next`
from the head visits the nodes `X ++ Y` and ends at the tail with `prev`
pointing back (the ids, priorities and cached relations are arbitrary),
inserting an unlinked node `e` between `X` and `Y` returns, and returns the
same memory from any two memories that differ only in the record of `e` (all
seven fields of that record may differ); the same holds for `pq_push_back`,
and `max_heap_insert` gives the same result with any budget. -/
theorem insert_ignores_stale_fields (m1 m2 : Mem) (q e : Nat) (X Y : List Nat) (p : Int)
    (fuel : Nat) (hw : IsList m1 q (X ++ Y)) (he : e ∉ q :: ((X ++ Y) ++ [q + 1]))
    (hlen : m1.length = m2.length) (hagree : ∀ x, x ≠ e → rd m2 x = rd m1 x) :
    (∃ r, pq_insert m1 (some (firstOr (q + 1) Y)) (some e) p = Except.ok r ∧
      pq_insert m2 (some (firstOr (q + 1) Y)) (some e) p = Except.ok r) ∧
    (∃ r, pq_push_back m1 (some q) (some e) p = Except.ok r ∧
      pq_push_back m2 (some q) (some e) p = Except.ok r) ∧
    max_heap_insert fuel m1 (some q) (some e) p = max_heap_insert fuel m2 (some q) (some e) p := by
  have hw' : IsList m1 q ((X ++ Y) ++ []) := by simpa using hw
  have he' : e ∉ q :: (((X ++ Y) ++ []) ++ [q + 1]) := by simpa using he
  obtain ⟨r, h1, h2⟩ := @pq_insert_agree m1 m2 q e (X ++ Y) [] p hw' he' hlen hagree
  have hp1 : pq_push_back m1 (some q) (some e) p = Except.ok r := by
    rw [← h1]; rfl
  have hp2 : pq_push_back m2 (some q) (some e) p = Except.ok r := by
    rw [← h2]; rfl
  refine ⟨pq_insert_agree p hw he hlen hagree, ⟨r, hp1, hp2⟩, ?_⟩
  unfold max_heap_insert
  rw [hp1, hp2]

theorem sample_gap_eq :
    (pq_init (zeros 2) (some 0) >>= fun m =>
      push_all (some 0) m [(2, 5), (3, 7), (4, 1)] >>= fun m => pq_remove m (some 3))
      = Except.ok (some 4, sample_gap) := by
  decide

theorem sample_gap_isList : IsList sample_gap 0 ([2] ++ [4]) := by
  refine ⟨by decide, ?_, by decide, by decide⟩
  simp [Lnk, rd, sample_gap]

theorem insert_ignores_stale_fields_witness :
    ∃ r, pq_insert sample_gap (some 4) (some 3) 9 = Except.ok r ∧
      pq_insert sample_gap_zeroed (some 4) (some 3) 9 = Except.ok r :=
  (insert_ignores_stale_fields sample_gap sample_gap_zeroed 0 3 [2] [4] 9 0 sample_gap_isList
    (by decide) (by decide)
    (by
      intro x hx
      match x, hx with
      | 0, _ => rfl
      | 1, _ => rfl
      | 2, _ => rfl
      | 3, hx => exact absurd rfl hx
      | 4, _ => rfl
      | n + 5, _ => rfl)).1

/-! ## Heap order under a swap of parent and child -/

theorem down_step {pr : Nat → Int} {L L2 : List Nat} {r c a b : Nat}
    (h : DownOk pr L r) (hs : Swapped L L2 r c a b) (hc : c = 2 * r + 1 ∨ c = 2 * r + 2)
    (hab : pr a ≤ pr b)
    (hsib : ∀ k y : Nat, (k = 2 * r + 1 ∨ k = 2 * r + 2) → L[k]? = some y → pr y ≤ pr b) :
    DownOk pr L2 c := by
  obtain ⟨ha, hb, hv⟩ := hs
  obtain ⟨h1, h2⟩ := h
  constructor
  · intro p k x y hp hk hpk hpc
    rw [hv] at hp hk
    by_cases hpr : p = r
    · subst hpr
      rw [if_pos rfl] at hp
      rw [← Option.some.inj hp]
      rw [if_neg (by omega)] at hk
      by_cases hkc : k = c
      · rw [if_pos hkc] at hk
        rw [← Option.some.inj hk]
        exact hab
      · rw [if_neg hkc] at hk
        exact hsib k y hpk hk
    · rw [if_neg hpr, if_neg hpc] at hp
      by_cases hkr : k = r
      · rw [if_pos hkr] at hk
        rw [← Option.some.inj hk]
        exact h2 p c x b hp hb (by omega) hc
      · rw [if_neg hkr, if_neg (by omega)] at hk
        exact h1 p k x y hp hk hpk hpr
  · intro g k x y hg hk hcg hkc
    rw [hv] at hg hk
    have hgr : g = r := by omega
    subst hgr
    rw [if_pos rfl] at hg
    rw [← Option.some.inj hg]
    rw [if_neg (by omega), if_neg (by omega)] at hk
    exact h1 c k b y hb hk hkc (by omega)

theorem down_done {pr : Nat → Int} {L : List Nat} {r a : Nat}
    (h : DownOk pr L r) (ha : L[r]? = some a)
    (hch : ∀ k y : Nat, (k = 2 * r + 1 ∨ k = 2 * r + 2) → L[k]? = some y → pr y ≤ pr a) :
    HeapOrd pr L := by
  intro p c x y hp hcy hpc
  by_cases hpr : p = r
  · subst hpr
    rw [ha] at hp
    rw [← Option.some.inj hp]
    exact hch c y hpc hcy
  · exact h.1 p c x y hp hcy hpc hpr

theorem up_step {pr : Nat → Int} {L L2 : List Nat} {r c a b : Nat}
    (h : UpOk pr L c) (hs : Swapped L L2 r c a b) (hc : c = 2 * r + 1 ∨ c = 2 * r + 2)
    (hab : pr a ≤ pr b) : UpOk pr L2 r := by
  obtain ⟨ha, hb, hv⟩ := hs
  obtain ⟨h1, h2⟩ := h
  constructor
  · intro p k x y hp hk hpk hkr
    rw [hv] at hp hk
    rw [if_neg hkr] at hk
    by_cases hkc : k = c
    · rw [if_pos hkc] at hk
      rw [← Option.some.inj hk]
      have hpr : p = r := by omega
      rw [if_pos hpr] at hp
      rw [← Option.some.inj hp]
      exact hab
    · rw [if_neg hkc] at hk
      by_cases hpr : p = r
      · rw [if_pos hpr] at hp
        rw [← Option.some.inj hp]
        subst hpr
        exact le_trans (h1 p k a y ha hk hpk hkc) hab
      · rw [if_neg hpr] at hp
        by_cases hpc : p = c
        · rw [if_pos hpc] at hp
          rw [← Option.some.inj hp]
          subst hpc
          exact h2 r k a y ha hk hc hpk
        · rw [if_neg hpc] at hp
          exact h1 p k x y hp hk hpk hkc
  · intro g k x y hg hk hrg hkr
    rw [hv] at hg hk
    rw [if_neg (by omega), if_neg (by omega)] at hg
    have hga : pr a ≤ pr x := h1 g r x a hg ha hrg (by omega)
    rw [if_neg (by omega)] at hk
    by_cases hkc : k = c
    · rw [if_pos hkc] at hk
      rw [← Option.some.inj hk]
      exact hga
    · rw [if_neg hkc] at hk
      exact le_trans (h1 r k a y ha hk hkr hkc) hga

theorem up_done_front {pr : Nat → Int} {L : List Nat} (h : UpOk pr L 0) : HeapOrd pr L := by
  intro p c x y hp hcy hpc
  exact h.1 p c x y hp hcy hpc (by omega)

theorem up_done_le {pr : Nat → Int} {L : List Nat} {r c a b : Nat}
    (h : UpOk pr L c) (ha : L[r]? = some a) (hb : L[c]? = some b)
    (hc : c = 2 * r + 1 ∨ c = 2 * r + 2) (hab : pr b ≤ pr a) : HeapOrd pr L := by
  intro p k x y hp hk hpk
  by_cases hkc : k = c
  · subst hkc
    have hpr : p = r := by omega
    subst hpr
    rw [ha] at hp; rw [hb] at hk
    rw [← Option.some.inj hp]
    rw [← Option.some.inj hk]
    exact hab
  · exact h.1 p k x y hp hk hpk hkc

theorem HeapOrd.front_max {pr : Nat → Int} {L : List Nat} (h : HeapOrd pr L) {f : Nat}
    (hf : L[0]? = some f) : ∀ (i x : Nat), L[i]? = some x → pr x ≤ pr f := by
  intro i
  induction i using Nat.strong_induction_on with
  | _ i ih =>
    intro x hx
    rcases Nat.eq_zero_or_pos i with h0 | h0
    · subst h0
      rw [hf] at hx
      rw [← Option.some.inj hx]
    · have hlt : (i - 1) / 2 < L.length := by
        have := (List.getElem?_eq_some.1 hx).1
        omega
      have hg : L[(i - 1) / 2]? = some (L[(i - 1) / 2]) := List.getElem?_eq_getElem hlt
      exact le_trans (h ((i - 1) / 2) i _ x hg hx (by omega))
        (ih ((i - 1) / 2) (by omega) _ hg)

theorem HeapOrd.of_prio_eq {pr pr2 : Nat → Int} {L : List Nat} (h : HeapOrd pr L)
    (he : ∀ x, pr2 x = pr x) : HeapOrd pr2 L := by
  intro p c x y hp hc hpc
  rw [he, he]; exact h p c x y hp hc hpc

theorem DownOk.of_prio_eq_down {pr pr2 : Nat → Int} {L : List Nat} {r : Nat} (h : DownOk pr L r)
    (he : ∀ x, pr2 x = pr x) : DownOk pr2 L r := by
  constructor
  · intro p c x y hp hc hpc hpr
    rw [he, he]; exact h.1 p c x y hp hc hpc hpr
  · intro p c x y hp hc hpc hpr
    rw [he, he]; exact h.2 p c x y hp hc hpc hpr

theorem UpOk.of_prio_eq_up {pr pr2 : Nat → Int} {L : List Nat} {r : Nat} (h : UpOk pr L r)
    (he : ∀ x, pr2 x = pr x) : UpOk pr2 L r := by
  constructor
  · intro p c x y hp hc hpc hpr
    rw [he, he]; exact h.1 p c x y hp hc hpc hpr
  · intro p c x y hp hc hpc hpr
    rw [he, he]; exact h.2 p c x y hp hc hpc hpr

/-! ## One `exchange` between a node and a node at least twice as far -/

theorem perm_swap (L1 M L3 : List Nat) (a b : Nat) :
    (L1 ++ b :: (M ++ a :: L3)).Perm (L1 ++ a :: (M ++ b :: L3)) := by
  apply List.Perm.append_left
  have h1 : (b :: (M ++ a :: L3)).Perm (b :: a :: (M ++ L3)) :=
    List.Perm.cons _ List.perm_middle
  have h2 : (a :: (M ++ b :: L3)).Perm (a :: b :: (M ++ L3)) :=
    List.Perm.cons _ List.perm_middle
  exact h1.trans ((List.Perm.swap a b _).trans h2.symm)

theorem swapped_of_decomp (L1 M L3 : List Nat) (a b : Nat) :
    Swapped (L1 ++ a :: (M ++ b :: L3)) (L1 ++ b :: (M ++ a :: L3)) L1.length
      (L1.length + M.length + 1) a b :=
  ⟨getElem?_mid _ _ _, getElem?_mid2 _ _ _ _ _, fun i => getElem?_swap L1 M L3 a b i⟩

theorem exchange_down_step {m : Mem} {q r c a b : Nat} {L : List Nat}
    (h : Inv m q L) (ha : L[r]? = some a) (hb : L[c]? = some b) (hrc : 2 * r + 1 ≤ c) :
    ∃ m2 L2, exchange m (some a) (some b) = Except.ok m2 ∧ Inv m2 q L2 ∧
      Swapped L L2 r c a b ∧ L2.length = L.length ∧ L2.Perm L ∧
      (∀ x, prio m2 x = prio m x) ∧
      FreshAt m2 L2 c a ∧ (rd m2 a).parent = L2[(c + 1) / 2 - 1]? ∧
      ((c ≠ r + 1 ∨ L.length = 2) → FreshAt m2 L2 r b) := by
  obtain ⟨L1, M, L3, hL, h1, h2⟩ := decomp_two ha hb (by omega)
  subst hL
  have hc : c = L1.length + M.length + 1 := by omega
  have hlen : (L1 ++ b :: (M ++ a :: L3)).length = (L1 ++ a :: (M ++ b :: L3)).length := by
    simp only [List.length_append, List.length_cons]
  by_cases hM : M = []
  · subst hM
    have hL1 : L1 = [] := by
      apply List.eq_nil_of_length_eq_zero
      simp only [List.length_nil] at h2 hc
      omega
    subst hL1
    have hi : Inv m q (a :: b :: L3) := h
    have hw : WF m q ([] ++ a :: b :: L3) := h.1
    obtain ⟨e1, _, hwf, hp⟩ := exchange_adj_wf hw
    obtain ⟨f1, f2, f3, f4⟩ := exchange_adj_fresh hi.1
    have hJ2 := exchange_adj_J2 hi
    have hr0 : r = 0 := by simpa using h1.symm
    have hc1 : c = 1 := by simpa using hc
    subst hr0
    subst hc1
    refine ⟨adj_mem m q a b [] L3, b :: a :: L3, e1, ⟨hwf, exchange_adj_J1 hi, hJ2⟩,
      swapped_of_decomp [] [] L3 a b, hlen, perm_swap [] [] L3 a b, hp, ⟨f1, f2⟩, ?_, ?_⟩
    · rw [f3]; rfl
    · intro h5
      have h6 : L3 = [] := by
        rcases h5 with h5 | h5
        · exact absurd rfl h5
        · apply List.eq_nil_of_length_eq_zero
          simp only [List.nil_append, List.length_cons] at h5
          omega
      subst h6
      refine ⟨by rw [f4]; rfl, ?_⟩
      by_contra h7
      have := hJ2 0 b (by simp) h7
      simp at this
  · have hpos : 2 * (L1.length + 1) ≤ L1.length + M.length + 2 := by omega
    obtain ⟨e1, hwf, hp⟩ := exchange_down_wf h.1 hM
    obtain ⟨f1, f2, f3, f4, f5⟩ := exchange_down_fresh h.1 hM hpos
    rw [← h1, hc]
    refine ⟨down_mem m q a b L1 M L3, L1 ++ b :: (M ++ a :: L3), e1,
      ⟨hwf, exchange_down_J1 h hM hpos, exchange_down_J2 h hM⟩,
      swapped_of_decomp L1 M L3 a b, hlen, perm_swap L1 M L3 a b, hp, ⟨f1, f2⟩, ?_,
      fun _ => ⟨f3, f4⟩⟩
    rw [f5]

theorem exchange_up_step {m : Mem} {q r c a b : Nat} {L : List Nat}
    (h : Inv m q L) (ha : L[r]? = some a) (hb : L[c]? = some b) (hrc : 2 * r + 1 ≤ c) :
    ∃ m2 L2, exchange m (some b) (some a) = Except.ok m2 ∧ Inv m2 q L2 ∧
      Swapped L L2 r c a b ∧ L2.length = L.length ∧ L2.Perm L ∧
      (∀ x, prio m2 x = prio m x) ∧
      (r ≠ 0 → (rd m2 b).parent = L2[(r + 1) / 2 - 1]?) := by
  obtain ⟨L1, M, L3, hL, h1, h2⟩ := decomp_two ha hb (by omega)
  subst hL
  have hc : c = L1.length + M.length + 1 := by omega
  have hlen : (L1 ++ b :: (M ++ a :: L3)).length = (L1 ++ a :: (M ++ b :: L3)).length := by
    simp only [List.length_append, List.length_cons]
  by_cases hM : M = []
  · subst hM
    have hL1 : L1 = [] := by
      apply List.eq_nil_of_length_eq_zero
      simp only [List.length_nil] at h2 hc
      omega
    subst hL1
    have hi : Inv m q (a :: b :: L3) := h
    have hw : WF m q ([] ++ a :: b :: L3) := h.1
    obtain ⟨_, e1, hwf, hp⟩ := exchange_adj_wf hw
    have hr0 : r = 0 := by simpa using h1.symm
    have hc1 : c = 1 := by simpa using hc
    subst hr0
    subst hc1
    exact ⟨adj_mem m q a b [] L3, b :: a :: L3, e1,
      ⟨hwf, exchange_adj_J1 hi, exchange_adj_J2 hi⟩,
      swapped_of_decomp [] [] L3 a b, hlen, perm_swap [] [] L3 a b, hp,
      fun h0 => absurd rfl h0⟩
  · have hpos : 2 * (L1.length + 1) ≤ L1.length + M.length + 2 := by omega
    obtain ⟨e1, hwf, hp⟩ := exchange_up_wf h.1 hM
    have f1 := exchange_up_fresh h.1 hM
    rw [← h1, hc]
    refine ⟨up_mem m q a b L1 M L3, L1 ++ b :: (M ++ a :: L3), e1,
      ⟨hwf, exchange_up_J1 h hM hpos, exchange_up_J2 h hM⟩,
      swapped_of_decomp L1 M L3 a b, hlen, perm_swap L1 M L3 a b, hp, ?_⟩
    intro h0
    rw [f1, if_neg h0]

/-! ## The child slots after `pq_remove`, exactly -/

theorem rd_clear_parent_slot_left_eq (m : Mem) (a x : Nat) :
    (rd (clear_parent_slot m a) x).left =
      if (rd m a).parent = some x ∧ (rd m x).left = some a then none else (rd m x).left := by
  unfold clear_parent_slot
  cases hp : (rd m a).parent with
  | none => simp
  | some g =>
    simp only [Option.some.injEq]
    by_cases hg : g = x
    · subst hg
      by_cases hl : (rd m g).left = some a
      · simp [hl]
      · have hl2 : ¬ some a = (rd m g).left := fun e => hl e.symm
        simp [hl, hl2]
    · have hx : ¬ x = g := fun e => hg e.symm
      have hn : ∀ P : Prop, ¬ (g = x ∧ P) := fun P e => hg e.1
      split_ifs with h1 h2 h2
      · exact absurd h2 (hn _)
      · simp [hx]
      · exact absurd h2 (hn _)
      · simp [hx]

theorem rd_clear_parent_slot_right_eq (m : Mem) (a x : Nat) :
    (rd (clear_parent_slot m a) x).right =
      if (rd m a).parent = some x ∧ (rd m x).left ≠ some a then none else (rd m x).right := by
  unfold clear_parent_slot
  cases hp : (rd m a).parent with
  | none => simp
  | some g =>
    simp only [Option.some.injEq]
    by_cases hg : g = x
    · subst hg
      by_cases hl : (rd m g).left = some a
      · simp [hl]
      · have hl2 : ¬ some a = (rd m g).left := fun e => hl e.symm
        simp [hl, hl2]
    · have hx : ¬ x = g := fun e => hg e.symm
      have hn : ∀ P : Prop, ¬ (g = x ∧ P) := fun P e => hg e.1
      split_ifs with h1 h2 h2
      · exact absurd h2 (hn _)
      · simp [hx]
      · exact absurd h2 (hn _)
      · simp [hx]

theorem remove_at_left_eq (m : Mem) (q a : Nat) (X Y : List Nat) (x : Nat) :
    (rd (remove_at m q a X Y) x).left =
      if (rd m a).parent = some x ∧ (rd m x).left = some a then none else (rd m x).left := by
  simp only [remove_at, remove_mem, rd_set_parent_opt_left]
  rw [rd_clear_parent_slot_left_eq]
  simp

theorem remove_at_right_eq (m : Mem) (q a : Nat) (X Y : List Nat) (x : Nat) :
    (rd (remove_at m q a X Y) x).right =
      if (rd m a).parent = some x ∧ (rd m x).left ≠ some a then none else (rd m x).right := by
  simp only [remove_at, remove_mem, rd_set_parent_opt_right]
  rw [rd_clear_parent_slot_right_eq]
  simp

/-! ## Removing the last node -/

theorem getElem?_snoc_lt (L : List Nat) (a i : Nat) (h : i < L.length) :
    (L ++ [a])[i]? = L[i]? := List.getElem?_append_left h

theorem getElem?_snoc_last (L : List Nat) (a : Nat) : (L ++ [a])[L.length]? = some a := by
  rw [List.getElem?_append_right (le_refl _)]; simp

theorem remove_last_inv {m : Mem} {q a : Nat} {L : List Nat}
    (h : Inv m q (L ++ [a]))
    (hpar : L ≠ [] → (rd m a).parent = L[(L.length + 1) / 2 - 1]?) :
    ∃ m2, pq_remove m (some a) = Except.ok (some (q + 1), m2) ∧ Inv m2 q L ∧
      (∀ x, prio m2 x = prio m x) ∧
      (∀ r x, L[r]? = some x → FreshAt m (L ++ [a]) r x → FreshAt m2 L r x) := by
  obtain ⟨hw, hJ1, hJ2⟩ := h
  have hl : IsList m q (L ++ a :: []) := hw.1
  obtain ⟨e1, l1⟩ := pq_remove_at hl
  have hnd : (L ++ [a]).Nodup := hw.1.nodup
  have haL : a ∉ L := by
    intro ha
    have := List.nodup_append.1 hnd
    exact this.2.2 ha (by simp)
  have hids : Ids m 0 L := by
    have := hw.2.2
    rw [Ids.append] at this
    exact this.1
  have hidx : ∀ {r x : Nat}, L[r]? = some x → r < L.length ∧ (L ++ [a])[r]? = some x := by
    intro r x hr
    have h1 := (List.getElem?_eq_some.1 hr).1
    exact ⟨h1, by rw [getElem?_snoc_lt _ _ _ h1]; exact hr⟩
  have hparent : ∀ {r x : Nat}, L[r]? = some x → (rd m a).parent = some x →
      r = (L.length + 1) / 2 - 1 := by
    intro r x hr hp
    have hne : L ≠ [] := by
      intro e; rw [e] at hr; simp at hr
    rw [hpar hne] at hp
    have hnd2 : L.Nodup := (List.nodup_append.1 hnd).1
    exact nodup_getElem?_inj hnd2 hr hp
  have hparent2 : ∀ {r x : Nat}, L[r]? = some x → r = (L.length + 1) / 2 - 1 →
      (rd m a).parent = some x := by
    intro r x hr he
    have hne : L ≠ [] := by
      intro e; rw [e] at hr; simp at hr
    rw [hpar hne, ← he]; exact hr
  refine ⟨remove_at m q a L [], e1, ⟨⟨by simpa using l1, ?_, ?_⟩, ?_, ?_⟩, ?_, ?_⟩
  · rw [remove_at_id]; exact hw.2.1
  · exact Ids.congr_of_eq hids (fun x _ => remove_at_id m q a L [] x)
  · -- J1
    intro r x y hr hlx
    obtain ⟨hrl, hr2⟩ := hidx hr
    rw [remove_at_left_eq] at hlx
    split_ifs at hlx with hc
    have hy := hJ1 r x y hr2 hlx
    by_cases h2 : 2 * r + 1 < L.length
    · rw [getElem?_snoc_lt _ _ _ h2] at hy; exact hy
    · exfalso
      have h3 : 2 * r + 1 = L.length := by
        have := (List.getElem?_eq_some.1 hy).1
        simp only [List.length_append, List.length_singleton] at this
        omega
      rw [h3, getElem?_snoc_last] at hy
      apply hc
      refine ⟨hparent2 hr (by omega), ?_⟩
      rw [hlx, ← Option.some.inj hy]
  · -- J2
    intro r x hr hrx
    obtain ⟨hrl, hr2⟩ := hidx hr
    rw [remove_at_right_eq] at hrx
    split_ifs at hrx with hc
    · exact absurd rfl hrx
    have h2 := hJ2 r x hr2 hrx
    simp only [List.length_append, List.length_singleton] at h2
    by_contra h3
    have h4 : 2 * r + 2 = L.length := by omega
    apply hc
    refine ⟨hparent2 hr (by omega), ?_⟩
    intro h5
    have := hJ1 r x a hr2 h5
    rw [getElem?_snoc_lt _ _ _ (by omega)] at this
    exact haL (List.getElem?_mem this)
  · intro x
    simp [prio]
  · intro r x hr hf
    obtain ⟨hrl, hr2⟩ := hidx hr
    obtain ⟨hfl, hfr⟩ := hf
    constructor
    · rw [remove_at_left_eq]
      by_cases h2 : 2 * r + 1 < L.length
      · rw [getElem?_snoc_lt _ _ _ h2] at hfl
        have hne : ¬ ((rd m a).parent = some x ∧ (rd m x).left = some a) := by
          intro hc
          rw [hc.2] at hfl
          exact haL (List.getElem?_mem hfl.symm)
        rw [if_neg hne, hfl]
      · by_cases h3 : 2 * r + 1 = L.length
        · rw [h3, getElem?_snoc_last] at hfl
          rw [if_pos ⟨hparent2 hr (by omega), hfl⟩, h3, List.getElem?_eq_none (le_refl _)]
        · rw [List.getElem?_eq_none (by omega)]
          rw [List.getElem?_eq_none (by
            simp only [List.length_append, List.length_singleton]; omega)] at hfl
          split_ifs
          · rfl
          · exact hfl
    · rw [remove_at_right_eq]
      by_cases h2 : 2 * r + 2 < L.length
      · rw [getElem?_snoc_lt _ _ _ h2] at hfr
        have hne : ¬ ((rd m a).parent = some x ∧ (rd m x).left ≠ some a) := by
          intro hc
          have := hparent hr hc.1
          omega
        rw [if_neg hne, hfr]
      · by_cases h3 : 2 * r + 2 = L.length
        · rw [h3, getElem?_snoc_last] at hfr
          have hla : (rd m x).left ≠ some a := by
            intro h5
            rw [hfl, getElem?_snoc_lt _ _ _ (by omega)] at h5
            exact haL (List.getElem?_mem h5)
          rw [if_pos ⟨hparent2 hr (by omega), hla⟩, h3, List.getElem?_eq_none (le_refl _)]
        · rw [List.getElem?_eq_none (by omega)]
          rw [List.getElem?_eq_none (by
            simp only [List.length_append, List.length_singleton]; omega)] at hfr
          split_ifs
          · rfl
          · exact hfr

/-! ## Appending a node -/

theorem push_back_inv {m : Mem} {q e : Nat} {L : List Nat} (p : Int)
    (h : Inv m q L) (he : e ∉ q :: (L ++ [q + 1])) :
    ∃ m2, pq_push_back m (some q) (some e) p = Except.ok m2 ∧ Inv m2 q (L ++ [e]) ∧
      prio m2 e = p ∧ (∀ x, x ≠ e → prio m2 x = prio m x) ∧
      (L.length ≠ 0 → (rd m2 e).parent = (L ++ [e])[(L.length + 1) / 2 - 1]?) := by
  obtain ⟨hw, hJ1, hJ2⟩ := h
  obtain ⟨e1, hw2⟩ := pq_push_back_wf p hw he
  have hk : (rd m (lastOr q L)).id = ((L.length : Nat) : Int) := by
    have hw' : WF m q (L ++ []) := by simpa using hw
    exact WF.lastOr_id hw'
  have heL : e ∉ L := by
    intro h1; apply he; simp [h1]
  have hnd : L.Nodup := hw.1.nodup
  have hidx : ∀ {r x : Nat}, (L ++ [e])[r]? = some x → x ≠ e →
      r < L.length ∧ L[r]? = some x ∧ (rd m x).id = (r : Int) + 1 := by
    intro r x hr hx
    have h1 : r < L.length := by
      by_contra h2
      have h3 := (List.getElem?_eq_some.1 hr).1
      simp only [List.length_append, List.length_singleton] at h3
      have h4 : r = L.length := by omega
      rw [h4, getElem?_snoc_last] at hr
      exact hx (Option.some.inj hr).symm
    rw [getElem?_snoc_lt _ _ _ h1] at hr
    refine ⟨h1, hr, ?_⟩
    have := Ids.getElem hw.2.2 hr
    rw [this]; ring
  refine ⟨_, e1, ⟨hw2, ?_, ?_⟩, ?_, ?_, ?_⟩
  · -- J1
    intro r x y hr hl
    rw [rd_insert_mem_left] at hl
    by_cases hx : x = e
    · rw [if_pos hx] at hl; exact absurd hl (by simp)
    rw [if_neg hx] at hl
    obtain ⟨hrl, hrL, hid⟩ := hidx hr hx
    rw [hk, hid] at hl
    have h0 : ¬ L.length = 0 := by omega
    simp only [if_neg h0] at hl
    split_ifs at hl with hc
    · have h2 : 2 * r + 1 = L.length := by
        have := hc.2
        push_cast at this
        omega
      rw [h2, getElem?_snoc_last]; exact hl
    · have hy := hJ1 r x y hrL hl
      have := (List.getElem?_eq_some.1 hy).1
      rw [getElem?_snoc_lt _ _ _ this]; exact hy
  · -- J2
    intro r x hr hrt
    rw [rd_insert_mem_right] at hrt
    by_cases hx : x = e
    · rw [if_pos hx] at hrt; exact absurd rfl hrt
    rw [if_neg hx] at hrt
    obtain ⟨hrl, hrL, hid⟩ := hidx hr hx
    rw [hk, hid] at hrt
    simp only [List.length_append, List.length_singleton]
    have h0 : ¬ L.length = 0 := by omega
    simp only [if_neg h0] at hrt
    split_ifs at hrt with hc
    · obtain ⟨hc1, hc2⟩ := hc
      have := nodup_getElem?_inj hnd hrL hc1
      omega
    · have := hJ2 r x hrL hrt
      omega
  · simp only [prio]; rw [rd_insert_mem_priority, if_pos rfl]
  · intro x hx
    simp only [prio]; rw [rd_insert_mem_priority, if_neg hx]
  · intro h0
    rw [rd_insert_mem_parent]
    simp only [if_neg h0]
    rw [if_neg (by simp), if_neg (by simp), if_pos trivial, getElem?_snoc_lt _ _ _ (by omega)]

/-! ## `max_heapify` -/

theorem max_heapify_unfold (fuel : Nat) (m : Mem) (a : Nat) :
    max_heapify (fuel + 1) m (some a) =
      if pick m a ≠ a then
        exchange m (some a) (some (pick m a)) >>= fun m2 => max_heapify fuel m2 (some a)
      else Except.ok m := by
  unfold pick
  rw [max_heapify]
  simp only [show (some a != none) = true from rfl, ASSERT_true, ok_bind, load_some]
  cases hl : (rd m a).left with
  | none =>
    cases hr : (rd m a).right with
    | none => simp [pure, Except.pure, bind, Except.bind]
    | some z =>
      by_cases h1 : (rd m z).priority > (rd m a).priority
      · by_cases h2 : z = a <;> simp [pure, Except.pure, bind, Except.bind, load, h1, h2]
      · simp [pure, Except.pure, bind, Except.bind, load, h1]
  | some y =>
    by_cases h0 : (rd m y).priority > (rd m a).priority
    · cases hr : (rd m a).right with
      | none =>
        by_cases h2 : y = a <;> simp [pure, Except.pure, bind, Except.bind, load, h0, h2]
      | some z =>
        by_cases h1 : (rd m z).priority > (rd m y).priority
        · by_cases h2 : z = a <;> simp [pure, Except.pure, bind, Except.bind, load, h0, h1, h2, apply_ite some]
        · by_cases h2 : y = a <;> simp [pure, Except.pure, bind, Except.bind, load, h0, h1, h2, apply_ite some]
    · cases hr : (rd m a).right with
      | none => simp [pure, Except.pure, bind, Except.bind, load, h0]
      | some z =>
        by_cases h1 : (rd m z).priority > (rd m a).priority
        · by_cases h2 : z = a <;> simp [pure, Except.pure, bind, Except.bind, load, h0, h1, h2, apply_ite some]
        · simp [pure, Except.pure, bind, Except.bind, load, h0, h1]

theorem pick_spec (m : Mem) (a : Nat) :
    prio m a ≤ prio m (pick m a) ∧
    (∀ y, (rd m a).left = some y → prio m y ≤ prio m (pick m a)) ∧
    (∀ z, (rd m a).right = some z → prio m z ≤ prio m (pick m a)) ∧
    (pick m a = a ∨ (rd m a).left = some (pick m a) ∨ (rd m a).right = some (pick m a)) := by
  unfold pick prio
  cases hl : (rd m a).left with
  | none =>
    cases hr : (rd m a).right with
    | none => simp
    | some z =>
      simp only [gt_iff_lt]
      split_ifs with h1
      · refine ⟨le_of_lt h1, by simp, ?_, by simp⟩
        intro z2 hz; cases hz; exact le_refl _
      · refine ⟨le_refl _, by simp, ?_, by simp⟩
        intro z2 hz; cases hz; exact not_lt.1 h1
  | some y =>
    cases hr : (rd m a).right with
    | none =>
      simp only [gt_iff_lt]
      split_ifs with h1
      · refine ⟨le_of_lt h1, ?_, by simp, by simp⟩
        intro y2 hy; cases hy; exact le_refl _
      · refine ⟨le_refl _, ?_, by simp, by simp⟩
        intro y2 hy; cases hy; exact not_lt.1 h1
    | some z =>
      simp only [gt_iff_lt]
      split_ifs with h1 h2 h2
      · refine ⟨le_of_lt (lt_trans h1 h2), ?_, ?_, by simp⟩
        · intro y2 hy; cases hy; exact le_of_lt h2
        · intro z2 hz; cases hz; exact le_refl _
      · refine ⟨le_of_lt h1, ?_, ?_, by simp⟩
        · intro y2 hy; cases hy; exact le_refl _
        · intro z2 hz; cases hz; exact not_lt.1 h2
      · refine ⟨le_of_lt h2, ?_, ?_, by simp⟩
        · intro y2 hy; cases hy; exact le_trans (not_lt.1 h1) (le_of_lt h2)
        · intro z2 hz; cases hz; exact le_refl _
      · refine ⟨le_refl _, ?_, ?_, by simp⟩
        · intro y2 hy; cases hy; exact not_lt.1 h1
        · intro z2 hz; cases hz; exact not_lt.1 h2

/-- From a well-formed state in which the heap order can fail only below the
node `a` (index `r`), whose child slots are exact, `max_heapify(a)` either
returns a well-formed state in heap order that links the same nodes with the
same priorities, or runs out of budget, which needs a budget below
`L.length - r`. -/
theorem max_heapify_spec (q : Nat) : ∀ (fuel : Nat) (m : Mem) (L : List Nat) (r a : Nat),
    Inv m q L → L[r]? = some a → FreshAt m L r a → DownOk (prio m) L r →
    (∃ m2 L2, max_heapify fuel m (some a) = Except.ok m2 ∧ Inv m2 q L2 ∧ L2.Perm L ∧
      HeapOrd (prio m2) L2 ∧ (∀ x, prio m2 x = prio m x)) ∨
    ((∃ mf, max_heapify fuel m (some a) = Except.error (Fault.out_of_fuel, mf)) ∧
      fuel + r < L.length)
  | 0, m, L, r, a, _, ha, _, _ =>
    Or.inr ⟨⟨m, rfl⟩, by have := (List.getElem?_eq_some.1 ha).1; omega⟩
  | fuel + 1, m, L, r, a, hi, ha, hf, hd => by
    rw [max_heapify_unfold]
    obtain ⟨p1, p2, p3, p4⟩ := pick_spec m a
    by_cases hp : pick m a = a
    · rw [if_neg (not_not.2 hp)]
      left
      refine ⟨m, L, rfl, hi, List.Perm.refl _, ?_, fun _ => rfl⟩
      apply down_done hd ha
      intro k y hk hy
      rcases hk with hk | hk
      · have h1 : (rd m a).left = some y := by rw [hf.1, ← hk]; exact hy
        have h2 := p2 y h1
        rw [hp] at h2; exact h2
      · have h1 : (rd m a).right = some y := by rw [hf.2, ← hk]; exact hy
        have h2 := p3 y h1
        rw [hp] at h2; exact h2
    · rw [if_pos hp]
      have hchild : ∃ c, (c = 2 * r + 1 ∨ c = 2 * r + 2) ∧ L[c]? = some (pick m a) := by
        rcases p4 with h1 | h1 | h1
        · exact absurd h1 hp
        · exact ⟨2 * r + 1, Or.inl rfl, by rw [← hf.1]; exact h1⟩
        · exact ⟨2 * r + 2, Or.inr rfl, by rw [← hf.2]; exact h1⟩
      obtain ⟨c, hc, hcb⟩ := hchild
      obtain ⟨m2, L2, e1, hi2, hs, hlen, hperm, hpr, hfa, _, _⟩ :=
        exchange_down_step hi ha hcb (by omega)
      rw [e1, ok_bind]
      have hd2 : DownOk (prio m2) L2 c := by
        apply DownOk.of_prio_eq_down _ hpr
        apply down_step hd hs hc p1
        intro k y hk hy
        rcases hk with hk | hk
        · exact p2 y (by rw [hf.1, ← hk]; exact hy)
        · exact p3 y (by rw [hf.2, ← hk]; exact hy)
      have ha2 : L2[c]? = some a := by rw [hs.2.2, if_neg (by omega), if_pos rfl]
      rcases max_heapify_spec q fuel m2 L2 c a hi2 ha2 hfa hd2 with
        ⟨m3, L3, e3, hi3, hp3, hh3, hpr3⟩ | ⟨e3, hlt⟩
      · left
        exact ⟨m3, L3, e3, hi3, hp3.trans hperm, hh3, fun x => (hpr3 x).trans (hpr x)⟩
      · right
        exact ⟨e3, by omega⟩

/-! ## `percolate` -/

theorem percolate_unfold (fuel : Nat) (m : Mem) (q b : Nat) {L : List Nat}
    (h : IsList m q L) :
    percolate (fuel + 1) m (some q) (some b) =
      if b = firstOr (q + 1) L then Except.ok m
      else load m (rd m b).parent >>= fun pe =>
        if pe.priority < (rd m b).priority then
          exchange m (some b) (rd m b).parent >>= fun m2 => percolate fuel m2 (some q) (some b)
        else Except.ok m := by
  simp only [percolate, show (some b != none) = true from rfl, ASSERT_true, ok_bind]
  rw [percolate_loop, pq_front_eq h]
  simp only [ok_bind, Option.some.injEq, load_some]
  split_ifs <;> rfl

theorem percolate_spec (q : Nat) : ∀ (fuel : Nat) (m : Mem) (L : List Nat) (c b : Nat),
    Inv m q L → L[c]? = some b → (c ≠ 0 → (rd m b).parent = L[(c + 1) / 2 - 1]?) →
    UpOk (prio m) L c →
    (∃ m2 L2, percolate fuel m (some q) (some b) = Except.ok m2 ∧ Inv m2 q L2 ∧ L2.Perm L ∧
      HeapOrd (prio m2) L2 ∧ (∀ x, prio m2 x = prio m x)) ∨
    ((∃ mf, percolate fuel m (some q) (some b) = Except.error (Fault.out_of_fuel, mf)) ∧
      fuel ≤ c)
  | 0, m, L, c, b, _, _, _, _ => Or.inr ⟨⟨m, rfl⟩, Nat.zero_le _⟩
  | fuel + 1, m, L, c, b, hi, hb, hpar, hu => by
    rw [percolate_unfold fuel m q b hi.1.1]
    have hclt : c < L.length := (List.getElem?_eq_some.1 hb).1
    have hnd : L.Nodup := hi.1.1.nodup
    have hfront : L[0]? = some (firstOr (q + 1) L) := by
      cases L with
      | nil => simp at hclt
      | cons f T => simp [firstOr]
    by_cases h0 : c = 0
    · subst h0
      have : b = firstOr (q + 1) L := by
        rw [hfront] at hb; exact (Option.some.inj hb).symm
      rw [if_pos this]
      left
      exact ⟨m, L, rfl, hi, List.Perm.refl _, up_done_front hu, fun _ => rfl⟩
    · have hbf : b ≠ firstOr (q + 1) L := by
        intro e
        rw [← e] at hfront
        exact h0 (nodup_getElem?_inj hnd hb hfront)
      rw [if_neg hbf]
      have hrlt : (c + 1) / 2 - 1 < L.length := by omega
      have hra : L[(c + 1) / 2 - 1]? = some (L[(c + 1) / 2 - 1]) := List.getElem?_eq_getElem hrlt
      have hc : c = 2 * ((c + 1) / 2 - 1) + 1 ∨ c = 2 * ((c + 1) / 2 - 1) + 2 := by omega
      rw [hpar h0, hra, load_some, ok_bind]
      by_cases hlt : (rd m (L[(c + 1) / 2 - 1])).priority < (rd m b).priority
      · rw [if_pos hlt]
        obtain ⟨m2, L2, e1, hi2, hs, hlen, hperm, hpr, hfp⟩ :=
          exchange_up_step hi hra hb (by omega)
        rw [e1, ok_bind]
        have hu2 : UpOk (prio m2) L2 ((c + 1) / 2 - 1) := by
          apply UpOk.of_prio_eq_up _ hpr
          exact up_step hu hs hc (le_of_lt hlt)
        have hb2 : L2[(c + 1) / 2 - 1]? = some b := by rw [hs.2.2, if_pos rfl]
        have hpar2 : (c + 1) / 2 - 1 ≠ 0 →
            (rd m2 b).parent = L2[((c + 1) / 2 - 1 + 1) / 2 - 1]? := hfp
        rcases percolate_spec q fuel m2 L2 ((c + 1) / 2 - 1) b hi2 hb2 hpar2 hu2 with
          ⟨m3, L3, e3, hi3, hp3, hh3, hpr3⟩ | ⟨e3, hle⟩
        · left
          exact ⟨m3, L3, e3, hi3, hp3.trans hperm, hh3, fun x => (hpr3 x).trans (hpr x)⟩
        · right
          exact ⟨e3, by omega⟩
      · rw [if_neg hlt]
        left
        exact ⟨m, L, rfl, hi, List.Perm.refl _, up_done_le hu hra hb hc (not_lt.1 hlt),
          fun _ => rfl⟩

/-! ## `max_heap_insert` and `heap_extract_max` on a well-formed heap -/

theorem max_heap_insert_spec {m : Mem} {q e : Nat} {L : List Nat} (p : Int) (fuel : Nat)
    (hi : Inv m q L) (hh : HeapOrd (prio m) L) (he : e ∉ q :: (L ++ [q + 1])) :
    (∃ m2 L2, max_heap_insert fuel m (some q) (some e) p = Except.ok m2 ∧ Inv m2 q L2 ∧
      HeapOrd (prio m2) L2 ∧ L2.Perm (e :: L) ∧ prio m2 e = p ∧
      (∀ x, x ≠ e → prio m2 x = prio m x)) ∨
    ((∃ mf, max_heap_insert fuel m (some q) (some e) p
        = Except.error (Fault.out_of_fuel, mf)) ∧
      fuel ≤ L.length) := by
  obtain ⟨m1, e1, hi1, hpe, hpo, hpar⟩ := push_back_inv p hi he
  have heL : e ∉ L := by
    intro h1; apply he; simp [h1]
  have hlast : (L ++ [e])[L.length]? = some e := getElem?_snoc_last L e
  have hu : UpOk (prio m1) (L ++ [e]) L.length := by
    constructor
    · intro r k x y hr hk hrk hkl
      have hk1 := (List.getElem?_eq_some.1 hk).1
      simp only [List.length_append, List.length_singleton] at hk1
      have hk2 : k < L.length := by omega
      rw [getElem?_snoc_lt _ _ _ hk2] at hk
      rw [getElem?_snoc_lt _ _ _ (by omega)] at hr
      have hx : x ≠ e := fun h1 => heL (h1 ▸ List.getElem?_mem hr)
      have hy : y ≠ e := fun h1 => heL (h1 ▸ List.getElem?_mem hk)
      rw [hpo x hx, hpo y hy]
      exact hh r k x y hr hk hrk
    · intro g k x y hg hk hcg hkc
      have hk1 := (List.getElem?_eq_some.1 hk).1
      simp only [List.length_append, List.length_singleton] at hk1
      omega
  have hpar2 : L.length ≠ 0 → (rd m1 e).parent = (L ++ [e])[(L.length + 1) / 2 - 1]? := hpar
  unfold max_heap_insert
  rw [e1, ok_bind]
  rcases percolate_spec q fuel m1 (L ++ [e]) L.length e hi1 hlast hpar2 hu with
    ⟨m2, L2, e2, hi2, hp2, hh2, hpr2⟩ | ⟨e2, hle⟩
  · left
    refine ⟨m2, L2, e2, hi2, hh2, hp2.trans ?_, by rw [hpr2, hpe], ?_⟩
    · exact (List.perm_append_singleton e L)
    · intro x hx
      rw [hpr2, hpo x hx]
  · right
    exact ⟨e2, hle⟩

theorem exchange_same (m : Mem) (a : Nat) : exchange m (some a) (some a) = Except.ok m := by
  simp [exchange, ASSERT, load, bind, Except.bind, pure, Except.pure]

theorem heap_extract_max_unfold (fuel : Nat) {m : Mem} {q f : Nat} {T : List Nat}
    (h : IsList m q (f :: T)) :
    heap_extract_max fuel m (some q) =
      exchange m (some f) (some (lastOr f T)) >>= fun m1 =>
      pq_remove m1 (some f) >>= fun r =>
      (if f ≠ lastOr f T then max_heapify fuel r.2 (some (lastOr f T)) else Except.ok r.2)
        >>= fun m3 => Except.ok (some f, m3) := by
  unfold heap_extract_max
  rw [pq_empty_eq h, pq_front_eq h, pq_back_eq h]
  simp only [show (some q != none) = true from rfl, if_true, ok_bind, pure, Except.pure,
    reduceCtorEq, decide_False, Bool.not_false, ASSERT_true, firstOr, Option.some.injEq, ne_eq]
  rfl

theorem heap_extract_max_spec {m : Mem} {q f : Nat} {T : List Nat} (fuel : Nat)
    (hi : Inv m q (f :: T)) (hh : HeapOrd (prio m) (f :: T)) :
    (∃ m2 L2, heap_extract_max fuel m (some q) = Except.ok (some f, m2) ∧ Inv m2 q L2 ∧
      HeapOrd (prio m2) L2 ∧ L2.Perm T ∧ (∀ x, prio m2 x = prio m x)) ∨
    ((∃ mf, heap_extract_max fuel m (some q) = Except.error (Fault.out_of_fuel, mf)) ∧
      fuel < T.length) := by
  rw [heap_extract_max_unfold fuel hi.1.1]
  rcases List.eq_nil_or_concat T with hT | ⟨M, b, hT⟩
  · subst hT
    have hi0 : Inv m q ([] ++ [f]) := hi
    obtain ⟨m2, e2, hi2, hp2, _⟩ := remove_last_inv hi0 (fun h0 => absurd rfl h0)
    simp only [lastOr, exchange_same, ok_bind, e2, ne_eq, not_true_eq_false, if_false]
    left
    refine ⟨m2, [], rfl, hi2, ?_, List.Perm.refl _, hp2⟩
    intro r c x y hr
    simp at hr
  · rw [List.concat_eq_append] at hT
    subst hT
    have hlst : lastOr f (M ++ [b]) = b := lastOr_append_singleton _ _ _
    rw [hlst]
    have hLf : (f :: (M ++ [b]))[0]? = some f := by simp
    have hLb : (f :: (M ++ [b]))[M.length + 1]? = some b := by
      rw [List.getElem?_cons_succ]; exact getElem?_snoc_last M b
    have hnd : (f :: (M ++ [b])).Nodup := hi.1.1.nodup
    have hfb : f ≠ b := by
      intro e
      have hLb2 : (f :: (M ++ [b]))[M.length + 1]? = some f := by rw [e]; exact hLb
      have := nodup_getElem?_inj hnd hLf hLb2
      omega
    obtain ⟨m1, L1, e1, hi1, hs, hlen, hperm, hpr, hfa, hpa, hfb0⟩ :=
      exchange_down_step hi hLf hLb (by omega)
    have hL1 : L1 = (b :: M) ++ [f] := by
      apply List.ext_getElem?
      intro i
      rw [hs.2.2 i]
      have := getElem?_swap [] M [] f b i
      simp only [List.nil_append, List.length_nil, zero_add] at this
      rw [show (b :: M) ++ [f] = b :: (M ++ [f]) from rfl, this]
    subst hL1
    have hpar : b :: M ≠ [] → (rd m1 f).parent = (b :: M)[((b :: M).length + 1) / 2 - 1]? := by
      intro _
      rw [hpa]
      simp only [List.length_cons]
      exact getElem?_snoc_lt (b :: M) f _ (by simp only [List.length_cons]; omega)
    obtain ⟨m2, e2, hi2, hp2, hfr⟩ := remove_last_inv hi1 hpar
    have hfb2 : FreshAt m2 (b :: M) 0 b := by
      apply hfr 0 b (by simp)
      apply hfb0
      by_cases hM : M.length = 0
      · right; simp [hM]
      · left; omega
    rw [e1, ok_bind, e2, ok_bind, if_pos hfb]
    have hd : DownOk (prio m2) (b :: M) 0 := by
      constructor
      · intro r k x y hr hk hrk hr0
        have hk1 := (List.getElem?_eq_some.1 hk).1
        simp only [List.length_cons] at hk1
        have hr2 : (f :: (M ++ [b]))[r]? = some x := by
          obtain ⟨r2, rfl⟩ : ∃ r2, r = r2 + 1 := ⟨r - 1, by omega⟩
          rw [List.getElem?_cons_succ] at hr ⊢
          rw [getElem?_snoc_lt _ _ _ (by omega)]; exact hr
        have hk2 : (f :: (M ++ [b]))[k]? = some y := by
          obtain ⟨k2, rfl⟩ : ∃ k2, k = k2 + 1 := ⟨k - 1, by omega⟩
          rw [List.getElem?_cons_succ] at hk ⊢
          rw [getElem?_snoc_lt _ _ _ (by omega)]; exact hk
        rw [hp2, hp2, hpr, hpr]
        exact hh r k x y hr2 hk2 hrk
      · intro g k x y _ _ h0 _
        omega
    rcases max_heapify_spec q fuel m2 (b :: M) 0 b hi2 (by simp) hfb2 hd with
      ⟨m3, L3, e3, hi3, hp3, hh3, hpr3⟩ | ⟨e3, hlt⟩
    · left
      rw [e3, ok_bind]
      refine ⟨m3, L3, rfl, hi3, hh3, hp3.trans ?_, ?_⟩
      · exact (List.perm_append_singleton b M).symm
      · intro x
        rw [hpr3, hp2, hpr]
    · right
      obtain ⟨mf, e3⟩ := e3
      rw [e3]
      refine ⟨⟨mf, rfl⟩, ?_⟩
      simp only [List.length_cons, List.length_append, List.length_singleton] at hlt ⊢
      omega

/-! ## Reachable states -/

theorem walk_next_mono (m : Mem) (t : Ptr) : ∀ (fuel : Nat) (p : Ptr) (L : List Nat),
    walk_next m t fuel p = Except.ok L → ∀ fuel2, fuel ≤ fuel2 →
    walk_next m t fuel2 p = Except.ok L
  | 0, _, _, h, _, _ => by simp [walk_next] at h
  | fuel + 1, p, L, h, fuel2, hf => by
    obtain ⟨f2, rfl⟩ : ∃ f2, fuel2 = f2 + 1 := ⟨fuel2 - 1, by omega⟩
    simp only [walk_next] at h ⊢
    by_cases hp : p = t
    · rw [if_pos hp] at h ⊢; exact h
    · rw [if_neg hp] at h ⊢
      cases p with
      | none => exact h
      | some a =>
        simp only at h ⊢
        cases hw : walk_next m t fuel (rd m a).next with
        | error err => rw [hw] at h; simp [bind, Except.bind] at h
        | ok rest =>
          rw [walk_next_mono m t fuel _ rest hw f2 (by omega)]
          rw [hw] at h
          exact h

theorem pq_nodes_unique {m : Mem} {q : Nat} {L L2 : List Nat} {fuel : Nat}
    (h : IsList m q L) (h2 : pq_nodes fuel m (some q) = Except.ok L2) : L2 = L := by
  have h3 := pq_nodes_eq h (le_max_right fuel (L.length + 1))
  unfold pq_nodes at h2 h3
  rw [pq_front_eq h] at h2 h3
  simp only [pq_tail, show (some q != none) = true from rfl, ASSERT_true, ok_bind, tail_of,
    Option.map_some', pure, Except.pure] at h2 h3
  have h4 := walk_next_mono m _ fuel _ L2 h2 (max fuel (L.length + 1)) (le_max_left _ _)
  rw [h3] at h4
  exact (Except.ok.inj h4).symm

theorem heap_extract_max_nil {m : Mem} {q : Nat} (fuel : Nat) (h : IsList m q []) :
    heap_extract_max fuel m (some q) = Except.error (Fault.assertion, m) := by
  unfold heap_extract_max
  rw [pq_empty_eq h]
  simp [ASSERT, pure, Except.pure, bind, Except.bind]

theorem Reach.good {q : Nat} {m : Mem} (h : Reach q m) :
    ∃ L, Inv m q L ∧ HeapOrd (prio m) L := by
  induction h with
  | init m0 m h0 =>
    rw [pq_init_eq] at h0
    cases h0
    refine ⟨[], ⟨init_mem_wf m0 q, ?_, ?_⟩, ?_⟩
    · intro r x y hr; simp at hr
    · intro r x hr; simp at hr
    · intro r c x y hr; simp at hr
  | insert m m2 e p fuel fuel2 L _ hn he hins ih =>
    obtain ⟨L0, hi, hh⟩ := ih
    have hL := pq_nodes_unique hi.1.1 hn
    subst hL
    rcases max_heap_insert_spec p fuel hi hh he with
      ⟨m3, L3, e3, hi3, hh3, _⟩ | ⟨⟨mf, e3⟩, _⟩
    · rw [e3] at hins
      cases hins
      exact ⟨L3, hi3, hh3⟩
    · rw [e3] at hins
      cases hins
  | extract m m2 x fuel _ hext ih =>
    obtain ⟨L0, hi, hh⟩ := ih
    cases L0 with
    | nil =>
      rw [heap_extract_max_nil fuel hi.1.1] at hext
      cases hext
    | cons f T =>
      rcases heap_extract_max_spec fuel hi hh with
        ⟨m3, L3, e3, hi3, hh3, _⟩ | ⟨⟨mf, e3⟩, _⟩
      · rw [e3] at hext
        cases hext
        exact ⟨L3, hi3, hh3⟩
      · rw [e3] at hext
        cases hext

/-! ## Properties of every reachable state -/

theorem Reach.nodes {q : Nat} {m : Mem} {L : List Nat} (h : Inv m q L) :
    (∀ fuel, L.length + 1 ≤ fuel → pq_nodes fuel m (some q) = Except.ok L ∧
      pq_size fuel m (some q) = Except.ok L.length) :=
  fun _ hf => ⟨pq_nodes_eq h.1.1 hf, pq_size_eq h.1.1 hf⟩

theorem nonempty_of_pq_empty {q : Nat} {m : Mem} {L : List Nat} (h : IsList m q L)
    (hne : pq_empty m (some q) = Except.ok false) : ∃ f T, L = f :: T := by
  rw [pq_empty_eq h] at hne
  cases L with
  | nil => simp at hne
  | cons f T => exact ⟨f, T, rfl⟩

theorem pq_nodes_mono {m : Mem} {q : Nat} {L : List Nat} {fuel fuel2 : Nat}
    (h : pq_nodes fuel m (some q) = Except.ok L) (hf : fuel ≤ fuel2) :
    pq_nodes fuel2 m (some q) = Except.ok L := by
  unfold pq_nodes at h ⊢
  simp only [pq_front, pq_tail, show (some q != none) = true from rfl, ASSERT_true, ok_bind,
    head_of, tail_of, load_some, Option.map_some', pure, Except.pure] at h ⊢
  exact walk_next_mono m _ fuel _ L h fuel2 hf

theorem reach_one : Reach 0 sample_one :=
  Reach.insert sample_empty sample_one 2 5 3 1 []
    (Reach.init (zeros 2) sample_empty (by decide)) (by decide) (by decide) (by decide)

theorem reach_two : Reach 0 sample_two :=
  Reach.insert sample_one sample_two 3 7 3 2 [2] reach_one (by decide) (by decide) (by decide)

/-- C7: in every state reachable from `pq_init` by `max_heap_insert` (of
unlinked nodes) and `heap_extract_max`, the head sentinel has id 0, the linked
nodes `L` are visited by walking `next`, the node at list position `k + 1` has
id `k + 1`, which is one more than the id of its `prev`, its `prev` and `next`
point back to it, and `pq_size` is `L.length`, the id of `pq_back`. -/
theorem reachable_ids_and_links (q : Nat) (m : Mem) (h : Reach q m) :
    ∃ L, (∀ fuel, L.length + 1 ≤ fuel → pq_nodes fuel m (some q) = Except.ok L) ∧
      (rd m q).id = 0 ∧
      (∀ (k x : Nat), L[k]? = some x → (rd m x).id = (k : Int) + 1 ∧
        ∃ c n, (rd m x).prev = some c ∧ (rd m x).next = some n ∧
          (rd m x).id = (rd m c).id + 1 ∧ (rd m c).next = some x ∧ (rd m n).prev = some x) ∧
      (∀ fuel, L.length + 1 ≤ fuel → pq_size fuel m (some q) = Except.ok L.length) ∧
      pq_back m (some q) = Except.ok (some (lastOr q L)) ∧
      (rd m (lastOr q L)).id = (L.length : Int) := by
  obtain ⟨L, hi, _⟩ := h.good
  have hw := hi.1
  refine ⟨L, fun fuel hf => (Reach.nodes hi fuel hf).1, hw.2.1, ?_,
    fun fuel hf => (Reach.nodes hi fuel hf).2, pq_back_eq hw.1, ?_⟩
  · intro k x hk
    obtain ⟨X, Y, hL, hX⟩ := decomp_of_getElem hk
    subst hL
    have hid : (rd m x).id = (k : Int) + 1 := by
      rw [WF.id_mid hw, hX]; push_cast; rfl
    refine ⟨hid, lastOr q X, firstOr (q + 1) Y, hw.1.prev_eq, hw.1.next_eq, ?_, ?_, ?_⟩
    · rw [hid, WF.lastOr_id hw, hX]
    · exact (IsList.lnk hw.1).1
    · have h2 : IsList m q ((X ++ [x]) ++ Y) := by simpa using hw.1
      have := (IsList.lnk h2).2
      rw [lastOr_append_singleton] at this
      exact this
  · have hw' : WF m q (L ++ []) := by simpa using hw
    exact WF.lastOr_id hw'

theorem reachable_ids_and_links_witness :
    pq_nodes 3 sample_two (some 0) = Except.ok [3, 2] ∧
      pq_size 3 sample_two (some 0) = Except.ok 2 := by
  obtain ⟨L, h1, _, _, h4, _⟩ := reachable_ids_and_links 0 sample_two reach_two
  have e : L = [3, 2] := by
    have h5 := pq_nodes_mono (h1 (L.length + 1) (le_refl _)) (le_max_left _ 3)
    have h6 := pq_nodes_mono (show pq_nodes 3 sample_two (some 0) = Except.ok [3, 2] by decide)
      (le_max_right (L.length + 1) 3)
    rw [h5] at h6
    exact Except.ok.inj h6
  subst e
  exact ⟨h1 3 (by decide), h4 3 (by decide)⟩

/-- C2: in every non-empty state reachable from `pq_init` by
`max_heap_insert` (of unlinked nodes) and `heap_extract_max`, `heap_maximum`
returns the node that `pq_front` returns, that node is linked, and its
priority is at least the priority of every linked node. `heap_maximum` only
reads: its embedding returns no memory, the state stays `m`. -/
theorem front_is_maximum (q : Nat) (m : Mem) (h : Reach q m)
    (hne : pq_empty m (some q) = Except.ok false) :
    ∃ L f, (∀ fuel, L.length + 1 ≤ fuel → pq_nodes fuel m (some q) = Except.ok L) ∧
      heap_maximum m (some q) = Except.ok (some f) ∧
      pq_front m (some q) = Except.ok (some f) ∧ f ∈ L ∧
      ∀ x ∈ L, (rd m x).priority ≤ (rd m f).priority := by
  obtain ⟨L, hi, hh⟩ := h.good
  obtain ⟨f, T, hL⟩ := nonempty_of_pq_empty hi.1.1 hne
  subst hL
  have hf : pq_front m (some q) = Except.ok (some f) := pq_front_eq hi.1.1
  refine ⟨f :: T, f, fun fuel hfu => (Reach.nodes hi fuel hfu).1, ?_, hf, by simp, ?_⟩
  · unfold heap_maximum
    rw [hf]; rfl
  · intro x hx
    obtain ⟨i, hi2⟩ := List.getElem?_of_mem hx
    exact hh.front_max (by simp) i x hi2

theorem front_is_maximum_witness :
    heap_maximum sample_two (some 0) = Except.ok (some 3) ∧
      (rd sample_two 2).priority ≤ (rd sample_two 3).priority := by
  obtain ⟨L, f, h1, h2, _, _, h5⟩ := front_is_maximum 0 sample_two reach_two (by decide)
  have e : L = [3, 2] := by
    have h6 := pq_nodes_mono (h1 (L.length + 1) (le_refl _)) (le_max_left _ 3)
    have h7 := pq_nodes_mono (show pq_nodes 3 sample_two (some 0) = Except.ok [3, 2] by decide)
      (le_max_right (L.length + 1) 3)
    rw [h6] at h7
    exact Except.ok.inj h7
  subst e
  have ef : f = 3 := by
    have : heap_maximum sample_two (some 0) = Except.ok (some 3) := by decide
    rw [h2] at this
    exact Option.some.inj (Except.ok.inj this)
  subst ef
  exact ⟨h2, h5 2 (by simp)⟩

/-- C3: in every non-empty state reachable from `pq_init` by
`max_heap_insert` and `heap_extract_max`, with linked nodes `L` and front `f`,
`heap_extract_max` (with a budget of at least `L.length`) returns `f`;
afterwards walking `next` visits a list `L2` without `f` such that `f :: L2`
is a rearrangement of `L` (whose nodes are distinct), `pq_size` has decreased
by one, and every record keeps its priority. -/
theorem extract_removes_front (q : Nat) (m : Mem) (h : Reach q m)
    (hne : pq_empty m (some q) = Except.ok false) :
    ∃ L f, (∀ fuel, L.length + 1 ≤ fuel → pq_nodes fuel m (some q) = Except.ok L ∧
        pq_size fuel m (some q) = Except.ok L.length) ∧
      pq_front m (some q) = Except.ok (some f) ∧ L.Nodup ∧
      ∀ fuel, L.length ≤ fuel → ∃ m2 L2,
        heap_extract_max fuel m (some q) = Except.ok (some f, m2) ∧
        (∀ fuel2, L2.length + 1 ≤ fuel2 → pq_nodes fuel2 m2 (some q) = Except.ok L2 ∧
          pq_size fuel2 m2 (some q) = Except.ok L2.length) ∧
        f ∉ L2 ∧ (f :: L2).Perm L ∧ L2.length + 1 = L.length ∧
        ∀ x, (rd m2 x).priority = (rd m x).priority := by
  obtain ⟨L, hi, hh⟩ := h.good
  obtain ⟨f, T, hL⟩ := nonempty_of_pq_empty hi.1.1 hne
  subst hL
  have hnd : (f :: T).Nodup := hi.1.1.nodup
  refine ⟨f :: T, f, Reach.nodes hi, pq_front_eq hi.1.1, hnd, ?_⟩
  intro fuel hfu
  rcases heap_extract_max_spec fuel hi hh with ⟨m2, L2, e2, hi2, _, hp2, hpr⟩ | ⟨_, hlt⟩
  · refine ⟨m2, L2, e2, Reach.nodes hi2, ?_, List.Perm.cons f hp2, ?_, hpr⟩
    · intro hf2
      exact (List.nodup_cons.1 hnd).1 (hp2.subset hf2)
    · rw [hp2.length_eq]; rfl
  · simp only [List.length_cons] at hfu
    omega

theorem extract_removes_front_witness :
    ∃ m2, heap_extract_max 2 sample_two (some 0) = Except.ok (some 3, m2) ∧
      pq_nodes 2 m2 (some 0) = Except.ok [2] ∧ (rd m2 2).priority = 5 := by
  obtain ⟨L, f, h1, h2, _, h4⟩ := extract_removes_front 0 sample_two reach_two (by decide)
  have e : L = [3, 2] := by
    have h6 := pq_nodes_mono (h1 (L.length + 1) (le_refl _)).1 (le_max_left _ 3)
    have h7 := pq_nodes_mono (show pq_nodes 3 sample_two (some 0) = Except.ok [3, 2] by decide)
      (le_max_right (L.length + 1) 3)
    rw [h6] at h7
    exact Except.ok.inj h7
  subst e
  have ef : f = 3 := by
    have : pq_front sample_two (some 0) = Except.ok (some 3) := by decide
    rw [h2] at this
    exact Option.some.inj (Except.ok.inj this)
  subst ef
  obtain ⟨m2, L2, e2, h5, h6, h7, h8, h9⟩ := h4 2 (by decide)
  have eL2 : L2 = [2] := by
    have hl : L2.length = 1 := by simpa using h8
    obtain ⟨y, rfl⟩ := List.length_eq_one.1 hl
    exact List.perm_singleton.1 h7.cons_inv
  subst eL2
  exact ⟨m2, e2, (h5 2 (by decide)).1, by rw [h9]; rfl⟩

/-! ## Runs of insertions and of extractions -/

theorem extract_all_succ (fuel : Nat) (q k : Nat) (m : Mem) :
    extract_all fuel (some q) (k + 1) m =
      heap_extract_max fuel m (some q) >>= fun r =>
      load r.2 r.1 >>= fun e =>
      extract_all fuel (some q) k r.2 >>= fun r2 =>
      Except.ok (e.priority :: r2.1, r2.2) := rfl

theorem extract_run_spec (q : Nat) : ∀ (k : Nat) (m : Mem) (L : List Nat) (fuel : Nat),
    Inv m q L → HeapOrd (prio m) L → k ≤ L.length → L.length ≤ fuel →
    ∃ out m3 L3, extract_all fuel (some q) k m = Except.ok (out, m3) ∧ Inv m3 q L3 ∧
      HeapOrd (prio m3) L3 ∧ out.length = k ∧ out.Pairwise (fun a b => b ≤ a) ∧
      (∀ a ∈ out, ∀ x ∈ L3, prio m3 x ≤ a) ∧
      (out ++ L3.map (prio m3)).Perm (L.map (prio m))
  | 0, m, L, fuel, hi, hh, _, _ =>
    ⟨[], m, L, rfl, hi, hh, rfl, List.Pairwise.nil, by simp, by simp⟩
  | k + 1, m, L, fuel, hi, hh, hk, hf => by
    cases L with
    | nil => simp at hk
    | cons f T =>
      simp only [List.length_cons] at hk hf
      rcases heap_extract_max_spec fuel hi hh with ⟨m2, L2, e2, hi2, hh2, hp2, hpr⟩ | ⟨_, hlt⟩
      · have hlen : L2.length = T.length := hp2.length_eq
        obtain ⟨out, m3, L3, e3, hi3, hh3, hol, hpw, hle, hperm⟩ :=
          extract_run_spec q k m2 L2 fuel hi2 hh2 (by omega) (by omega)
        have hmap : (L2.map (prio m2)).Perm (T.map (prio m)) := by
          have h1 : L2.map (prio m2) = L2.map (prio m) := List.map_congr_left (fun x _ => hpr x)
          rw [h1]
          exact hp2.map _
        have hall : ∀ b ∈ out ++ L3.map (prio m3), b ≤ prio m f := by
          intro b hb
          have hb2 : b ∈ T.map (prio m) := (hperm.trans hmap).subset hb
          obtain ⟨x, hx, rfl⟩ := List.mem_map.1 hb2
          obtain ⟨i, hix⟩ := List.getElem?_of_mem (List.mem_cons_of_mem f hx)
          exact hh.front_max (by simp) i x hix
        refine ⟨prio m f :: out, m3, L3, ?_, hi3, hh3, by simp [hol], ?_, ?_, ?_⟩
        · rw [extract_all_succ, e2, ok_bind]
          simp only [load_some, ok_bind, e3]
          have : (rd m2 f).priority = prio m f := hpr f
          rw [this]
        · rw [List.pairwise_cons]
          exact ⟨fun b hb => hall b (List.mem_append_left _ hb), hpw⟩
        · intro a ha x hx
          rcases List.mem_cons.1 ha with rfl | ha
          · exact hall _ (List.mem_append_right _ (List.mem_map_of_mem _ hx))
          · exact hle a ha x hx
        · rw [List.cons_append, List.map_cons]
          exact List.Perm.cons _ (hperm.trans hmap)
      · omega

theorem insert_all_spec (q : Nat) : ∀ (ns : List (Nat × Int)) (m : Mem) (L : List Nat)
    (fuel : Nat), Inv m q L → HeapOrd (prio m) L →
    (q :: ((L ++ ns.map Prod.fst) ++ [q + 1])).Nodup → L.length + ns.length ≤ fuel →
    ∃ m2 L2, insert_all fuel (some q) m ns = Except.ok m2 ∧ Inv m2 q L2 ∧
      HeapOrd (prio m2) L2 ∧ L2.Perm (L ++ ns.map Prod.fst) ∧
      (L2.map (prio m2)).Perm (L.map (prio m) ++ ns.map Prod.snd)
  | [], m, L, fuel, hi, hh, _, _ =>
    ⟨m, L, rfl, hi, hh, by simp, by simp⟩
  | (e, p) :: ns, m, L, fuel, hi, hh, hnd, hf => by
    simp only [List.length_cons] at hf
    obtain ⟨he, hens, hnd2⟩ :=
      fresh_of_nodup (q := q) (e := e) (L := L) (R := ns.map Prod.fst) hnd
    have heL : e ∉ L := by
      intro h1; apply he; simp [h1]
    rcases max_heap_insert_spec p fuel hi hh he with
      ⟨m1, L1, e1, hi1, hh1, hp1, hpe, hpo⟩ | ⟨_, hle⟩
    · have hperm1 : L1.Perm (L ++ [e]) := hp1.trans (List.perm_append_singleton e L).symm
      have hnd3 : (q :: ((L1 ++ ns.map Prod.fst) ++ [q + 1])).Nodup := by
        have : (q :: ((L1 ++ ns.map Prod.fst) ++ [q + 1])).Perm
            (q :: (((L ++ [e]) ++ ns.map Prod.fst) ++ [q + 1])) :=
          List.Perm.cons _ (List.Perm.append_right _ (List.Perm.append_right _ hperm1))
        exact this.nodup_iff.2 hnd2
      obtain ⟨m2, L2, e2, hi2, hh2, hp2, hpr2⟩ :=
        insert_all_spec q ns m1 L1 fuel hi1 hh1 hnd3 (by rw [hp1.length_eq]; simp; omega)
      refine ⟨m2, L2, ?_, hi2, hh2, ?_, ?_⟩
      · show (max_heap_insert fuel m (some q) (some e) p >>= fun m1 =>
          insert_all fuel (some q) m1 ns) = Except.ok m2
        rw [e1, ok_bind, e2]
      · have h1 : (L1 ++ ns.map Prod.fst).Perm ((L ++ [e]) ++ ns.map Prod.fst) :=
          List.Perm.append_right _ hperm1
        simpa using hp2.trans h1
      · have h1 : L1.map (prio m1) = L1.map (fun x => if x = e then p else prio m x) := by
          apply List.map_congr_left
          intro x _
          by_cases hx : x = e
          · rw [if_pos hx, hx, hpe]
          · rw [if_neg hx, hpo x hx]
        have h2 : (L1.map (prio m1)).Perm (p :: L.map (prio m)) := by
          rw [h1]
          have h3 := hp1.map (fun x => if x = e then p else prio m x)
          rw [List.map_cons, if_pos rfl] at h3
          have h4 : L.map (fun x => if x = e then p else prio m x) = L.map (prio m) := by
            apply List.map_congr_left
            intro x hx
            have hxe : x ≠ e := fun h5 => heL (h5 ▸ hx)
            rw [if_neg hxe]
          rw [h4] at h3
          exact h3
        have h5 : (L1.map (prio m1) ++ ns.map Prod.snd).Perm
            (L.map (prio m) ++ p :: ns.map Prod.snd) :=
          (List.Perm.append_right _ h2).trans (by
            rw [List.cons_append]; exact List.perm_middle.symm)
        simpa using hpr2.trans h5
    · omega

/-- C1: for every list `ns` of (node, priority) pairs with distinct nodes, none
a sentinel, and every budget of at least `ns.length`: starting from
`pq_init`, the `ns.length` calls of `max_heap_insert` and then the `ns.length`
calls of `heap_extract_max` all return, the priorities of the returned nodes
are in non-increasing order and are a rearrangement of the inserted
priorities, and `pq_empty` is true afterwards. -/
theorem heap_sort_round_trip (m0 : Mem) (q : Nat) (ns : List (Nat × Int))
    (hfresh : (q :: (ns.map Prod.fst ++ [q + 1])).Nodup) (fuel : Nat)
    (hf : ns.length ≤ fuel) :
    ∃ m1 m2 m3 out, pq_init m0 (some q) = Except.ok m1 ∧
      insert_all fuel (some q) m1 ns = Except.ok m2 ∧
      extract_all fuel (some q) ns.length m2 = Except.ok (out, m3) ∧
      out.Pairwise (fun a b => b ≤ a) ∧ out.Perm (ns.map Prod.snd) ∧
      pq_empty m3 (some q) = Except.ok true := by
  have hi0 : Inv (init_mem m0 q) q [] :=
    ⟨init_mem_wf m0 q, fun r x y hr => by simp at hr, fun r x hr => by simp at hr⟩
  have hh0 : HeapOrd (prio (init_mem m0 q)) [] := fun r c x y hr => by simp at hr
  obtain ⟨m2, L2, e2, hi2, hh2, hp2, hpr2⟩ :=
    insert_all_spec q ns (init_mem m0 q) [] fuel hi0 hh0 (by simpa using hfresh)
      (by simpa using hf)
  have hlen : L2.length = ns.length := by
    have := hp2.length_eq
    simpa using this
  obtain ⟨out, m3, L3, e3, hi3, _, hol, hpw, _, hperm⟩ :=
    extract_run_spec q ns.length m2 L2 fuel hi2 hh2 (by omega) (by omega)
  have hL3 : L3 = [] := by
    have h1 := hperm.length_eq
    simp only [List.length_append, List.length_map] at h1
    exact List.eq_nil_of_length_eq_zero (by omega)
  subst hL3
  refine ⟨init_mem m0 q, m2, m3, out, pq_init_eq m0 q, e2, e3, hpw, ?_, ?_⟩
  · have h1 : out.Perm (L2.map (prio m2)) := by simpa using hperm
    exact h1.trans (by simpa using hpr2)
  · simpa using pq_empty_eq hi3.1.1

theorem heap_sort_round_trip_witness :
    ∃ m1 m2 m3 out, pq_init (zeros 2) (some 0) = Except.ok m1 ∧
      insert_all 3 (some 0) m1 [(2, 5), (3, 7), (4, 1)] = Except.ok m2 ∧
      extract_all 3 (some 0) 3 m2 = Except.ok (out, m3) ∧
      out.Pairwise (fun a b => b ≤ a) ∧ out.Perm [5, 7, 1] ∧
      pq_empty m3 (some 0) = Except.ok true :=
  heap_sort_round_trip (zeros 2) 0 [(2, 5), (3, 7), (4, 1)] (by decide) 3 (by decide)

/-- C17 (as amended): from every state reachable from `pq_init` by
`max_heap_insert` and `heap_extract_max`, with linked nodes `L`, any run of
`k ≤ L.length` consecutive `heap_extract_max` calls (no insertion in between,
budget at least `L.length`) returns; the priorities returned are in
non-increasing order, and each of them is at least the priority of every node
still linked after the run. -/
theorem extraction_run_non_increasing (q : Nat) (m : Mem) (h : Reach q m) :
    ∃ L, (∀ fuel, L.length + 1 ≤ fuel → pq_nodes fuel m (some q) = Except.ok L) ∧
      ∀ (k fuel : Nat), k ≤ L.length → L.length ≤ fuel →
        ∃ out m3 L3, extract_all fuel (some q) k m = Except.ok (out, m3) ∧
          (∀ fuel2, L3.length + 1 ≤ fuel2 → pq_nodes fuel2 m3 (some q) = Except.ok L3) ∧
          out.length = k ∧ out.Pairwise (fun a b => b ≤ a) ∧
          (∀ a ∈ out, ∀ x ∈ L3, (rd m3 x).priority ≤ a) ∧
          (out ++ L3.map (fun x => (rd m3 x).priority)).Perm
            (L.map (fun x => (rd m x).priority)) := by
  obtain ⟨L, hi, hh⟩ := h.good
  refine ⟨L, fun fuel hf => (Reach.nodes hi fuel hf).1, ?_⟩
  intro k fuel hk hf
  obtain ⟨out, m3, L3, e3, hi3, _, hol, hpw, hle, hperm⟩ :=
    extract_run_spec q k m L fuel hi hh hk hf
  exact ⟨out, m3, L3, e3, fun fuel2 hf2 => (Reach.nodes hi3 fuel2 hf2).1, hol, hpw, hle, hperm⟩

theorem extraction_run_non_increasing_witness :
    ∃ out m3, extract_all 2 (some 0) 2 sample_two = Except.ok (out, m3) ∧
      out.Pairwise (fun a b => b ≤ a) ∧ out.length = 2 := by
  obtain ⟨L, h1, h2⟩ := extraction_run_non_increasing 0 sample_two reach_two
  have e : L = [3, 2] := by
    have h6 := pq_nodes_mono (h1 (L.length + 1) (le_refl _)) (le_max_left _ 3)
    have h7 := pq_nodes_mono (show pq_nodes 3 sample_two (some 0) = Except.ok [3, 2] by decide)
      (le_max_right (L.length + 1) 3)
    rw [h6] at h7
    exact Except.ok.inj h7
  subst e
  obtain ⟨out, m3, L3, e3, _, hol, hpw, _, _⟩ := h2 2 2 (by decide) (by decide)
  exact ⟨out, m3, e3, hpw, hol⟩

/-! ## The loop of `percolate` -/

theorem PercAt.step {q : Nat} {m : Mem} {b c : Nat} (h : PercAt q m b c) :
    (rd m b).id = (c : Int) + 1 ∧
    (c = 0 → pq_front m (some q) = Except.ok (some b) ∧
      ∀ fuel, percolate (fuel + 1) m (some q) (some b) = Except.ok m) ∧
    (c ≠ 0 → pq_front m (some q) ≠ Except.ok (some b) ∧
      ∃ g, (rd m b).parent = some g ∧
        ((rd m g).priority < (rd m b).priority →
          ∃ m2, exchange m (some b) (some g) = Except.ok m2 ∧
            (rd m2 b).id = (rd m b).id / 2 ∧ PercAt q m2 b ((c + 1) / 2 - 1) ∧
            ∀ fuel, percolate (fuel + 1) m (some q) (some b)
              = percolate fuel m2 (some q) (some b)) ∧
        (¬ (rd m g).priority < (rd m b).priority →
          ∀ fuel, percolate (fuel + 1) m (some q) (some b) = Except.ok m)) := by
  obtain ⟨L, hi, hb, hpar⟩ := h
  have hclt : c < L.length := (List.getElem?_eq_some.1 hb).1
  have hnd : L.Nodup := hi.1.1.nodup
  have hfront : L[0]? = some (firstOr (q + 1) L) := by
    cases L with
    | nil => simp at hclt
    | cons f T => simp [firstOr]
  have hid : (rd m b).id = (c : Int) + 1 := by
    rw [Ids.getElem hi.1.2.2 hb]; ring
  refine ⟨hid, ?_, ?_⟩
  · intro h0
    subst h0
    have hbf : b = firstOr (q + 1) L := by
      rw [hfront] at hb; exact (Option.some.inj hb).symm
    refine ⟨by rw [pq_front_eq hi.1.1, ← hbf], fun fuel => ?_⟩
    rw [percolate_unfold fuel m q b hi.1.1, if_pos hbf]
  · intro h0
    have hbf : b ≠ firstOr (q + 1) L := by
      intro e
      rw [← e] at hfront
      exact h0 (nodup_getElem?_inj hnd hb hfront)
    have hrlt : (c + 1) / 2 - 1 < L.length := by omega
    have hra : L[(c + 1) / 2 - 1]? = some (L[(c + 1) / 2 - 1]) := List.getElem?_eq_getElem hrlt
    have hpg : (rd m b).parent = some (L[(c + 1) / 2 - 1]) := by rw [hpar h0, hra]
    refine ⟨?_, L[(c + 1) / 2 - 1], hpg, ?_, ?_⟩
    · rw [pq_front_eq hi.1.1]
      intro e
      exact hbf (Option.some.inj (Except.ok.inj e)).symm
    · intro hlt
      obtain ⟨m2, L2, e1, hi2, hs, hlen, hperm, hpr, hfp⟩ :=
        exchange_up_step hi hra hb (by omega)
      have hb2 : L2[(c + 1) / 2 - 1]? = some b := by rw [hs.2.2, if_pos rfl]
      refine ⟨m2, e1, ?_, ⟨L2, hi2, hb2, hfp⟩, fun fuel => ?_⟩
      · rw [Ids.getElem hi2.1.2.2 hb2, hid]
        have h2 : ((c : Int) + 1) / 2 = (((c + 1) / 2 : Nat) : Int) := by
          push_cast; rfl
        rw [h2]
        have h3 : (c + 1) / 2 = ((c + 1) / 2 - 1) + 1 := by omega
        rw [h3]
        push_cast
        omega
      · rw [percolate_unfold fuel m q b hi.1.1, if_neg hbf, hpg, load_some, ok_bind,
          if_pos hlt, e1, ok_bind]
    · intro hlt fuel
      rw [percolate_unfold fuel m q b hi.1.1, if_neg hbf, hpg, load_some, ok_bind, if_neg hlt]

/-- C19: from every state reachable from `pq_init` by `max_heap_insert` and
`heap_extract_max`, with linked nodes `L`, when `max_heap_insert` appends an
unlinked node `e` it gets id `L.length + 1` and `percolate` starts in a loop
state `PercAt`. In every such loop state the node of id `c + 1` is the front
exactly when `c = 0`, and then the loop ends; otherwise its parent slot holds
a node `g`, and the loop either ends or exchanges `e` with `g`, which moves
`e` to id `(c + 1) / 2` in a loop state again. With a budget of at least
`L.length + 1` iterations `percolate`, and so `max_heap_insert`, returns. -/
theorem percolate_terminates (q : Nat) (m : Mem) (h : Reach q m) (e : Nat) (p : Int)
    (L : List Nat) (fuel0 : Nat) (hn : pq_nodes fuel0 m (some q) = Except.ok L)
    (he : e ∉ q :: (L ++ [q + 1])) :
    ∃ m1, pq_push_back m (some q) (some e) p = Except.ok m1 ∧
      (rd m1 e).id = (L.length : Int) + 1 ∧ PercAt q m1 e L.length ∧
      (∀ (m2 : Mem) (c : Nat), PercAt q m2 e c →
        (rd m2 e).id = (c : Int) + 1 ∧
        (c = 0 → pq_front m2 (some q) = Except.ok (some e) ∧
          ∀ fuel, percolate (fuel + 1) m2 (some q) (some e) = Except.ok m2) ∧
        (c ≠ 0 → pq_front m2 (some q) ≠ Except.ok (some e) ∧
          ∃ g, (rd m2 e).parent = some g ∧
            ((rd m2 g).priority < (rd m2 e).priority →
              ∃ m3, exchange m2 (some e) (some g) = Except.ok m3 ∧
                (rd m3 e).id = (rd m2 e).id / 2 ∧ PercAt q m3 e ((c + 1) / 2 - 1) ∧
                ∀ fuel, percolate (fuel + 1) m2 (some q) (some e)
                  = percolate fuel m3 (some q) (some e)) ∧
            (¬ (rd m2 g).priority < (rd m2 e).priority →
              ∀ fuel, percolate (fuel + 1) m2 (some q) (some e) = Except.ok m2))) ∧
      (∀ fuel, L.length + 1 ≤ fuel →
        ∃ m4, percolate fuel m1 (some q) (some e) = Except.ok m4 ∧
          max_heap_insert fuel m (some q) (some e) p = Except.ok m4) := by
  obtain ⟨L0, hi, hh⟩ := h.good
  have hL := pq_nodes_unique hi.1.1 hn
  subst hL
  obtain ⟨m1, e1, hi1, hpe, hpo, hpar⟩ := push_back_inv p hi he
  have hlast : (L ++ [e])[L.length]? = some e := getElem?_snoc_last L e
  have hpa : PercAt q m1 e L.length := ⟨L ++ [e], hi1, hlast, hpar⟩
  refine ⟨m1, e1, hpa.step.1, hpa, fun m2 c hc => hc.step, ?_⟩
  intro fuel hf
  rcases max_heap_insert_spec p fuel hi hh he with ⟨m4, _, e4, _⟩ | ⟨_, hle⟩
  · refine ⟨m4, ?_, e4⟩
    unfold max_heap_insert at e4
    rw [e1, ok_bind] at e4
    exact e4
  · omega

theorem percolate_terminates_witness :
    ∃ m1 m4, pq_push_back sample_one (some 0) (some 3) 7 = Except.ok m1 ∧
      (rd m1 3).id = 2 ∧ percolate 2 m1 (some 0) (some 3) = Except.ok m4 ∧
      max_heap_insert 2 sample_one (some 0) (some 3) 7 = Except.ok m4 := by
  obtain ⟨m1, h1, h2, _, _, h5⟩ :=
    percolate_terminates 0 sample_one reach_one 3 7 [2] 2 (by decide) (by decide)
  obtain ⟨m4, h6, h7⟩ := h5 2 (by decide)
  exact ⟨m1, m4, h1, by rw [h2]; rfl, h6, h7⟩

end PriorityQueue
